import Mathlib

/-!
# EasyLaTex: a verification development for `easylatex.c`

C strings are modelled as `List Char` (no NUL inside), `int` as `Int`,
`stdout` as a list of emission events whose bytes are their concatenation,
and the input stream `fp` as the list of records that successive `read_line`
calls return.
-/

namespace EasyLatex

/-- A C string. -/
abbrev Str := List Char

/-- The macro `TAB_WIDTH`. -/
def TAB_WIDTH : Int := 4

inductive BlockKind where
  | BLK_ENV | BLK_MATH | BLK_PYTHON | BLK_RAW
deriving DecidableEq, Repr

inductive PyResultsMode where
  | PYRES_VERBATIM | PYRES_TEX
deriving DecidableEq, Repr

/-- The struct `Block`; `env_name` and `math_pending` are nullable pointers
(`env_name` is only read for `BLK_ENV`, where it is set), `py_code` is the
`StrBuf` (empty when its data pointer is NULL). -/
structure Block where
  kind : BlockKind
  indent_cols : Int
  env_name : Str
  is_list : Bool
  math_base_cols : Int
  math_pending : Option Str
  math_raw_sticky : Bool
  py_base_cols : Int
  py_mode : PyResultsMode
  py_code : Str
  raw_base_cols : Int
deriving DecidableEq, Repr

/-- The initialiser `Block b={0}`. -/
def Block.zero : Block :=
  { kind := BlockKind.BLK_ENV, indent_cols := 0, env_name := [], is_list := false,
    math_base_cols := 0, math_pending := none, math_raw_sticky := false,
    py_base_cols := 0, py_mode := PyResultsMode.PYRES_VERBATIM, py_code := [],
    raw_base_cols := 0 }

/-! ## Character classes of `<ctype.h>` in the C locale -/

def isspace (c : Char) : Bool :=
  c == ' ' || c == '\t' || c == '\n' || c == '\x0b' || c == '\x0c' || c == '\r'

def isalpha (c : Char) : Bool :=
  (65 ≤ c.toNat && c.toNat ≤ 90) || (97 ≤ c.toNat && c.toNat ≤ 122)

def isdigit (c : Char) : Bool := 48 ≤ c.toNat && c.toNat ≤ 57

def isalnum (c : Char) : Bool := isalpha c || isdigit c

def tolower (c : Char) : Char :=
  if 65 ≤ c.toNat && c.toNat ≤ 90 then Char.ofNat (c.toNat + 32) else c

/-! ## Line utilities -/

/-- The characters `rstrip_inplace` removes. -/
def is_rstrip_char (c : Char) : Bool :=
  c == ' ' || c == '\t' || c == '\r' || c == '\n'

/-- The function `rstrip_inplace`: drop trailing space, tab, CR, LF. -/
def rstrip_inplace (s : Str) : Str :=
  (s.reverse.dropWhile is_rstrip_char).reverse

/-- The test `c==' '||c=='\t'`. -/
def is_sp (c : Char) : Bool := c == ' ' || c == '\t'

/-- The function `lskip_spaces`. -/
def lskip_spaces (s : Str) : Str := s.dropWhile is_sp

/-- The function `is_blank_line`. -/
def is_blank_line (s : Str) : Bool := s.all isspace

/-- The function `calc_indent_cols`: the column width of the leading
indentation and the number of bytes it takes (`*consumed_bytes`). -/
def calc_indent_cols : Str → Int × Nat
  | [] => (0, 0)
  | c :: cs =>
    if is_sp c then
      let r := calc_indent_cols cs
      (r.1 + (if c == '\t' then TAB_WIDTH else 1), r.2 + 1)
    else (0, 0)

/-- The loop of `strip_cols`, with `cols` columns stripped so far. -/
def strip_cols_from : Str → Int → Int → Str
  | [], _, _ => []
  | c :: cs, cols, cols_to_strip =>
    if is_sp c then
      let add : Int := if c == '\t' then TAB_WIDTH else 1
      if cols + add > cols_to_strip then c :: cs
      else if cols + add = cols_to_strip then cs
      else strip_cols_from cs (cols + add) cols_to_strip
    else c :: cs

/-- The function `strip_cols`. -/
def strip_cols (line : Str) (cols_to_strip : Int) : Str :=
  strip_cols_from line 0 cols_to_strip

/-- The function `read_line` over a byte stream: the next record, up to and
including its newline, and the rest of the stream; `none` at end of file. -/
def read_line : Str → Option (Str × Str)
  | [] => none
  | c :: cs =>
    if c == '\n' then some ([c], cs)
    else
      match read_line cs with
      | none => some ([c], [])
      | some (l, rest) => some (c :: l, rest)

/-- All the records `read_line` returns on a byte stream, in order. -/
def read_lines : Str → List Str
  | [] => []
  | c :: cs =>
    if c == '\n' then [c] :: read_lines cs
    else
      match read_lines cs with
      | [] => [[c]]
      | l :: ls => (c :: l) :: ls

/-! ## Vocabularies -/

def streq (a b : Str) : Bool := a == b

def is_list_env_name (env : Str) : Bool :=
  streq env "itemize".toList || streq env "enumerate".toList || streq env "description".toList

def title_commands : List Str :=
  ["part", "chapter", "section", "subsection", "subsubsection", "paragraph",
   "subparagraph", "frametitle", "framesubtitle"].map String.toList

def is_title_command (name : Str) : Bool := title_commands.any (streq name)

def braced_commands : List Str :=
  ["title", "subtitle", "author", "institute", "date", "caption", "label", "ref",
   "pageref", "nameref", "eqref", "url", "href", "emph", "textbf", "textit", "texttt",
   "textsc", "underline", "textrm", "textsf", "textmd", "textup", "textsl",
   "textnormal", "textsuperscript", "textsubscript", "input", "include",
   "includegraphics"].map String.toList

def is_braced_command (name : Str) : Bool := braced_commands.any (streq name)

def nobody_commands : List Str :=
  ["tableofcontents", "listoffigures", "listoftables", "maketitle", "newpage",
   "clearpage", "cleardoublepage", "smallskip", "medskip", "bigskip", "linebreak",
   "pagebreak", "nolinebreak", "nopagebreak", "pause", "centering", "raggedright",
   "raggedleft"].map String.toList

def is_nobody_command (name : Str) : Bool := nobody_commands.any (streq name)

def known_environments : List Str :=
  ["center", "flushleft", "flushright", "quote", "quotation", "verse", "abstract",
   "titlepage", "itemize", "enumerate", "description", "figure", "figure*", "table",
   "table*", "tabular", "tabular*", "tabularx", "longtable", "equation", "equation*",
   "align", "align*", "gather", "gather*", "multline", "multline*", "flalign",
   "flalign*", "split", "cases", "theorem", "lemma", "proposition", "corollary",
   "claim", "definition", "example", "remark", "proof", "thebibliography", "minipage",
   "verbatim", "lstlisting"].map String.toList

def is_known_environment (name : Str) : Bool := known_environments.any (streq name)

def is_recognized_header_name (name : Str) : Bool :=
  streq name "latex".toList || streq name "math".toList || streq name "python".toList ||
  is_title_command name || is_braced_command name || is_nobody_command name ||
  is_known_environment name

/-! ## Header parser -/

/-- The test `*p=='_'||isalnum(*p)`. -/
def is_ident_char (c : Char) : Bool := c == '_' || isalnum c

/-- The test `*s0=='_' || isalpha(*s0)`. -/
def is_ident_start (c : Char) : Bool := c == '_' || isalpha c

/-- The loop `while (*scan && depth > 0)` of one argument group with opening
character `o` and closing character `c`: the position reached and the final
depth (which never goes below zero, the loop stops there). -/
def scan_group (o c : Char) : Str → Nat → Str × Nat
  | [], depth => ([], depth)
  | x :: xs, depth =>
    if depth = 0 then (x :: xs, depth)
    else if x == o then scan_group o c xs (depth + 1)
    else if x == c then scan_group o c xs (depth - 1)
    else scan_group o c xs depth

/-- The `for (;;)` loop of `parse_header` over the argument groups: `none` is
`return false` (a group that does not close), `some scan` is the position at
`break`. Every round that continues consumes a whole group, so a fuel of one
more than the length of the text is never used up. -/
def scan_groups : Nat → Str → Option Str
  | 0, _ => none
  | fuel + 1, scan =>
    match scan with
    | [] => some []
    | x :: xs =>
      if x == '[' then
        if (scan_group '[' ']' xs 1).2 ≠ 0 then none
        else scan_groups fuel (lskip_spaces (scan_group '[' ']' xs 1).1)
      else if x == '{' then
        if (scan_group '{' '}' xs 1).2 ≠ 0 then none
        else scan_groups fuel (lskip_spaces (scan_group '{' '}' xs 1).1)
      else some (x :: xs)

/-- The function `parse_header`: `none` is `return false`, `some (name,
args_before, inline_after)` is `return true` with the three out-parameters. -/
def parse_header (content_in : Str) : Option (Str × Str × Str) :=
  let tmp := rstrip_inplace content_in
  match lskip_spaces tmp with
  | [] => none
  | c :: rest =>
    if !(is_ident_start c) then none
    else
      let p := rest.dropWhile is_ident_char
      let name := c :: rest.takeWhile is_ident_char
      match scan_groups ((lskip_spaces p).length + 1) (lskip_spaces p) with
      | none => none
      | some [] => none
      | some (x :: after) =>
        if x != ':' then none
        else
          let args_raw := p.take (p.length - (x :: after).length)
          let args := lskip_spaces (rstrip_inplace args_raw)
          some (name, args, lskip_spaces after)

/-- The function `strchr`: the suffix starting at the first `c`, or `none`. -/
def strchr : Str → Char → Option Str
  | [], _ => none
  | x :: xs, c => if x == c then some (x :: xs) else strchr xs c

/-- The test `strstr(hay, needle) != NULL`. -/
def strstr : Str → Str → Bool
  | [], needle => needle.isEmpty
  | x :: xs, needle => needle.isPrefixOf (x :: xs) || strstr xs needle

/-- The function `parse_python_results_mode`. -/
def parse_python_results_mode (args_before : Str) : PyResultsMode :=
  match strchr args_before '[' with
  | none => PyResultsMode.PYRES_VERBATIM
  | some lb =>
    match strchr (lb.drop 1) ']' with
    | none => PyResultsMode.PYRES_VERBATIM
    | some rb =>
      let n := (lb.drop 1).length - rb.length
      let opt := ((lb.drop 1).take n).map tolower
      if strstr opt "results=tex".toList || strstr opt "results=asis".toList ||
          strstr opt "results=raw".toList then PyResultsMode.PYRES_TEX
      else PyResultsMode.PYRES_VERBATIM

/-! ## Output -/

/-- One write to `stdout`. The two `fprintf` calls that open and close an
environment are kept apart from all other writes. -/
inductive Ev where
  | text (s : Str)
  | begin_env (name args : Str)
  | end_env (name : Str)
deriving DecidableEq, Repr

/-- The bytes a write puts on `stdout`. -/
def Ev.bytes : Ev → Str
  | Ev.text s => s
  | Ev.begin_env name args => "\\begin\x7b".toList ++ name ++ "\x7d".toList ++ args ++ "\n".toList
  | Ev.end_env name => "\\end\x7b".toList ++ name ++ "\x7d\n".toList

/-- The global `g_doc_open` and what has been written to `stdout`. -/
structure Render where
  g_doc_open : Bool
  out : List Ev
deriving DecidableEq, Repr

/-- The bytes on `stdout`. -/
def Render.bytes (r : Render) : Str := (r.out.map Ev.bytes).flatten

/-- A write of `t` to `stdout` (`fputs`, `fputc`, `fprintf`). -/
def fputs (t : Str) (r : Render) : Render := { r with out := r.out ++ [Ev.text t] }

/-- The text `emit_default_preamble_once` writes. -/
def preamble : Str :=
  ("\\documentclass{article}\n" ++
   "\\usepackage[T1]{fontenc}\n" ++
   "\\usepackage[utf8]{inputenc}\n" ++
   "\\usepackage{amsmath}\n" ++
   "\\usepackage{amssymb}\n" ++
   "\\usepackage{amsthm}\n" ++
   "\\usepackage{graphicx}\n" ++
   "\\usepackage{hyperref}\n" ++
   "\\usepackage{booktabs}\n" ++
   "\\usepackage{tabularx}\n" ++
   "\\usepackage{longtable}\n" ++
   "\\usepackage{xcolor}\n" ++
   "\\usepackage{listings}\n" ++
   "\\theoremstyle{plain}\n" ++
   "\\newtheorem{theorem}{Theorem}[section]\n" ++
   "\\newtheorem{lemma}[theorem]{Lemma}\n" ++
   "\\newtheorem{proposition}[theorem]{Proposition}\n" ++
   "\\newtheorem{corollary}[theorem]{Corollary}\n" ++
   "\\newtheorem{claim}[theorem]{Claim}\n" ++
   "\\theoremstyle{definition}\n" ++
   "\\newtheorem{definition}[theorem]{Definition}\n" ++
   "\\newtheorem{example}[theorem]{Example}\n" ++
   "\\theoremstyle{remark}\n" ++
   "\\newtheorem{remark}[theorem]{Remark}\n" ++
   "\\begin{document}\n").toList

/-- The function `emit_default_preamble_once`. -/
def emit_default_preamble_once (r : Render) : Render :=
  if r.g_doc_open then r
  else { g_doc_open := true, out := r.out ++ [Ev.text preamble] }

/-- The function `emit_end_document_if_needed`. -/
def emit_end_document_if_needed (r : Render) : Render :=
  if r.g_doc_open then { g_doc_open := false, out := r.out ++ [Ev.text "\\end{document}\n".toList] }
  else r

/-- What the loop of `fputs_with_n_escapes_inline` writes for `s`. -/
def fputs_with_n_escapes_inline : Str → Str
  | [] => []
  | [c] => [c]
  | c :: d :: rest =>
    if c == '\\' && d == 'n' then "\\\\".toList ++ fputs_with_n_escapes_inline rest
    else c :: fputs_with_n_escapes_inline (d :: rest)

/-- What the loop of `emit_text_with_n_escapes` writes for `s`, before the
final newline. -/
def text_n_escapes : Str → Str
  | [] => []
  | [c] => [c]
  | c :: d :: rest =>
    if c == '\\' && d == 'n' then "\\\\\n".toList ++ text_n_escapes rest
    else c :: text_n_escapes (d :: rest)

/-- The function `emit_text_with_n_escapes`. -/
def emit_text_with_n_escapes (s : Str) (r : Render) : Render :=
  fputs (text_n_escapes s ++ "\n".toList) (emit_default_preamble_once r)

/-- What the loop after `\item ` in `main` writes for `item`, before the final
newline. -/
def item_n_escapes : Str → Str
  | [] => []
  | [c] => [c]
  | c :: d :: rest =>
    if c == '\\' && d == 'n' then "\\\\\n".toList ++ item_n_escapes rest
    else c :: item_n_escapes (d :: rest)

/-! ## Math rows -/

/-- The function `math_flush_pending`. -/
def math_flush_pending (m : Block) (r : Render) : Block × Render :=
  match m.math_pending with
  | some p => ({ m with math_pending := none }, fputs (p ++ "\n".toList) r)
  | none => (m, r)

/-- The function `math_blank_line`. -/
def math_blank_line (m : Block) (r : Render) : Block × Render :=
  match m.math_pending with
  | some p => ({ m with math_pending := none }, fputs (p ++ " \\\\[0.6em]\n".toList) r)
  | none => (m, r)

/-- The scan `while(*q && !(q[0]=='\\' && q[1]=='n')) q++`: the position `q`. -/
def find_bn : Str → Str
  | [] => []
  | c :: cs => if c == '\\' && cs.head? == some 'n' then c :: cs else find_bn cs

/-- The loop `while(*p)` of `math_feed_row`, from position `p`. A round that
continues moves past a backslash-n, so a fuel of one more than the length of
the row is never used up. -/
def math_feed_row_from : Nat → Block → Str → Render → Block × Render
  | 0, m, _, r => (m, r)
  | fuel + 1, m, p, r =>
    if p = [] then (m, r)
    else
      let q := find_bn p
      let part := p.take (p.length - q.length)
      let r1 := match m.math_pending with
        | some pend => fputs (pend ++ " \\\\\n".toList) r
        | none => r
      let m1 := { m with math_pending := some part }
      if q = [] then (m1, r1)
      else math_feed_row_from fuel m1 (q.drop 2) r1

/-- The function `math_feed_row`. -/
def math_feed_row (m : Block) (row_text : Str) (r : Render) : Block × Render :=
  math_feed_row_from (row_text.length + 1) m row_text r

/-! ## Blocks -/

/-- The function `inside_list_env`; the head of the list is the top of the
stack. -/
def inside_list_env (st : List Block) : Bool :=
  match st with
  | [] => false
  | top :: _ => top.kind == BlockKind.BLK_ENV && top.is_list

/-- The function `strip_list_marker`. -/
def strip_list_marker (s : Str) : Str :=
  match lskip_spaces s with
  | c :: d :: rest => if (c == '-' || c == '*') && d == ' ' then rest else c :: d :: rest
  | t => t

/-- The function `looks_like_command_call`. -/
def looks_like_command_call (content : Str) : Bool :=
  match content with
  | [] => false
  | c :: rest =>
    if !(is_ident_start c) then false
    else
      match rest.dropWhile is_ident_char with
      | [] => false
      | x :: _ => x == '{' || x == '['

/-- The text written for a captured output `out`: `fputs(out)` and the
newline added when `out` is non-empty and does not end in one. -/
def with_final_newline (out : Str) : Str :=
  if out ≠ [] ∧ out.getLast? ≠ some '\n' then out ++ "\n".toList else out

/-- The body of `close_one_block` for the block `b` that `stack_pop` returns;
`py` is `run_python_and_capture`. -/
def close_one_block (py : Str → Str) (b : Block) (r : Render) : Render :=
  match b.kind with
  | BlockKind.BLK_ENV =>
    let r1 := emit_default_preamble_once r
    { r1 with out := r1.out ++ [Ev.end_env b.env_name] }
  | BlockKind.BLK_RAW => r
  | BlockKind.BLK_MATH =>
    fputs "\\end{aligned}\n\\]\n".toList (math_flush_pending b r).2
  | BlockKind.BLK_PYTHON =>
    let out := py b.py_code
    let r1 := emit_default_preamble_once r
    if b.py_mode = PyResultsMode.PYRES_TEX then
      fputs (with_final_newline out) r1
    else
      fputs "\\end{verbatim}\n".toList
        (fputs (with_final_newline out) (fputs "\\begin{verbatim}\n".toList r1))

/-- The function `close_blocks_for_indent`: the stack and the output it
leaves. -/
def close_blocks_for_indent (py : Str → Str) (indent_cols : Int) :
    List Block → Render → List Block × Render
  | [], r => ([], r)
  | top :: rest, r =>
    if indent_cols ≤ top.indent_cols then
      close_blocks_for_indent py indent_cols rest (close_one_block py top r)
    else (top :: rest, r)

/-- The loop `while(st.len>0) close_one_block(&st)` at the end of `main`. -/
def close_all (py : Str → Str) : List Block → Render → Render
  | [], r => r
  | top :: rest, r => close_all py rest (close_one_block py top r)

/-! ## The main loop -/

/-- The variables of `main`: the block stack `st` (top first), the output
state, the pushback slot `pending_line`, and the records still to be read
from `fp`. -/
structure State where
  st : List Block
  r : Render
  pending_line : Option Str
  fp : List Str
deriving DecidableEq, Repr

/-- The lookahead loop that follows a no-body command and the inline-argument
form of a braced or title command (the three copies are the same): blank and
deeper lines are freed, the first other line goes to `pending_line`. Gives
`pending_line` and the records left in `fp`. -/
def skip_deeper (indent_cols : Int) : List Str → Option Str × List Str
  | [] => (none, [])
  | nxt0 :: fp =>
    let nxt := rstrip_inplace nxt0
    let ind2 := (calc_indent_cols nxt).1
    let ct2 := nxt.drop (calc_indent_cols nxt).2
    if is_blank_line ct2 then skip_deeper indent_cols fp
    else if ind2 > indent_cols then skip_deeper indent_cols fp
    else (some nxt, fp)

/-- The lookahead loop of the body form of a braced command, with the body
collected so far: gives the body, `pending_line` and the records left. -/
def collect_body (indent_cols : Int) : List Str → Str → Str × Option Str × List Str
  | [], body => (body, none, [])
  | nxt0 :: fp, body =>
    let nxt := rstrip_inplace nxt0
    let ind2 := (calc_indent_cols nxt).1
    let ct2 := nxt.drop (calc_indent_cols nxt).2
    if is_blank_line ct2 then collect_body indent_cols fp body
    else if ind2 ≤ indent_cols then (body, some nxt, fp)
    else
      let t := lskip_spaces ct2
      collect_body indent_cols fp
        ((if body.length > 0 then body ++ " \\\\ ".toList else body) ++ t)

/-- The lookahead loop of the body form of a title command: gives `title`
(`none` is NULL), `pending_line` and the records left. -/
def read_title (indent_cols : Int) : List Str → Option Str × Option Str × List Str
  | [] => (none, none, [])
  | nxt0 :: fp =>
    let nxt := rstrip_inplace nxt0
    let ind2 := (calc_indent_cols nxt).1
    let ct2 := nxt.drop (calc_indent_cols nxt).2
    if is_blank_line ct2 then read_title indent_cols fp
    else if ind2 ≤ indent_cols then (none, some nxt, fp)
    else (some (lskip_spaces ct2), none, fp)

/-- The branch `if(is_nobody_command(name))` of `main`. -/
def do_nobody (name : Str) (indent_cols : Int) (s : State) : State :=
  let r1 := fputs ("\\".toList ++ name ++ "\n".toList) (emit_default_preamble_once s.r)
  let la := skip_deeper indent_cols s.fp
  { s with r := r1, pending_line := la.1, fp := la.2 }

/-- The inline-argument form `if(args_before[0] != '\0')` of a braced or title
command. -/
def do_inline_args (name args_before : Str) (indent_cols : Int) (s : State) : State :=
  let r1 := fputs ("\\".toList ++ name ++ args_before ++ "\n".toList)
    (emit_default_preamble_once s.r)
  let la := skip_deeper indent_cols s.fp
  { s with r := r1, pending_line := la.1, fp := la.2 }

/-- The branch `if(is_braced_command(name))` of `main`. -/
def do_braced (name args_before inline_after : Str) (indent_cols : Int) (s : State) : State :=
  if args_before ≠ [] then do_inline_args name args_before indent_cols s
  else
    let r0 := emit_default_preamble_once s.r
    let la := collect_body indent_cols s.fp inline_after
    { s with r := fputs ("\\".toList ++ name ++ "\x7b".toList ++
                      fputs_with_n_escapes_inline la.1 ++ "\x7d\n".toList) r0,
             pending_line := la.2.1, fp := la.2.2 }

/-- The branch `if(is_title_command(name))` of `main`. -/
def do_title (name args_before inline_after : Str) (indent_cols : Int) (s : State) : State :=
  if args_before ≠ [] then do_inline_args name args_before indent_cols s
  else
    let r0 := emit_default_preamble_once s.r
    let la : Option Str × Option Str × List Str :=
      if inline_after ≠ [] then (some inline_after, none, s.fp)
      else read_title indent_cols s.fp
    let title := la.1.getD []
    { s with r := fputs ("\\".toList ++ name ++ "\x7b".toList ++
                      fputs_with_n_escapes_inline title ++ "\x7d\n".toList) r0,
             pending_line := la.2.1, fp := la.2.2 }

/-- The part of the loop body of `main` from `parse_header` on, when it
matches with `name`, `args_before`, `inline_after`. -/
def dispatch_header (content name args_before inline_after : Str) (indent_cols : Int)
    (s : State) : State :=
  if !(is_recognized_header_name name) then
    { s with r := emit_text_with_n_escapes content s.r }
  else if is_nobody_command name then do_nobody name indent_cols s
  else if is_braced_command name then do_braced name args_before inline_after indent_cols s
  else if is_title_command name then do_title name args_before inline_after indent_cols s
  else if streq name "latex".toList then
    { s with st := { Block.zero with kind := BlockKind.BLK_RAW, indent_cols := indent_cols,
                                     raw_base_cols := -1 } :: s.st }
  else if streq name "math".toList then
    { s with
      r := fputs "\\[\n\\begin{aligned}\n".toList (emit_default_preamble_once s.r),
      st := { Block.zero with kind := BlockKind.BLK_MATH, indent_cols := indent_cols,
                              math_base_cols := -1, math_pending := none,
                              math_raw_sticky := false } :: s.st }
  else if streq name "python".toList then
    { s with st := { Block.zero with kind := BlockKind.BLK_PYTHON, indent_cols := indent_cols,
                                     py_base_cols := -1,
                                     py_mode := parse_python_results_mode args_before,
                                     py_code := [] } :: s.st }
  else if is_known_environment name then
    let r0 := emit_default_preamble_once s.r
    let r1 : Render := { r0 with out := r0.out ++ [Ev.begin_env name args_before] }
    let b : Block := { Block.zero with kind := BlockKind.BLK_ENV, indent_cols := indent_cols,
                                       env_name := name, is_list := is_list_env_name name }
    { s with st := b :: s.st,
             r := if inline_after ≠ [] then emit_text_with_n_escapes inline_after r1 else r1 }
  else { s with r := emit_text_with_n_escapes content s.r }

/-- The fallback of the loop body of `main`, when `parse_header` does not
match. -/
def dispatch_literal (content : Str) (s : State) : State :=
  if content.head? = some '\\' then
    { s with r := fputs (content ++ "\n".toList) (emit_default_preamble_once s.r) }
  else if looks_like_command_call content then
    { s with r := fputs ("\\".toList ++ content ++ "\n".toList) (emit_default_preamble_once s.r) }
  else if inside_list_env s.st then
    let item := strip_list_marker content
    { s with r := fputs ("\\item ".toList ++ item_n_escapes item ++ "\n".toList)
                    (emit_default_preamble_once s.r) }
  else { s with r := emit_text_with_n_escapes content s.r }

/-- The loop body of `main` after the closing pass and the consuming
dispatch: header attempt, then fallback. -/
def dispatch_line (content : Str) (indent_cols : Int) (s : State) : State :=
  match parse_header content with
  | some (name, args_before, inline_after) =>
    dispatch_header content name args_before inline_after indent_cols s
  | none => dispatch_literal content s

/-- The consuming dispatch of `main` for a top block `top` of kind Raw, Math
or Code (the rest of the stack is `rest`), or the header attempt otherwise. -/
def dispatch_top (line content : Str) (indent_cols : Int) (s : State) : State :=
  match s.st with
  | [] => dispatch_line content indent_cols s
  | top :: rest =>
    match top.kind with
    | BlockKind.BLK_RAW =>
      let base := if top.raw_base_cols < 0 then indent_cols else top.raw_base_cols
      { s with st := { top with raw_base_cols := base } :: rest,
               r := fputs (strip_cols line base ++ "\n".toList) (emit_default_preamble_once s.r) }
    | BlockKind.BLK_MATH =>
      let base := if top.math_base_cols < 0 then indent_cols else top.math_base_cols
      let top1 := { top with math_base_cols := base }
      let t := lskip_spaces (strip_cols line base)
      if t = "latex:".toList then
        { s with st := { top1 with math_raw_sticky := true } :: rest }
      else
        let fed := math_feed_row top1 t s.r
        { s with st := fed.1 :: rest, r := fed.2 }
    | BlockKind.BLK_PYTHON =>
      let base := if top.py_base_cols < 0 then indent_cols else top.py_base_cols
      { s with st := { top with py_base_cols := base,
                                py_code := top.py_code ++ strip_cols line base ++ "\n".toList }
                     :: rest }
    | BlockKind.BLK_ENV => dispatch_line content indent_cols s

/-- The loop body of `main` for the line `line0` just taken from
`pending_line` or read from `fp`. -/
def process_line (py : Str → Str) (line0 : Str) (s : State) : State :=
  let line := rstrip_inplace line0
  let indent_cols := (calc_indent_cols line).1
  let content := line.drop (calc_indent_cols line).2
  if is_blank_line content then
    match s.st with
    | [] => { s with r := fputs "\n".toList s.r }
    | t0 :: rest =>
      if t0.kind = BlockKind.BLK_MATH then
        { s with st := (math_blank_line t0 s.r).1 :: rest, r := (math_blank_line t0 s.r).2 }
      else { s with r := fputs "\n".toList s.r }
  else
    let closed := close_blocks_for_indent py indent_cols s.st s.r
    dispatch_top line content indent_cols { s with st := closed.1, r := closed.2 }

/-- One round of the loop of `main`: `none` is the `break` at end of input. -/
def main_iter (py : Str → Str) (s : State) : Option State :=
  match s.pending_line with
  | some line => some (process_line py line { s with pending_line := none })
  | none =>
    match s.fp with
    | [] => none
    | line :: fp => some (process_line py line { s with fp := fp })

/-- The loop of `main`, for at most `fuel` rounds. -/
def main_loop (py : Str → Str) : Nat → State → State
  | 0, s => s
  | fuel + 1, s =>
    match main_iter py s with
    | none => s
    | some s1 => main_loop py fuel s1

/-- The state of `main` before its loop, on the records `lines`. -/
def State.init (lines : List Str) : State :=
  { st := [], r := { g_doc_open := false, out := [] }, pending_line := none, fp := lines }

/-- The lines still to be processed: the pushback slot, then `fp`. -/
def State.todo (s : State) : List Str := s.pending_line.toList ++ s.fp

/-- What `main` leaves after its loop ended in state `s`: all blocks closed,
the document ended. -/
def finish (py : Str → Str) (s : State) : Render :=
  emit_end_document_if_needed (close_all py s.st s.r)

/-- The function `main` on the records `lines`: its output state. Every round
of the loop takes a record, so `lines.length` rounds reach the end of input. -/
def main (py : Str → Str) (lines : List Str) : Render :=
  finish py (main_loop py lines.length (State.init lines))

/-- The program on the byte stream `input`: the bytes on `stdout`. -/
def convert (py : Str → Str) (input : Str) : Str :=
  (main py (read_lines input)).bytes

/-! ## Specification-side notions -/

/-- The two-character sequence backslash, letter n occurs in `s`. -/
def HasBackslashN (s : Str) : Prop := ['\\', 'n'] <:+: s

/-- An identifier: one letter or underscore, then letters, digits and
underscores. -/
def IsIdentifier (id : Str) : Prop :=
  ∃ c cs, id = c :: cs ∧ (c = '_' ∨ isalpha c = true) ∧
    ∀ x ∈ cs, x = '_' ∨ isalpha x = true ∨ isdigit x = true

/-- Text balanced in the brackets `o`, `c`: every `o` has its `c` after it,
properly nested; other characters are free. -/
inductive Balanced (o c : Char) : Str → Prop where
  | nil : Balanced o c []
  | other (x : Char) (w : Str) : x ≠ o → x ≠ c → Balanced o c w → Balanced o c (x :: w)
  | nest (w1 w2 : Str) : Balanced o c w1 → Balanced o c w2 →
      Balanced o c (o :: w1 ++ c :: w2)

/-- A group: `[`...`]` balanced in square brackets, or `{`...`}` balanced in
braces. -/
def IsGroup (g : Str) : Prop :=
  (∃ w, Balanced '[' ']' w ∧ g = '[' :: w ++ [']']) ∨
  (∃ w, Balanced '{' '}' w ∧ g = '{' :: w ++ ['}'])

/-- Zero or more groups, with spaces and tabs allowed before, between and
after them. -/
inductive GroupSeq : Str → Prop where
  | nil : GroupSeq []
  | space (c : Char) (s : Str) : (c = ' ' ∨ c = '\t') → GroupSeq s → GroupSeq (c :: s)
  | group (g s : Str) : IsGroup g → GroupSeq s → GroupSeq (g ++ s)

/-- The header form of the grammar: identifier, groups, colon, then any
trailing text. -/
def HeaderForm (s : Str) : Prop :=
  ∃ id pre t, IsIdentifier id ∧ GroupSeq pre ∧ s = id ++ pre ++ ':' :: t

/-- A group opened before `w` with bracket `o` is never closed in `w`: no `c`
in `w` has balanced text before it. -/
def NeverCloses (o c : Char) (w : Str) : Prop :=
  ∀ p t, w = p ++ c :: t → ¬ Balanced o c p

/-- After the identifier and the groups `pre`, the text `tail` does not go on
with a colon: it is empty, or its first character is neither a colon nor the
start of a further group or separator (nor, right after the identifier, a
further character of the identifier). -/
def NoColonNext (pre tail : Str) : Prop :=
  tail = [] ∨ ∃ x t, tail = x :: t ∧ x ≠ ':' ∧ x ≠ ' ' ∧ x ≠ '\t' ∧ x ≠ '[' ∧ x ≠ '{' ∧
    (pre = [] → is_ident_char x = false)

/-- The environments left open by the writes `evs`, innermost first, when
`opened` were open before: a `\begin` opens its name, an `\end` must carry the
name of the innermost open one and closes it; `none` when some `\end` does
not. -/
def open_envs : List Ev → List Str → Option (List Str)
  | [], opened => some opened
  | Ev.text _ :: evs, opened => open_envs evs opened
  | Ev.begin_env name _ :: evs, opened => open_envs evs (name :: opened)
  | Ev.end_env name :: evs, opened =>
    match opened with
    | [] => none
    | top :: rest => if name = top then open_envs evs rest else none

/-- The number of `\begin` writes of the environment opener. -/
def count_begin : List Ev → Nat
  | [] => 0
  | Ev.begin_env _ _ :: evs => count_begin evs + 1
  | _ :: evs => count_begin evs

/-- The number of `\end` writes of `close_one_block`. -/
def count_end : List Ev → Nat
  | [] => 0
  | Ev.end_env _ :: evs => count_end evs + 1
  | _ :: evs => count_end evs

/-- The names of the Environment blocks on the stack, top first. -/
def env_names : List Block → List Str
  | [] => []
  | b :: st => if b.kind = BlockKind.BLK_ENV then b.env_name :: env_names st else env_names st

/-- The indentation `indent_cols` that `main` computes for the record `l`. -/
def line_indent (l : Str) : Int := (calc_indent_cols (rstrip_inplace l)).1

/-- The text `content` that `main` computes for the record `l`. -/
def line_content (l : Str) : Str :=
  (rstrip_inplace l).drop (calc_indent_cols (rstrip_inplace l)).2

/-- The record `l` is a blank line for `main`. -/
def line_blank (l : Str) : Bool := is_blank_line (line_content l)

/-- The states `main` goes through on some input: the state before the loop,
and the states after each round. -/
inductive Reachable (py : Str → Str) : State → Prop where
  | init (lines : List Str) : Reachable py (State.init lines)
  | step {s s1 : State} : Reachable py s → main_iter py s = some s1 → Reachable py s1

/-- The kind and opening indentation of each block of the stack, top first. -/
def shape (st : List Block) : List (BlockKind × Int) :=
  st.map (fun b => (b.kind, b.indent_cols))

/-- The opening indentations grow strictly from the bottom of the stack to
its top. -/
def StackSorted (st : List Block) : Prop :=
  (shape st).Pairwise (fun a b => b.2 < a.2)

/-- One round leaves the shape of the stack `old` as it is, or pushes one
block opened at indentation `i`. -/
def ShapeStep (i : Int) (old new : List Block) : Prop :=
  shape new = shape old ∨ ∃ k, shape new = (k, i) :: shape old

/-- What a lookahead at header indentation `i` may do with the records `fp`:
the records it consumed (`skipped`) are blank or indented deeper than `i`, and
all others are still to be processed in `s1`, in order (a record pushed back
has its trailing whitespace removed). -/
def LookaheadOK (i : Int) (fp : List Str) (s1 : State) : Prop :=
  ∃ skipped, fp.map rstrip_inplace = (skipped ++ s1.todo).map rstrip_inplace ∧
    ∀ L ∈ skipped, line_blank L = true ∨ i < line_indent L

/-- An indentation: spaces and tabs only. -/
def IsIndent (w : Str) : Prop := ∀ c ∈ w, is_sp c = true

/-- The text of a non-blank line between its indentation and its trailing
whitespace: it does not start with a space or tab, does not end with a space,
tab, CR or LF, and is not blank. -/
def IsContent (r : Str) : Prop :=
  lskip_spaces r = r ∧ rstrip_inplace r = r ∧ is_blank_line r = false

/-- The end of a record: trailing whitespace that `rstrip_inplace` removes
(such as the newline). -/
def IsTrail (e : Str) : Prop := ∀ c ∈ e, is_rstrip_char c = true

/-- The column width of the indentation `w`. -/
def cols (w : Str) : Int := (calc_indent_cols w).1

/-- The stack is ready for a header: no consuming block (Raw, Math, Code) is
on top. -/
def HeaderReady (st : List Block) : Prop :=
  ∀ top, st.head? = some top → top.kind = BlockKind.BLK_ENV

/-- The state in which `main` dispatches a line of indentation `i` taken in
state `s`, with `fp` left to read: the closing pass is done, the pushback slot
is empty. -/
def after_closing (py : Str → Str) (i : Int) (s : State) (fp : List Str) : State :=
  { st := (close_blocks_for_indent py i s.st s.r).1,
    r := (close_blocks_for_indent py i s.st s.r).2,
    pending_line := none, fp := fp }

/-- Only newline characters. -/
def OnlyNewlines (b : Str) : Prop := ∀ c ∈ b, c = '\n'

/-- The output so far is well formed with respect to the preamble: before the
preamble is written only newlines (of blank input lines) have been written,
and once the document is open the output is such newlines, then the preamble,
then the rest. -/
def Good (r : Render) : Prop :=
  (r.g_doc_open = false → OnlyNewlines r.bytes) ∧
  (r.g_doc_open = true → ∃ pre rest, OnlyNewlines pre ∧ r.bytes = pre ++ preamble ++ rest)

/-- Every Math block on the stack was opened after the preamble. -/
def MathOpen (st : List Block) (r : Render) : Prop :=
  (∃ b ∈ st, b.kind = BlockKind.BLK_MATH) → r.g_doc_open = true

/-- The whole output of a run starts with newlines only, then, if anything
else was written, the preamble. -/
def PreambleFirst (b : Str) : Prop :=
  OnlyNewlines b ∨ ∃ pre rest, OnlyNewlines pre ∧ b = pre ++ preamble ++ rest

/-- The invariant of the loop of `main` about the preamble. -/
def StateInv (s : State) : Prop := Good s.r ∧ MathOpen s.st s.r

/-- The record `l` indented by `k` more spaces. -/
def indent_line (k : Nat) (l : Str) : Str := List.replicate k ' ' ++ l

/-- The document that feeds the text `O` back as raw content: a `latex:`
header line, then the lines of `O`, each indented by `k` spaces. -/
def wrap_raw (k : Nat) (O : Str) : List Str :=
  "latex:\n".toList :: (read_lines O).map (indent_line k)

/-- A line as raw passthrough gives it back: its trailing whitespace removed,
and nothing but the newline when the line is blank. -/
def raw_norm (l : Str) : Str :=
  if line_blank l then "\n".toList else rstrip_inplace l ++ "\n".toList

/-- The Raw block that the header `latex:` at indentation 0 opens, with base
column `base`. -/
def raw_block (base : Int) : Block :=
  { Block.zero with kind := BlockKind.BLK_RAW, indent_cols := 0, raw_base_cols := base }

/-- The first non-blank line, if there is one, is not indented. -/
def FirstNonblankFlush (ls : List Str) : Prop :=
  ∀ l, (ls.dropWhile line_blank).head? = some l → line_indent l = 0

/-- Put `c` in front of the first fragment. -/
def cons_head (c : Char) : List Str → List Str
  | [] => [[c]]
  | f :: fs => (c :: f) :: fs

/-- The fragments of `s` between its occurrences of backslash-n, the
occurrences taken from left to right; one fragment more than occurrences, an
empty fragment where two occurrences touch or one is at an end of `s`. -/
def split_bn : Str → List Str
  | [] => [[]]
  | [c] => [[c]]
  | c :: d :: rest =>
    if c == '\\' && d == 'n' then [] :: split_bn rest
    else cons_head c (split_bn (d :: rest))

/-- The fragments joined with `sep` between consecutive ones. -/
def join_with (sep : Str) : List Str → Str
  | [] => []
  | [x] => x
  | x :: y :: l => x ++ sep ++ join_with sep (y :: l)

/-- The number of occurrences of backslash-n in `s`, counted from left to
right without overlap. -/
def count_bn : Str → Nat
  | [] => 0
  | [_] => 0
  | c :: d :: rest =>
    if c == '\\' && d == 'n' then count_bn rest + 1 else count_bn (d :: rest)

/-- The rows `math_feed_row` takes from `t`: the fragments of `t`, without the
last one when it is empty. -/
def math_rows (t : Str) : List Str :=
  if (split_bn t).getLast? = some [] then (split_bn t).dropLast else split_bn t

/-- Feeding `rows` to the math block `m`: the row that was pending and every
row but the last are written with the plain row separator, the last row is
left pending. -/
def feed_rows (m : Block) (r : Render) (rows : List Str) : Block × Render :=
  ({ m with math_pending := (m.math_pending.toList ++ rows).getLast? },
    (m.math_pending.toList ++ rows).dropLast.foldl
      (fun r x => fputs (x ++ " \\\\\n".toList) r) r)

/-- The option text of the argument text `args`: the text `opt` between the
first `[` of `args` and the first `]` after it. -/
def FirstBracket (args opt : Str) : Prop :=
  ∃ pre post, args = pre ++ '[' :: (opt ++ ']' :: post) ∧ '[' ∉ pre ∧ ']' ∉ opt

/-- The text `opt`, in lower case, holds one of the three option texts. -/
def HasTexOption (opt : Str) : Prop :=
  "results=tex".toList <:+: opt.map tolower ∨ "results=asis".toList <:+: opt.map tolower ∨
    "results=raw".toList <:+: opt.map tolower

/-- The segments of the body of a braced command in body form: the text after
the colon if it is not empty, then the content of each non-blank line of
`fl`, the lines that follow the header. -/
def body_segments (after : Str) (fl : List Str) : List Str :=
  (if after = [] then [] else [after]) ++
    (fl.filter (fun l => !line_blank l)).map line_content

/-- The content looks like a command call: an identifier immediately followed
by `\x7b` or `[`. -/
def CommandCall (c : Str) : Prop :=
  ∃ id x t, IsIdentifier id ∧ (x = '{' ∨ x = '[') ∧ c = id ++ x :: t

/-- The innermost open block is a list Environment. -/
def TopIsList (st : List Block) : Prop :=
  ∃ top rest, st = top :: rest ∧ top.kind = BlockKind.BLK_ENV ∧ top.is_list = true

/-- Every block below the top of the stack is an Environment block. -/
def EnvBelowTop (st : List Block) : Prop := ∀ b ∈ st.tail, b.kind = BlockKind.BLK_ENV

/-- One round on the stack `old` that the closing pass left: the shape stays,
or one block opened at indentation `i` is pushed, and then no consuming block
was on top of `old`. -/
def PushStep (i : Int) (old new : List Block) : Prop :=
  shape new = shape old ∨ ((∃ k, shape new = (k, i) :: shape old) ∧ HeaderReady old)

/-- A malformed header: an identifier and a sequence of groups, followed by a
group that is opened and never closed, or by text that does not go on with a
colon. -/
def MalformedHeader (c : Str) : Prop :=
  ∃ id pre tail, IsIdentifier id ∧ GroupSeq pre ∧ c = id ++ pre ++ tail ∧
    ((∃ w, tail = '[' :: w ∧ NeverCloses '[' ']' w) ∨
     (∃ w, tail = '{' :: w ∧ NeverCloses '{' '}' w) ∨
     NoColonNext pre tail)

/-- The base column of a Code block after the lines `body`, when it was `b0`
before: the indentation of the first non-blank line fixes it if it was not
fixed (negative) yet. -/
def py_base (b0 : Int) (body : List Str) : Int :=
  match body.filter (fun l => !line_blank l) with
  | [] => b0
  | l :: _ => if b0 < 0 then line_indent l else b0

/-- The source text made of the non-blank lines of `body`: each without its
trailing whitespace, stripped of `base` columns, and followed by a newline. -/
def py_source (base : Int) (body : List Str) : Str :=
  ((body.filter (fun l => !line_blank l)).map
    (fun l => strip_cols (rstrip_inplace l) base ++ "\n".toList)).flatten

/-- One newline written for each blank line of `body`. -/
def blank_newlines (body : List Str) (r : Render) : Render :=
  (body.filter line_blank).foldl (fun r _ => fputs "\n".toList r) r

/-! # Theorems -/

/-! ## Inline escaping -/

theorem not_hasBackslashN_cons {c : Char} {s : Str} (h : ¬ HasBackslashN (c :: s)) :
    ¬ HasBackslashN s := by
  intro hs
  apply h
  obtain ⟨a, b, hab⟩ := hs
  exact ⟨c :: a, b, by simp [← hab]⟩

theorem not_hasBackslashN_head {c d : Char} {s : Str} (h : ¬ HasBackslashN (c :: d :: s)) :
    (c == '\\' && d == 'n') = false := by
  by_contra hc
  simp at hc
  apply h
  exact ⟨[], s, by simp [hc.1, hc.2]⟩

theorem text_n_escapes_of_no_bn : ∀ (s : Str), ¬ HasBackslashN s → text_n_escapes s = s
  | [], _ => rfl
  | [_], _ => rfl
  | c :: d :: rest, h => by
    have ih := text_n_escapes_of_no_bn (d :: rest) (not_hasBackslashN_cons h)
    rw [text_n_escapes, not_hasBackslashN_head h]
    simp [ih]

theorem text_n_escapes_append_bn : ∀ (a rest : Str), ¬ HasBackslashN a →
    text_n_escapes (a ++ '\\' :: 'n' :: rest) = a ++ '\\' :: '\\' :: '\n' :: text_n_escapes rest
  | [], rest, _ => by simp [text_n_escapes]
  | [c], rest, _ => by
    have : (c == '\\' && '\\' == 'n') = false := by
      have : ('\\' == 'n') = false := by decide
      simp [this]
    simp only [List.singleton_append, text_n_escapes, this]
    simp [text_n_escapes]
  | c :: d :: a, rest, h => by
    have ih := text_n_escapes_append_bn (d :: a) rest (not_hasBackslashN_cons h)
    simp only [List.cons_append] at ih ⊢
    rw [text_n_escapes, not_hasBackslashN_head h]
    simp [ih]

/-- C9, the claim as stated fails: the three segments of `a\nb\nc` are not
joined by the two characters `\\` alone; the text line written is not
`a\\b\\c` followed by a newline. -/
theorem C9_counterexample :
    (emit_text_with_n_escapes "a\\nb\\nc".toList { g_doc_open := true, out := [] }).bytes
      ≠ "a".toList ++ "\\\\".toList ++ "b".toList ++ "\\\\".toList ++ "c".toList ++ "\n".toList := by
  decide

/-- C9, amended: after the preamble step, `emit_text_with_n_escapes` writes for
a string `s` with no backslash-n exactly `s` and one newline (and the escape
loop maps its own result to itself); and for segments `a`, `b`, `c` with no
backslash-n the input `a\nb\nc` is written as `a`, `b`, `c` joined by the
forced line break, which is the three characters backslash, backslash,
newline, and ended by one newline. -/
theorem C9_emit_text_with_n_escapes (r : Render) :
    (∀ s : Str, ¬ HasBackslashN s →
      (emit_text_with_n_escapes s r).out
          = (emit_default_preamble_once r).out ++ [Ev.text (s ++ ['\n'])]
        ∧ text_n_escapes (text_n_escapes s) = text_n_escapes s) ∧
    (∀ a b c : Str, ¬ HasBackslashN a → ¬ HasBackslashN b → ¬ HasBackslashN c →
      (emit_text_with_n_escapes (a ++ "\\n".toList ++ b ++ "\\n".toList ++ c) r).out
          = (emit_default_preamble_once r).out
            ++ [Ev.text (a ++ "\\\\\n".toList ++ b ++ "\\\\\n".toList ++ c ++ "\n".toList)]) := by
  refine ⟨fun s hs => ⟨?_, ?_⟩, fun a b c ha hb hc => ?_⟩
  · simp [emit_text_with_n_escapes, fputs, text_n_escapes_of_no_bn s hs]
  · rw [text_n_escapes_of_no_bn s hs, text_n_escapes_of_no_bn s hs]
  · have h1 : text_n_escapes (a ++ "\\n".toList ++ b ++ "\\n".toList ++ c)
        = a ++ "\\\\\n".toList ++ b ++ "\\\\\n".toList ++ c := by
      have e1 : a ++ "\\n".toList ++ b ++ "\\n".toList ++ c
          = a ++ '\\' :: 'n' :: (b ++ '\\' :: 'n' :: c) := by simp
      rw [e1, text_n_escapes_append_bn a _ ha, text_n_escapes_append_bn b _ hb,
        text_n_escapes_of_no_bn c hc]
      simp
    rw [emit_text_with_n_escapes, h1]
    simp [fputs]

/-- C9, the amended statement at the strings of the claim. -/
theorem C9_emit_text_with_n_escapes_witness :
    (emit_text_with_n_escapes "a\\nb\\nc".toList { g_doc_open := true, out := [] }).out
      = [Ev.text "a\\\\\nb\\\\\nc\n".toList] ∧
    (emit_text_with_n_escapes "plain text".toList { g_doc_open := true, out := [] }).out
      = [Ev.text "plain text\n".toList] := by
  refine ⟨?_, ?_⟩
  · exact (C9_emit_text_with_n_escapes { g_doc_open := true, out := [] }).2
      "a".toList "b".toList "c".toList (by unfold HasBackslashN; decide)
      (by unfold HasBackslashN; decide) (by unfold HasBackslashN; decide)
  · exact ((C9_emit_text_with_n_escapes { g_doc_open := true, out := [] }).1
      "plain text".toList (by unfold HasBackslashN; decide)).1

/-! ## Trimming -/

theorem lskip_spaces_append_takeWhile (s : Str) :
    s.takeWhile is_sp ++ lskip_spaces s = s := List.takeWhile_append_dropWhile is_sp s

theorem lskip_spaces_cons_of_not_sp {c : Char} (s : Str) (h : is_sp c = false) :
    lskip_spaces (c :: s) = c :: s := by
  simp [lskip_spaces, List.dropWhile, h]

theorem lskip_spaces_cons_of_sp {c : Char} (s : Str) (h : is_sp c = true) :
    lskip_spaces (c :: s) = lskip_spaces s := by
  simp [lskip_spaces, List.dropWhile, h]

theorem lskip_spaces_length_le (s : Str) : (lskip_spaces s).length ≤ s.length := by
  have := congrArg List.length (lskip_spaces_append_takeWhile s)
  simp at this
  omega

theorem lskip_spaces_idem (s : Str) : lskip_spaces (lskip_spaces s) = lskip_spaces s := by
  induction s with
  | nil => rfl
  | cons c s ih =>
    by_cases h : is_sp c = true
    · rw [lskip_spaces_cons_of_sp s h, ih]
    · simp only [Bool.not_eq_true] at h
      rw [lskip_spaces_cons_of_not_sp s h, lskip_spaces_cons_of_not_sp s h]

/-! ## The header parser -/

theorem scan_group_zero (o c : Char) (w : Str) : scan_group o c w 0 = (w, 0) := by
  cases w <;> simp [scan_group]

theorem scan_group_cons_succ (o c x : Char) (xs : Str) (d : Nat) :
    scan_group o c (x :: xs) (d + 1) =
      if x = o then scan_group o c xs (d + 2)
      else if x = c then scan_group o c xs d
      else scan_group o c xs (d + 1) := by
  simp [scan_group]

theorem scan_group_length_le (o c : Char) : ∀ (w : Str) (d : Nat),
    (scan_group o c w d).1.length ≤ w.length
  | [], d => by simp [scan_group]
  | x :: xs, 0 => by simp [scan_group]
  | x :: xs, d + 1 => by
    rw [scan_group_cons_succ]
    have h1 := scan_group_length_le o c xs (d + 2)
    have h2 := scan_group_length_le o c xs d
    have h3 := scan_group_length_le o c xs (d + 1)
    split_ifs <;> simp <;> omega

/-- Balanced text is skipped by the group scan at any positive depth. -/
theorem scan_group_balanced {o c : Char} (hoc : o ≠ c) {w : Str} (hw : Balanced o c w) :
    ∀ (rest : Str) (d : Nat),
      scan_group o c (w ++ rest) (d + 1) = scan_group o c rest (d + 1) := by
  induction hw with
  | nil => intro rest d; rfl
  | other x w hxo hxc _ ih =>
    intro rest d
    rw [List.cons_append, scan_group_cons_succ, if_neg hxo, if_neg hxc, ih]
  | nest w1 w2 _ _ ih1 ih2 =>
    intro rest d
    have e : (o :: w1 ++ c :: w2) ++ rest = o :: (w1 ++ (c :: (w2 ++ rest))) := by simp
    rw [e, scan_group_cons_succ, if_pos rfl, ih1, scan_group_cons_succ, if_neg (Ne.symm hoc),
      if_pos rfl, ih2]

/-- A group scan that ends at depth zero has passed balanced text and its
closing bracket. -/
theorem scan_group_closes {o c : Char} : ∀ (n : Nat) (w : Str) (d : Nat),
    w.length ≤ n → (scan_group o c w (d + 1)).2 = 0 →
    ∃ p r1, Balanced o c p ∧ w = p ++ c :: r1 ∧
      scan_group o c w (d + 1) = scan_group o c r1 d := by
  intro n
  induction n with
  | zero =>
    intro w d hn h
    have : w = [] := List.length_eq_zero.mp (Nat.le_zero.mp hn)
    subst this
    simp [scan_group] at h
  | succ n ih =>
    intro w d hn h
    cases w with
    | nil => simp [scan_group] at h
    | cons x xs =>
      simp only [List.length_cons, Nat.add_le_add_iff_right] at hn
      rw [scan_group_cons_succ] at h ⊢
      by_cases hxo : x = o
      · rw [if_pos hxo] at h ⊢
        obtain ⟨p1, r1, hp1, e1, s1⟩ := ih xs (d + 1) hn h
        rw [s1] at h
        have hr1 : r1.length ≤ n := by
          have := congrArg List.length e1
          simp at this; omega
        obtain ⟨p2, r2, hp2, e2, s2⟩ := ih r1 d hr1 h
        refine ⟨o :: p1 ++ c :: p2, r2, Balanced.nest p1 p2 hp1 hp2, ?_, ?_⟩
        · rw [hxo, e1, e2]; simp
        · rw [s1, s2]
      · rw [if_neg hxo] at h ⊢
        by_cases hxc : x = c
        · rw [if_pos hxc] at h ⊢
          exact ⟨[], xs, Balanced.nil, by simp [hxc], rfl⟩
        · rw [if_neg hxc] at h ⊢
          obtain ⟨p1, r1, hp1, e1, s1⟩ := ih xs d hn h
          exact ⟨x :: p1, r1, Balanced.other x p1 hxo hxc hp1, by simp [e1], s1⟩

theorem scan_group_neverCloses {o c : Char} {w : Str}
    (h : NeverCloses o c w) : (scan_group o c w 1).2 ≠ 0 := by
  intro h0
  obtain ⟨p, r1, hp, e, _⟩ := scan_group_closes w.length w 0 le_rfl h0
  exact h p r1 e hp

theorem scan_groups_fuel : ∀ (fuel : Nat) (s : Str) (fuel2 : Nat),
    s.length < fuel → s.length < fuel2 → scan_groups fuel s = scan_groups fuel2 s := by
  intro fuel
  induction fuel with
  | zero => intro s fuel2 h; omega
  | succ f ih =>
    intro s fuel2 h1 h2
    cases fuel2 with
    | zero => omega
    | succ f2 =>
      cases s with
      | nil => simp [scan_groups]
      | cons x xs =>
        simp only [List.length_cons] at h1 h2
        have hl : ∀ o c, (lskip_spaces (scan_group o c xs 1).1).length ≤ xs.length := fun o c =>
          le_trans (lskip_spaces_length_le _) (scan_group_length_le o c xs 1)
        simp only [scan_groups]
        rw [ih _ f2 (by have := hl '[' ']'; omega) (by have := hl '[' ']'; omega),
          ih (lskip_spaces (scan_group '{' '}' xs 1).1) f2 (by have := hl '{' '}'; omega)
            (by have := hl '{' '}'; omega)]

theorem is_sp_iff (c : Char) : is_sp c = true ↔ c = ' ' ∨ c = '\t' := by
  simp [is_sp]

theorem is_sp_false_of_ident_start {c : Char} (h : is_ident_start c = true) :
    is_sp c = false := by
  by_contra hc
  simp only [Bool.not_eq_false, is_sp_iff] at hc
  rcases hc with rfl | rfl <;> revert h <;> decide

theorem groupSeq_spaces : ∀ (sp : Str), (∀ c ∈ sp, is_sp c = true) → ∀ {t : Str},
    GroupSeq t → GroupSeq (sp ++ t)
  | [], _, _, ht => ht
  | c :: sp, h, _, ht =>
    GroupSeq.space c _ ((is_sp_iff c).mp (h c (List.mem_cons_self c sp)))
      (groupSeq_spaces sp (fun x hx => h x (List.mem_cons_of_mem c hx)) ht)

/-- Soundness of the group loop: what it passes is a sequence of groups. -/
theorem scan_groups_sound : ∀ (fuel : Nat) (s r : Str), scan_groups fuel s = some r →
    ∃ pre, GroupSeq pre ∧ s = pre ++ r := by
  intro fuel
  induction fuel with
  | zero => intro s r h; simp [scan_groups] at h
  | succ f ih =>
    intro s r h
    cases s with
    | nil =>
      simp [scan_groups] at h
      exact ⟨[], GroupSeq.nil, by simp [h]⟩
    | cons x xs =>
      have key : ∀ (o c : Char), (o = '[' ∧ c = ']') ∨ (o = '{' ∧ c = '}') → x = o →
          (scan_group o c xs 1).2 = 0 →
          scan_groups f (lskip_spaces (scan_group o c xs 1).1) = some r →
          ∃ pre, GroupSeq pre ∧ x :: xs = pre ++ r := by
        intro o c hoc hx h0 hrec
        obtain ⟨p, r1, hp, e, hs⟩ := scan_group_closes xs.length xs 0 le_rfl h0
        rw [hs, scan_group_zero] at hrec
        obtain ⟨pre, hpre, epre⟩ := ih _ _ hrec
        refine ⟨(o :: p ++ [c]) ++ (r1.takeWhile is_sp ++ pre), ?_, ?_⟩
        · refine GroupSeq.group _ _ ?_ (groupSeq_spaces _ (fun y hy => List.mem_takeWhile_imp hy) hpre)
          rcases hoc with ⟨rfl, rfl⟩ | ⟨rfl, rfl⟩
          · exact Or.inl ⟨p, hp, rfl⟩
          · exact Or.inr ⟨p, hp, rfl⟩
        · have e2 : r1 = r1.takeWhile is_sp ++ (pre ++ r) := by
            rw [← epre]; exact (lskip_spaces_append_takeWhile r1).symm
          rw [hx, e]
          simp only [List.append_assoc, List.cons_append, List.nil_append]
          rw [← e2]
      simp only [scan_groups] at h
      by_cases h1 : x = '['
      · simp only [h1, beq_self_eq_true, if_true] at h
        by_cases h0 : (scan_group '[' ']' xs 1).2 = 0
        · simp only [h0, ne_eq, not_true_eq_false, if_false] at h
          exact key '[' ']' (Or.inl ⟨rfl, rfl⟩) h1 h0 h
        · simp [h0] at h
      · have h1b : (x == '[') = false := by simp [h1]
        simp only [h1b] at h
        by_cases h2 : x = '{'
        · simp only [h2, beq_self_eq_true, if_true] at h
          by_cases h0 : (scan_group '{' '}' xs 1).2 = 0
          · simp only [h0, ne_eq, not_true_eq_false, if_false] at h
            exact key '{' '}' (Or.inr ⟨rfl, rfl⟩) h2 h0 (by simpa using h)
          · simp [h0] at h
        · have h2b : (x == '{') = false := by simp [h2]
          simp [h2b] at h
          exact ⟨[], GroupSeq.nil, by simp [h]⟩

theorem scan_groups_open (f : Nat) (o c : Char) (xs : Str)
    (hoc : (o = '[' ∧ c = ']') ∨ (o = '{' ∧ c = '}')) :
    scan_groups (f + 1) (o :: xs) =
      if (scan_group o c xs 1).2 ≠ 0 then none
      else scan_groups f (lskip_spaces (scan_group o c xs 1).1) := by
  rcases hoc with ⟨rfl, rfl⟩ | ⟨rfl, rfl⟩
  · simp [scan_groups]
  · have hb : ('{' == '[') = false := by decide
    simp [scan_groups, hb]

theorem scan_groups_other (f : Nat) (x : Char) (xs : Str) (h1 : x ≠ '[') (h2 : x ≠ '{') :
    scan_groups (f + 1) (x :: xs) = some (x :: xs) := by
  simp [scan_groups, h1, h2]

/-- Completeness of the group loop: a sequence of groups is passed. -/
theorem scan_groups_complete {pre : Str} (hpre : GroupSeq pre) :
    ∀ (tail : Str) (fuel : Nat), (lskip_spaces (pre ++ tail)).length < fuel →
      scan_groups fuel (lskip_spaces (pre ++ tail)) = scan_groups fuel (lskip_spaces tail) := by
  induction hpre with
  | nil => intro tail fuel _; rfl
  | space c s hc _ ih =>
    intro tail fuel hf
    rw [List.cons_append, lskip_spaces_cons_of_sp _ ((is_sp_iff c).mpr hc)] at hf ⊢
    exact ih tail fuel hf
  | group g s hg _ ih =>
    intro tail fuel hf
    have key : ∀ (o c : Char) (w : Str), (o = '[' ∧ c = ']') ∨ (o = '{' ∧ c = '}') →
        Balanced o c w → g = o :: w ++ [c] →
        scan_groups fuel (lskip_spaces (g ++ s ++ tail)) = scan_groups fuel (lskip_spaces tail) := by
      intro o c w hoc hw eg
      have hne : o ≠ c := by rcases hoc with ⟨rfl, rfl⟩ | ⟨rfl, rfl⟩ <;> decide
      have hsp : is_sp o = false := by rcases hoc with ⟨rfl, rfl⟩ | ⟨rfl, rfl⟩ <;> decide
      have e : g ++ s ++ tail = o :: (w ++ c :: (s ++ tail)) := by rw [eg]; simp
      have hlen : (g ++ s ++ tail).length = w.length + s.length + tail.length + 2 := by
        rw [e]; simp; omega
      have hst : (s ++ tail).length = s.length + tail.length := by simp
      have hlt := lskip_spaces_length_le tail
      have hlst := lskip_spaces_length_le (s ++ tail)
      rw [e, lskip_spaces_cons_of_not_sp _ hsp, ← e] at hf
      have hsc : scan_group o c (w ++ c :: (s ++ tail)) 1 = (s ++ tail, 0) := by
        rw [scan_group_balanced hne hw, scan_group_cons_succ, if_neg (Ne.symm hne), if_pos rfl,
          scan_group_zero]
      rw [e, lskip_spaces_cons_of_not_sp _ hsp]
      cases fuel with
      | zero => omega
      | succ f =>
        have hrec := ih tail f (by omega)
        have hfu := scan_groups_fuel f (lskip_spaces tail) (f + 1)
          (by omega) (by omega)
        rw [scan_groups_open f o c _ hoc, hsc, if_neg (by simp), hrec, hfu]
    rcases hg with ⟨w, hw, eg⟩ | ⟨w, hw, eg⟩
    · exact key '[' ']' w (Or.inl ⟨rfl, rfl⟩) hw eg
    · exact key '{' '}' w (Or.inr ⟨rfl, rfl⟩) hw eg

theorem rstrip_inplace_prefix (s : Str) : rstrip_inplace s <+: s := by
  unfold rstrip_inplace
  have h := List.dropWhile_suffix (l := s.reverse) is_rstrip_char
  have h2 := List.reverse_prefix.mpr h
  simpa using h2

theorem lskip_spaces_eq_self_iff (s : Str) :
    lskip_spaces s = s ↔ ∀ c, s.head? = some c → is_sp c = false := by
  cases s with
  | nil => simp [lskip_spaces]
  | cons x xs =>
    by_cases h : is_sp x = true
    · simp only [List.head?_cons, Option.some.injEq, forall_eq', h, Bool.true_eq_false,
        iff_false]
      intro e
      have := lskip_spaces_length_le xs
      rw [lskip_spaces_cons_of_sp xs h] at e
      have := congrArg List.length e
      simp at this
      omega
    · simp only [Bool.not_eq_true] at h
      simp [lskip_spaces_cons_of_not_sp xs h, h]

theorem lskip_spaces_rstrip_of_content {c : Str} (hc : lskip_spaces c = c) :
    lskip_spaces (rstrip_inplace c) = rstrip_inplace c := by
  rw [lskip_spaces_eq_self_iff] at hc ⊢
  intro x hx
  obtain ⟨t, ht⟩ := rstrip_inplace_prefix c
  apply hc x
  cases hr : rstrip_inplace c with
  | nil => rw [hr] at hx; simp at hx
  | cons y ys =>
    rw [hr] at hx ht
    rw [← ht]
    simpa using hx

theorem dropWhile_append_stop {p : Char → Bool} : ∀ (cs tail : Str), (∀ x ∈ cs, p x = true) →
    (∀ y, tail.head? = some y → p y = false) →
    (cs ++ tail).dropWhile p = tail ∧ (cs ++ tail).takeWhile p = cs
  | [], tail, _, ht => by
    cases tail with
    | nil => simp
    | cons y ys => simp [List.dropWhile, List.takeWhile, ht y rfl]
  | c :: cs, tail, hcs, ht => by
    have ih := dropWhile_append_stop cs tail (fun x hx => hcs x (List.mem_cons_of_mem c hx)) ht
    have hc := hcs c (List.mem_cons_self c cs)
    simp [List.dropWhile, List.takeWhile, hc, ih.1, ih.2]

theorem groupSeq_head {pre : Str} (hpre : GroupSeq pre) :
    ∀ y, pre.head? = some y → y = ' ' ∨ y = '\t' ∨ y = '[' ∨ y = '{' := by
  induction hpre with
  | nil => intro y h; simp at h
  | space c s hc _ _ =>
    intro y h
    simp at h
    rcases hc with rfl | rfl <;> simp [← h]
  | group g s hg _ _ =>
    intro y h
    rcases hg with ⟨w, _, rfl⟩ | ⟨w, _, rfl⟩ <;> simp at h <;> simp [← h]

/-- The result of `parse_header` once its trimmed input is known to start with
an identifier character `c0`. -/
theorem parse_header_of_trim {c : Str} {c0 : Char} {rest : Str}
    (h : lskip_spaces (rstrip_inplace c) = c0 :: rest) (h0 : is_ident_start c0 = true) :
    parse_header c =
      match scan_groups ((lskip_spaces (rest.dropWhile is_ident_char)).length + 1)
          (lskip_spaces (rest.dropWhile is_ident_char)) with
      | none => none
      | some [] => none
      | some (x :: after) =>
        if x != ':' then none
        else some (c0 :: rest.takeWhile is_ident_char,
          lskip_spaces (rstrip_inplace ((rest.dropWhile is_ident_char).take
            ((rest.dropWhile is_ident_char).length - (x :: after).length))),
          lskip_spaces after) := by
  unfold parse_header
  simp only [h, h0]
  rfl

theorem parse_header_none_of_trim_nil {c : Str} (h : lskip_spaces (rstrip_inplace c) = []) :
    parse_header c = none := by
  unfold parse_header
  simp only [h]

theorem parse_header_none_of_not_ident {c : Str} {c0 : Char} {rest : Str}
    (h : lskip_spaces (rstrip_inplace c) = c0 :: rest) (h0 : is_ident_start c0 = false) :
    parse_header c = none := by
  unfold parse_header
  simp only [h, h0]
  rfl

theorem isIdentifier_chars {id : Str} (h : IsIdentifier id) :
    ∃ c0 cs, id = c0 :: cs ∧ is_ident_start c0 = true ∧ ∀ x ∈ cs, is_ident_char x = true := by
  obtain ⟨c0, cs, e, h0, hcs⟩ := h
  refine ⟨c0, cs, e, ?_, fun x hx => ?_⟩
  · rcases h0 with h0 | h0 <;> simp [is_ident_start, h0]
  · rcases hcs x hx with h1 | h1 | h1 <;> simp [is_ident_char, isalnum, h1]

theorem head_append_not_ident {pre tail : Str} (hpre : GroupSeq pre)
    (ht : pre = [] → ∀ y, tail.head? = some y → is_ident_char y = false) :
    ∀ y, (pre ++ tail).head? = some y → is_ident_char y = false := by
  cases pre with
  | nil => simpa using ht rfl
  | cons a as =>
    intro y hy
    have := groupSeq_head hpre a rfl
    simp at hy
    subst hy
    rcases this with rfl | rfl | rfl | rfl <;> decide

/-- The parser on trimmed text that is an identifier, a sequence of groups
`pre` and a rest `tail`: the group loop is left with `tail`. -/
theorem parse_header_of_form {c id pre tail : Str} (hid : IsIdentifier id)
    (hpre : GroupSeq pre)
    (ht : pre = [] → ∀ y, tail.head? = some y → is_ident_char y = false)
    (h : rstrip_inplace c = id ++ pre ++ tail) :
    parse_header c =
      match scan_groups ((lskip_spaces (pre ++ tail)).length + 1) (lskip_spaces tail) with
      | none => none
      | some [] => none
      | some (x :: after) =>
        if x != ':' then none
        else some (id,
          lskip_spaces (rstrip_inplace ((pre ++ tail).take
            ((pre ++ tail).length - (x :: after).length))),
          lskip_spaces after) := by
  obtain ⟨c0, cs, rfl, h0, hcs⟩ := isIdentifier_chars hid
  have hl : lskip_spaces (rstrip_inplace c) = c0 :: (cs ++ (pre ++ tail)) := by
    rw [h]
    simp only [List.cons_append, List.append_assoc]
    exact lskip_spaces_cons_of_not_sp _ (is_sp_false_of_ident_start h0)
  have hd := dropWhile_append_stop cs (pre ++ tail) hcs (head_append_not_ident hpre ht)
  rw [parse_header_of_trim hl h0, hd.1, hd.2,
    scan_groups_complete hpre tail _ (Nat.lt_succ_self _)]

theorem headerForm_of_parse_header {c : Str} (hc : lskip_spaces c = c)
    (h : (parse_header c).isSome = true) : HeaderForm (rstrip_inplace c) := by
  have hl := lskip_spaces_rstrip_of_content hc
  cases hs : rstrip_inplace c with
  | nil =>
    have hl : lskip_spaces (rstrip_inplace c) = [] := hl.trans hs
    rw [parse_header_none_of_trim_nil hl] at h
    simp at h
  | cons c0 rest =>
    have hl : lskip_spaces (rstrip_inplace c) = c0 :: rest := hl.trans hs
    by_cases h0 : is_ident_start c0 = true
    · rw [parse_header_of_trim hl h0] at h
      cases hsg : scan_groups ((lskip_spaces (rest.dropWhile is_ident_char)).length + 1)
          (lskip_spaces (rest.dropWhile is_ident_char)) with
      | none => rw [hsg] at h; simp at h
      | some r =>
        rw [hsg] at h
        cases r with
        | nil => simp at h
        | cons x after =>
          by_cases hx : x = ':'
          · subst hx
            obtain ⟨pre, hpre, e⟩ := scan_groups_sound _ _ _ hsg
            refine ⟨c0 :: rest.takeWhile is_ident_char,
              (rest.dropWhile is_ident_char).takeWhile is_sp ++ pre, after, ?_, ?_, ?_⟩
            · refine ⟨c0, _, rfl, ?_, fun x hx => ?_⟩
              · simpa [is_ident_start] using h0
              · have := List.mem_takeWhile_imp hx
                simpa [is_ident_char, isalnum, or_assoc] using this
            · exact groupSeq_spaces _ (fun y hy => List.mem_takeWhile_imp hy) hpre
            · have e1 := lskip_spaces_append_takeWhile (rest.dropWhile is_ident_char)
              have e2 := List.takeWhile_append_dropWhile is_ident_char rest
              rw [e] at e1
              simp only [List.cons_append, List.append_assoc, List.cons.injEq, true_and]
              rw [e1, e2]
          · have : (x != ':') = true := by simp [hx]
            simp [this] at h
    · simp only [Bool.not_eq_true] at h0
      rw [parse_header_none_of_not_ident hl h0] at h
      simp at h

/-- C10: on a content string `c` (no leading space or tab), `parse_header`
matches exactly when `c`, with trailing whitespace trimmed, is an identifier,
then zero or more groups balanced in square brackets or in braces (spaces and
tabs allowed around them), then a colon, then anything. In particular there is
no match when a group opened before the colon is never closed, and none when
what follows the identifier and the groups does not start with a colon. -/
theorem C10_parse_header_grammar (c : Str) (hc : lskip_spaces c = c) :
    ((parse_header c).isSome = true ↔ HeaderForm (rstrip_inplace c)) ∧
    (∀ id pre w, IsIdentifier id → GroupSeq pre →
      (rstrip_inplace c = id ++ pre ++ '[' :: w ∧ NeverCloses '[' ']' w) ∨
      (rstrip_inplace c = id ++ pre ++ '{' :: w ∧ NeverCloses '{' '}' w) →
      parse_header c = none) ∧
    (∀ id pre tail, IsIdentifier id → GroupSeq pre →
      rstrip_inplace c = id ++ pre ++ tail → NoColonNext pre tail →
      parse_header c = none) := by
  refine ⟨⟨headerForm_of_parse_header hc, ?_⟩, ?_, ?_⟩
  · rintro ⟨id, pre, t, hid, hpre, e⟩
    have hsp : is_sp ':' = false := by decide
    rw [parse_header_of_form hid hpre (fun _ y hy => by simp at hy; subst hy; decide) e,
      lskip_spaces_cons_of_not_sp _ hsp,
      scan_groups_other _ ':' t (by decide) (by decide)]
    simp
  · intro id pre w hid hpre h
    have key : ∀ o cl : Char, (o = '[' ∧ cl = ']') ∨ (o = '{' ∧ cl = '}') →
        rstrip_inplace c = id ++ pre ++ o :: w → NeverCloses o cl w → parse_header c = none := by
      intro o cl hoc e hn
      have hsp : is_sp o = false := by rcases hoc with ⟨rfl, rfl⟩ | ⟨rfl, rfl⟩ <;> decide
      have hic : is_ident_char o = false := by rcases hoc with ⟨rfl, rfl⟩ | ⟨rfl, rfl⟩ <;> decide
      rw [parse_header_of_form hid hpre (fun _ y hy => by simp at hy; subst hy; exact hic) e,
        lskip_spaces_cons_of_not_sp _ hsp, scan_groups_open _ o cl w hoc,
        if_pos (scan_group_neverCloses hn)]
    rcases h with ⟨e, hn⟩ | ⟨e, hn⟩
    · exact key '[' ']' (Or.inl ⟨rfl, rfl⟩) e hn
    · exact key '{' '}' (Or.inr ⟨rfl, rfl⟩) e hn
  · intro id pre tail hid hpre e hn
    rcases hn with rfl | ⟨x, t, rfl, h1, h2, h3, h4, h5, h6⟩
    · rw [parse_header_of_form hid hpre (fun _ y hy => by simp at hy) e]
      simp [lskip_spaces, scan_groups]
    · have hsp : is_sp x = false := by simp [is_sp, h2, h3]
      rw [parse_header_of_form hid hpre
          (fun hp y hy => by simp at hy; subst hy; exact h6 hp) e,
        lskip_spaces_cons_of_not_sp _ hsp, scan_groups_other _ x t h4 h5]
      simp [h1]

/-- C10 at the header `fig[a[b]] {c}: x`, which matches and has the form. -/
theorem C10_parse_header_grammar_witness :
    (parse_header "fig[a[b]] {c}: x ".toList).isSome = true ∧
    HeaderForm (rstrip_inplace "fig[a[b]] {c}: x ".toList) :=
  ⟨by decide, (C10_parse_header_grammar "fig[a[b]] {c}: x ".toList (by decide)).1.mp (by decide)⟩

/-! ## Termination of the main loop -/

theorem skip_deeper_length (i : Int) : ∀ fp : List Str,
    (skip_deeper i fp).1.toList.length + (skip_deeper i fp).2.length ≤ fp.length
  | [] => by simp [skip_deeper]
  | l :: fp => by
    have ih := skip_deeper_length i fp
    simp only [skip_deeper]
    split_ifs <;> simp <;> omega

theorem collect_body_length (i : Int) : ∀ (fp : List Str) (body : Str),
    (collect_body i fp body).2.1.toList.length + (collect_body i fp body).2.2.length ≤ fp.length
  | [], body => by simp [collect_body]
  | l :: fp, body => by
    have ih1 := collect_body_length i fp
    simp only [collect_body]
    split_ifs
    · exact le_trans (ih1 _) (by simp)
    · simp; omega
    · exact le_trans (ih1 _) (by simp)
    · exact le_trans (ih1 _) (by simp)

theorem read_title_length (i : Int) : ∀ fp : List Str,
    (read_title i fp).2.1.toList.length + (read_title i fp).2.2.length ≤ fp.length
  | [] => by simp [read_title]
  | l :: fp => by
    have ih := read_title_length i fp
    simp only [read_title]
    split_ifs <;> simp <;> omega

theorem todo_length (s : State) :
    s.todo.length = s.pending_line.toList.length + s.fp.length := by
  simp [State.todo]

theorem do_nobody_todo (name : Str) (i : Int) (s : State) :
    (do_nobody name i s).todo.length ≤ s.todo.length := by
  have := skip_deeper_length i s.fp
  simp only [todo_length, do_nobody]
  omega

theorem do_inline_args_todo (name args : Str) (i : Int) (s : State) :
    (do_inline_args name args i s).todo.length ≤ s.todo.length := by
  have := skip_deeper_length i s.fp
  simp only [todo_length, do_inline_args]
  omega

theorem do_braced_todo (name args after : Str) (i : Int) (s : State) :
    (do_braced name args after i s).todo.length ≤ s.todo.length := by
  unfold do_braced
  split_ifs
  · exact do_inline_args_todo name args i s
  · have := collect_body_length i s.fp after
    simp only [todo_length]
    omega

theorem do_title_todo (name args after : Str) (i : Int) (s : State) :
    (do_title name args after i s).todo.length ≤ s.todo.length := by
  unfold do_title
  split_ifs
  · exact do_inline_args_todo name args i s
  · simp [todo_length]
  · have := read_title_length i s.fp
    simp only [todo_length]
    omega

theorem dispatch_header_todo (content name args after : Str) (i : Int) (s : State) :
    (dispatch_header content name args after i s).todo.length ≤ s.todo.length := by
  unfold dispatch_header
  split_ifs
  · simp [todo_length]
  · exact do_nobody_todo name i s
  · exact do_braced_todo name args after i s
  · exact do_title_todo name args after i s
  all_goals simp [todo_length]

theorem dispatch_line_todo (content : Str) (i : Int) (s : State) :
    (dispatch_line content i s).todo.length ≤ s.todo.length := by
  unfold dispatch_line
  split
  · exact dispatch_header_todo _ _ _ _ _ _
  · unfold dispatch_literal
    split_ifs <;> simp [todo_length]

theorem dispatch_top_todo (line content : Str) (i : Int) (s : State) :
    (dispatch_top line content i s).todo.length ≤ s.todo.length := by
  unfold dispatch_top
  split
  · exact dispatch_line_todo _ _ _
  · split
    · simp [todo_length]
    · simp only []
      split_ifs <;> simp [todo_length]
    · simp [todo_length]
    · exact dispatch_line_todo _ _ _

theorem process_line_todo (py : Str → Str) (line : Str) (s : State) :
    (process_line py line s).todo.length ≤ s.todo.length := by
  unfold process_line
  simp only []
  split_ifs
  · split
    · simp [todo_length]
    · split_ifs <;> simp [todo_length]
  · exact le_trans (dispatch_top_todo _ _ _ _) (by simp [todo_length])

theorem main_iter_todo {py : Str → Str} {s s1 : State} (h : main_iter py s = some s1) :
    s1.todo.length < s.todo.length := by
  unfold main_iter at h
  split at h
  · rename_i line hp
    simp only [Option.some.injEq] at h
    subst h
    have := process_line_todo py line { s with pending_line := none }
    simp only [todo_length, hp] at this ⊢
    simp at this ⊢
    omega
  · rename_i hp
    split at h
    · simp at h
    · rename_i line fp hfp
      simp only [Option.some.injEq] at h
      subst h
      have := process_line_todo py line { s with fp := fp }
      simp only [todo_length, hp, hfp] at this ⊢
      simp at this ⊢
      omega

/-- With as many rounds as there are lines to process, the loop of `main`
stops at the end of the input. -/
theorem main_loop_ends (py : Str → Str) : ∀ (n : Nat) (s : State), s.todo.length ≤ n →
    main_iter py (main_loop py n s) = none
  | 0, s, h => by
    have h0 : s.todo = [] := List.length_eq_zero.mp (Nat.le_zero.mp h)
    simp only [State.todo, List.append_eq_nil] at h0
    cases hp : s.pending_line with
    | some l => rw [hp] at h0; simp at h0
    | none => simp [main_loop, main_iter, hp, h0.2]
  | n + 1, s, h => by
    simp only [main_loop]
    cases hm : main_iter py s with
    | none => simpa using hm
    | some s1 =>
      have := main_iter_todo hm
      exact main_loop_ends py n s1 (by omega)

/-! ## Nesting of the environment writes -/

theorem open_envs_append : ∀ (a b : List Ev) (o : List Str),
    open_envs (a ++ b) o = (open_envs a o).bind (open_envs b)
  | [], b, o => by simp [open_envs]
  | Ev.text _ :: a, b, o => by simp [open_envs, open_envs_append a b]
  | Ev.begin_env _ _ :: a, b, o => by simp [open_envs, open_envs_append a b]
  | Ev.end_env name :: a, b, o => by
    cases o with
    | nil => simp [open_envs]
    | cons top rest =>
      simp only [List.cons_append, open_envs]
      split_ifs
      · exact open_envs_append a b rest
      · rfl

theorem count_begin_append : ∀ (a b : List Ev),
    count_begin (a ++ b) = count_begin a + count_begin b
  | [], b => by simp [count_begin]
  | Ev.text _ :: a, b => by simp [count_begin, count_begin_append a b]
  | Ev.begin_env _ _ :: a, b => by simp [count_begin, count_begin_append a b]; omega
  | Ev.end_env _ :: a, b => by simp [count_begin, count_begin_append a b]

theorem count_end_append : ∀ (a b : List Ev),
    count_end (a ++ b) = count_end a + count_end b
  | [], b => by simp [count_end]
  | Ev.text _ :: a, b => by simp [count_end, count_end_append a b]
  | Ev.begin_env _ _ :: a, b => by simp [count_end, count_end_append a b]
  | Ev.end_env _ :: a, b => by simp [count_end, count_end_append a b]; omega

theorem open_envs_count : ∀ (evs : List Ev) (o o1 : List Str), open_envs evs o = some o1 →
    count_begin evs + o.length = count_end evs + o1.length
  | [], o, o1, h => by
    simp [open_envs] at h
    simp [count_begin, count_end, h]
  | Ev.text _ :: evs, o, o1, h => by
    simp only [open_envs] at h
    simpa [count_begin, count_end] using open_envs_count evs o o1 h
  | Ev.begin_env name _ :: evs, o, o1, h => by
    simp only [open_envs] at h
    have := open_envs_count evs (name :: o) o1 h
    simp [count_begin, count_end] at this ⊢
    omega
  | Ev.end_env name :: evs, o, o1, h => by
    cases o with
    | nil => simp [open_envs] at h
    | cons top rest =>
      simp only [open_envs] at h
      split_ifs at h
      have := open_envs_count evs rest o1 h
      simp [count_begin, count_end] at this ⊢
      omega

@[simp] theorem open_envs_fputs (t : Str) (r : Render) (o : List Str) :
    open_envs (fputs t r).out o = open_envs r.out o := by
  simp only [fputs, open_envs_append]
  cases open_envs r.out o <;> simp [open_envs]

@[simp] theorem open_envs_preamble (r : Render) (o : List Str) :
    open_envs (emit_default_preamble_once r).out o = open_envs r.out o := by
  unfold emit_default_preamble_once
  split_ifs
  · rfl
  · simp only [open_envs_append]
    cases open_envs r.out o <;> simp [open_envs]

@[simp] theorem open_envs_emit_text (t : Str) (r : Render) (o : List Str) :
    open_envs (emit_text_with_n_escapes t r).out o = open_envs r.out o := by
  simp [emit_text_with_n_escapes]

@[simp] theorem open_envs_end_document (r : Render) (o : List Str) :
    open_envs (emit_end_document_if_needed r).out o = open_envs r.out o := by
  unfold emit_end_document_if_needed
  split_ifs
  · simp only [open_envs_append]
    cases open_envs r.out o <;> simp [open_envs]
  · rfl

@[simp] theorem open_envs_math_flush_pending (m : Block) (r : Render) (o : List Str) :
    open_envs (math_flush_pending m r).2.out o = open_envs r.out o := by
  unfold math_flush_pending
  split <;> simp

@[simp] theorem open_envs_math_blank_line (m : Block) (r : Render) (o : List Str) :
    open_envs (math_blank_line m r).2.out o = open_envs r.out o := by
  unfold math_blank_line
  split <;> simp

@[simp] theorem math_blank_line_kind (m : Block) (r : Render) :
    (math_blank_line m r).1.kind = m.kind := by
  unfold math_blank_line
  split <;> rfl

@[simp] theorem math_blank_line_indent (m : Block) (r : Render) :
    (math_blank_line m r).1.indent_cols = m.indent_cols := by
  unfold math_blank_line
  split <;> rfl

theorem math_feed_row_from_spec : ∀ (fuel : Nat) (m : Block) (p : Str) (r : Render),
    (math_feed_row_from fuel m p r).1.kind = m.kind ∧
    (math_feed_row_from fuel m p r).1.indent_cols = m.indent_cols ∧
    ∀ o, open_envs (math_feed_row_from fuel m p r).2.out o = open_envs r.out o
  | 0, m, p, r => by simp [math_feed_row_from]
  | fuel + 1, m, p, r => by
    simp only [math_feed_row_from]
    split_ifs with h1 h2
    · simp
    · refine ⟨rfl, rfl, fun o => ?_⟩
      cases m.math_pending <;> simp
    · have ih := math_feed_row_from_spec fuel
        { m with math_pending := some (p.take (p.length - (find_bn p).length)) }
        ((find_bn p).drop 2)
        (match m.math_pending with
          | some pend => fputs (pend ++ " \\\\\n".toList) r
          | none => r)
      refine ⟨ih.1, ih.2.1, fun o => ?_⟩
      rw [ih.2.2]
      cases m.math_pending <;> simp

@[simp] theorem math_feed_row_kind (m : Block) (t : Str) (r : Render) :
    (math_feed_row m t r).1.kind = m.kind := (math_feed_row_from_spec _ m t r).1

@[simp] theorem math_feed_row_indent (m : Block) (t : Str) (r : Render) :
    (math_feed_row m t r).1.indent_cols = m.indent_cols := (math_feed_row_from_spec _ m t r).2.1

@[simp] theorem open_envs_math_feed_row (m : Block) (t : Str) (r : Render) (o : List Str) :
    open_envs (math_feed_row m t r).2.out o = open_envs r.out o :=
  (math_feed_row_from_spec _ m t r).2.2 o

theorem env_names_cons_of_ne {b : Block} (st : List Block) (h : b.kind ≠ BlockKind.BLK_ENV) :
    env_names (b :: st) = env_names st := by
  simp [env_names, h]

/-- Closing a block keeps the environment writes in step with the stack. -/
theorem close_one_block_nesting (py : Str → Str) (b : Block) (st : List Block) (r : Render)
    (h : open_envs r.out [] = some (env_names (b :: st))) :
    open_envs (close_one_block py b r).out [] = some (env_names st) := by
  unfold close_one_block
  split
  · rename_i hk
    simp only [env_names, hk, if_true] at h
    simp [open_envs_append, h, open_envs]
  · rename_i hk
    rw [env_names_cons_of_ne st (by simp [hk])] at h
    exact h
  · rename_i hk
    rw [env_names_cons_of_ne st (by simp [hk])] at h
    simpa using h
  · rename_i hk
    rw [env_names_cons_of_ne st (by simp [hk])] at h
    simp only []
    split_ifs <;> simpa using h

theorem close_blocks_for_indent_nesting (py : Str → Str) (i : Int) : ∀ (st : List Block)
    (r : Render), open_envs r.out [] = some (env_names st) →
    open_envs (close_blocks_for_indent py i st r).2.out []
      = some (env_names (close_blocks_for_indent py i st r).1)
  | [], r, h => by simpa [close_blocks_for_indent] using h
  | b :: st, r, h => by
    simp only [close_blocks_for_indent]
    split_ifs
    · exact close_blocks_for_indent_nesting py i st _ (close_one_block_nesting py b st r h)
    · exact h

theorem close_all_nesting (py : Str → Str) : ∀ (st : List Block) (r : Render),
    open_envs r.out [] = some (env_names st) → open_envs (close_all py st r).out [] = some []
  | [], r, h => by simpa [close_all, env_names] using h
  | b :: st, r, h => by
    simp only [close_all]
    exact close_all_nesting py st _ (close_one_block_nesting py b st r h)

@[simp] theorem do_nobody_st (name : Str) (i : Int) (s : State) :
    (do_nobody name i s).st = s.st := rfl

@[simp] theorem do_inline_args_st (name args : Str) (i : Int) (s : State) :
    (do_inline_args name args i s).st = s.st := rfl

@[simp] theorem do_braced_st (name args after : Str) (i : Int) (s : State) :
    (do_braced name args after i s).st = s.st := by
  unfold do_braced
  split_ifs <;> rfl

@[simp] theorem do_title_st (name args after : Str) (i : Int) (s : State) :
    (do_title name args after i s).st = s.st := by
  unfold do_title
  split_ifs <;> rfl

@[simp] theorem open_envs_do_nobody (name : Str) (i : Int) (s : State) (o : List Str) :
    open_envs (do_nobody name i s).r.out o = open_envs s.r.out o := by
  simp [do_nobody]

@[simp] theorem open_envs_do_inline_args (name args : Str) (i : Int) (s : State)
    (o : List Str) :
    open_envs (do_inline_args name args i s).r.out o = open_envs s.r.out o := by
  simp [do_inline_args]

@[simp] theorem open_envs_do_braced (name args after : Str) (i : Int) (s : State)
    (o : List Str) :
    open_envs (do_braced name args after i s).r.out o = open_envs s.r.out o := by
  unfold do_braced
  split_ifs <;> simp

@[simp] theorem open_envs_do_title (name args after : Str) (i : Int) (s : State)
    (o : List Str) :
    open_envs (do_title name args after i s).r.out o = open_envs s.r.out o := by
  unfold do_title
  split_ifs <;> simp

/-- The writes and the stack are in step: the environments the writes leave
open are the Environment blocks on the stack. -/
theorem dispatch_header_nesting (content name args after : Str) (i : Int) (s : State)
    (h : open_envs s.r.out [] = some (env_names s.st)) :
    open_envs (dispatch_header content name args after i s).r.out []
      = some (env_names (dispatch_header content name args after i s).st) := by
  unfold dispatch_header
  split_ifs
  · rw [open_envs_emit_text]; exact h
  · rw [open_envs_do_nobody, do_nobody_st]; exact h
  · rw [open_envs_do_braced, do_braced_st]; exact h
  · rw [open_envs_do_title, do_title_st]; exact h
  · rw [env_names_cons_of_ne _ (by simp)]; exact h
  · rw [env_names_cons_of_ne _ (by simp), open_envs_fputs, open_envs_preamble]; exact h
  · rw [env_names_cons_of_ne _ (by simp)]; exact h
  · rw [open_envs_emit_text]
    simp [env_names, open_envs_append, h, open_envs]
  · simp [env_names, open_envs_append, h, open_envs]
  · rw [open_envs_emit_text]; exact h

theorem dispatch_line_nesting (content : Str) (i : Int) (s : State)
    (h : open_envs s.r.out [] = some (env_names s.st)) :
    open_envs (dispatch_line content i s).r.out []
      = some (env_names (dispatch_line content i s).st) := by
  unfold dispatch_line
  split
  · exact dispatch_header_nesting _ _ _ _ _ _ h
  · unfold dispatch_literal
    split_ifs <;> simpa using h

theorem dispatch_top_nesting (line content : Str) (i : Int) (s : State)
    (h : open_envs s.r.out [] = some (env_names s.st)) :
    open_envs (dispatch_top line content i s).r.out []
      = some (env_names (dispatch_top line content i s).st) := by
  unfold dispatch_top
  split
  · exact dispatch_line_nesting _ _ _ h
  · rename_i top rest hst
    rw [hst] at h
    split
    · rename_i hk
      rw [env_names_cons_of_ne rest (by simp [hk])] at h
      rw [env_names_cons_of_ne rest (by simp [hk])]
      simpa using h
    · rename_i hk
      rw [env_names_cons_of_ne rest (by simp [hk])] at h
      simp only []
      split_ifs
      all_goals (rw [env_names_cons_of_ne rest (by simp [hk])]; simpa using h)
    · rename_i hk
      rw [env_names_cons_of_ne rest (by simp [hk])] at h
      rw [env_names_cons_of_ne rest (by simp [hk])]
      exact h
    · rw [← hst] at h
      exact dispatch_line_nesting _ _ _ h

theorem process_line_nesting (py : Str → Str) (line : Str) (s : State)
    (h : open_envs s.r.out [] = some (env_names s.st)) :
    open_envs (process_line py line s).r.out []
      = some (env_names (process_line py line s).st) := by
  unfold process_line
  simp only []
  split_ifs
  · split
    · rename_i hst
      simpa [hst] using h
    · rename_i t0 rest hst
      rw [hst] at h
      split_ifs with hk
      · rw [env_names_cons_of_ne rest (by simp [hk])] at h
        rw [env_names_cons_of_ne rest (by simp [hk])]
        simpa using h
      · simpa [hst] using h
  · exact dispatch_top_nesting _ _ _ _ (close_blocks_for_indent_nesting py _ s.st s.r h)

theorem main_iter_nesting {py : Str → Str} {s s1 : State} (hm : main_iter py s = some s1)
    (h : open_envs s.r.out [] = some (env_names s.st)) :
    open_envs s1.r.out [] = some (env_names s1.st) := by
  unfold main_iter at hm
  split at hm
  · simp only [Option.some.injEq] at hm
    subst hm
    exact process_line_nesting py _ _ h
  · split at hm
    · simp at hm
    · simp only [Option.some.injEq] at hm
      subst hm
      exact process_line_nesting py _ _ h

theorem main_loop_nesting (py : Str → Str) : ∀ (n : Nat) (s : State),
    open_envs s.r.out [] = some (env_names s.st) →
    open_envs (main_loop py n s).r.out [] = some (env_names (main_loop py n s).st)
  | 0, s, h => by simpa [main_loop] using h
  | n + 1, s, h => by
    simp only [main_loop]
    cases hm : main_iter py s with
    | none => simpa using h
    | some s1 => exact main_loop_nesting py n s1 (main_iter_nesting hm h)

/-- C1: on every input the loop of `main` reaches the end of input, and over
the whole run the `\begin` writes of the environment opener and the `\end`
writes of `close_one_block` are well nested: every `\end` carries the name of
the innermost environment still open, none is left open at the end, and there
are as many `\begin` writes as `\end` writes. -/
theorem C1_environments_well_nested (py : Str → Str) (lines : List Str) :
    main_iter py (main_loop py lines.length (State.init lines)) = none ∧
    open_envs (main py lines).out [] = some [] ∧
    count_begin (main py lines).out = count_end (main py lines).out := by
  have h0 : open_envs (State.init lines).r.out [] = some (env_names (State.init lines).st) := by
    simp [State.init, open_envs, env_names]
  have h1 := main_loop_nesting py lines.length _ h0
  have h2 : open_envs (main py lines).out [] = some [] := by
    simp only [main, finish, open_envs_end_document]
    exact close_all_nesting py _ _ h1
  refine ⟨main_loop_ends py _ _ (by simp [State.init, State.todo]), h2, ?_⟩
  simpa using open_envs_count _ _ _ h2

/-! ## The closing pass -/

theorem close_blocks_for_indent_spec (py : Str → Str) (i : Int) : ∀ (st : List Block)
    (r : Render), ∃ closed,
      st = closed ++ (close_blocks_for_indent py i st r).1 ∧
      (close_blocks_for_indent py i st r).2 = close_all py closed r ∧
      (∀ b ∈ closed, i ≤ b.indent_cols) ∧
      (∀ b, (close_blocks_for_indent py i st r).1.head? = some b → b.indent_cols < i)
  | [], r => ⟨[], by simp [close_blocks_for_indent, close_all]⟩
  | top :: rest, r => by
    simp only [close_blocks_for_indent]
    split_ifs with h
    · obtain ⟨closed, h1, h2, h3, h4⟩ :=
        close_blocks_for_indent_spec py i rest (close_one_block py top r)
      refine ⟨top :: closed, ?_, ?_, ?_, h4⟩
      · rw [List.cons_append, ← h1]
      · rw [h2]; rfl
      · intro b hb
        rcases List.mem_cons.mp hb with rfl | hb
        · exact h
        · exact h3 b hb
    · exact ⟨[], by simp [close_all], rfl, by simp, by simpa using lt_of_not_le h⟩

theorem stackSorted_cons {b : Block} {st : List Block} :
    StackSorted (b :: st) ↔ (∀ x ∈ st, x.indent_cols < b.indent_cols) ∧ StackSorted st := by
  simp [StackSorted, shape, List.pairwise_cons]

theorem stackSorted_of_shape_eq {st st1 : List Block} (h : shape st1 = shape st)
    (hs : StackSorted st) : StackSorted st1 := by
  unfold StackSorted at *
  rw [h]; exact hs

theorem stackSorted_append_right {a b : List Block} (h : StackSorted (a ++ b)) :
    StackSorted b := by
  unfold StackSorted shape at *
  rw [List.map_append] at h
  exact (List.pairwise_append.mp h).2.1

theorem stackSorted_all_lt {st : List Block} {i : Int} (hs : StackSorted st)
    (hh : ∀ b, st.head? = some b → b.indent_cols < i) : ∀ b ∈ st, b.indent_cols < i := by
  cases st with
  | nil => simp
  | cons top rest =>
    have h1 := hh top rfl
    have h2 := (stackSorted_cons.mp hs).1
    intro b hb
    rcases List.mem_cons.mp hb with rfl | hb
    · exact h1
    · exact lt_trans (h2 b hb) h1

/-! ## The shape of the stack -/

theorem dispatch_header_shape (content name args after : Str) (i : Int) (s : State) :
    ShapeStep i s.st (dispatch_header content name args after i s).st := by
  unfold dispatch_header
  split_ifs
  · exact Or.inl rfl
  · exact Or.inl (by rw [do_nobody_st])
  · exact Or.inl (by rw [do_braced_st])
  · exact Or.inl (by rw [do_title_st])
  · exact Or.inr ⟨_, rfl⟩
  · exact Or.inr ⟨_, rfl⟩
  · exact Or.inr ⟨_, rfl⟩
  · exact Or.inr ⟨_, rfl⟩
  · exact Or.inr ⟨_, rfl⟩
  · exact Or.inl rfl

theorem dispatch_line_shape (content : Str) (i : Int) (s : State) :
    ShapeStep i s.st (dispatch_line content i s).st := by
  unfold dispatch_line
  split
  · exact dispatch_header_shape _ _ _ _ _ _
  · unfold dispatch_literal
    split_ifs <;> exact Or.inl rfl

theorem dispatch_top_shape (line content : Str) (i : Int) (s : State) :
    ShapeStep i s.st (dispatch_top line content i s).st := by
  unfold dispatch_top
  split
  · exact dispatch_line_shape _ _ _
  · rename_i top rest hst
    split
    · exact Or.inl (by simp [shape, hst])
    · simp only []
      split_ifs <;> exact Or.inl (by simp [shape, hst])
    · exact Or.inl (by simp [shape, hst])
    · exact dispatch_line_shape _ _ _

theorem not_true_of_false {b : Bool} (h : b = false) : ¬ b = true := by simp [h]

theorem process_line_blank_shape (py : Str → Str) (line : Str) (s : State)
    (hb : line_blank line = true) : shape (process_line py line s).st = shape s.st := by
  unfold process_line
  simp only []
  rw [if_pos (show is_blank_line (List.drop (calc_indent_cols (rstrip_inplace line)).2
    (rstrip_inplace line)) = true from hb)]
  split
  · rfl
  · rename_i t0 rest hst
    split_ifs <;> simp [shape, hst]

theorem process_line_nonblank (py : Str → Str) (line : Str) (s : State)
    (hb : line_blank line = false) :
    process_line py line s =
      dispatch_top (rstrip_inplace line) (line_content line) (line_indent line)
        { s with st := (close_blocks_for_indent py (line_indent line) s.st s.r).1,
                 r := (close_blocks_for_indent py (line_indent line) s.st s.r).2 } := by
  unfold process_line
  simp only []
  rw [if_neg (show ¬ is_blank_line (List.drop (calc_indent_cols (rstrip_inplace line)).2
    (rstrip_inplace line)) = true from by
      have : is_blank_line (List.drop (calc_indent_cols (rstrip_inplace line)).2
        (rstrip_inplace line)) = false := hb
      simp [this])]
  rfl

theorem process_line_sorted (py : Str → Str) (line : Str) (s : State)
    (hs : StackSorted s.st) : StackSorted (process_line py line s).st := by
  by_cases hb : line_blank line = true
  · exact stackSorted_of_shape_eq (process_line_blank_shape py line s hb) hs
  · simp only [Bool.not_eq_true] at hb
    rw [process_line_nonblank py line s hb]
    obtain ⟨closed, h1, _, _, h4⟩ := close_blocks_for_indent_spec py (line_indent line) s.st s.r
    have hk : StackSorted (close_blocks_for_indent py (line_indent line) s.st s.r).1 := by
      rw [h1] at hs; exact stackSorted_append_right hs
    rcases dispatch_top_shape (rstrip_inplace line) (line_content line) (line_indent line)
      { s with st := (close_blocks_for_indent py (line_indent line) s.st s.r).1,
               r := (close_blocks_for_indent py (line_indent line) s.st s.r).2 } with h | ⟨k, h⟩
    · exact stackSorted_of_shape_eq h hk
    · unfold StackSorted
      rw [h, List.pairwise_cons]
      refine ⟨?_, hk⟩
      intro a ha
      simp only [shape, List.mem_map] at ha
      obtain ⟨b, hb1, rfl⟩ := ha
      exact stackSorted_all_lt hk h4 b hb1

theorem main_iter_sorted {py : Str → Str} {s s1 : State} (hm : main_iter py s = some s1)
    (hs : StackSorted s.st) : StackSorted s1.st := by
  unfold main_iter at hm
  split at hm
  · simp only [Option.some.injEq] at hm
    subst hm
    exact process_line_sorted py _ _ hs
  · split at hm
    · simp at hm
    · simp only [Option.some.injEq] at hm
      subst hm
      exact process_line_sorted py _ _ hs

theorem reachable_sorted {py : Str → Str} {s : State} (h : Reachable py s) :
    StackSorted s.st := by
  induction h with
  | init lines => simp [State.init, StackSorted, shape]
  | step _ hm ih => exact main_iter_sorted hm ih

/-! ## Lookahead and pushback -/

theorem rstrip_inplace_idem (s : Str) : rstrip_inplace (rstrip_inplace s) = rstrip_inplace s := by
  simp [rstrip_inplace, List.dropWhile_idempotent]

theorem skip_deeper_spec (i : Int) : ∀ fp : List Str, ∃ skipped,
    fp.map rstrip_inplace
      = (skipped ++ ((skip_deeper i fp).1.toList ++ (skip_deeper i fp).2)).map rstrip_inplace ∧
    ∀ L ∈ skipped, line_blank L = true ∨ i < line_indent L
  | [] => ⟨[], by simp [skip_deeper]⟩
  | l :: fp => by
    obtain ⟨sk, h1, h2⟩ := skip_deeper_spec i fp
    simp only [skip_deeper]
    split_ifs with hb hd
    · refine ⟨l :: sk, by simpa using h1, ?_⟩
      intro L hL
      rcases List.mem_cons.mp hL with rfl | hL
      · exact Or.inl hb
      · exact h2 L hL
    · refine ⟨l :: sk, by simpa using h1, ?_⟩
      intro L hL
      rcases List.mem_cons.mp hL with rfl | hL
      · exact Or.inr hd
      · exact h2 L hL
    · exact ⟨[], by simp [rstrip_inplace_idem], by simp⟩

theorem collect_body_spec (i : Int) : ∀ (fp : List Str) (body : Str), ∃ skipped,
    fp.map rstrip_inplace
      = (skipped ++ ((collect_body i fp body).2.1.toList
          ++ (collect_body i fp body).2.2)).map rstrip_inplace ∧
    ∀ L ∈ skipped, line_blank L = true ∨ i < line_indent L
  | [], body => ⟨[], by simp [collect_body]⟩
  | l :: fp, body => by
    simp only [collect_body]
    split_ifs with hb hd hl
    · obtain ⟨sk, h1, h2⟩ := collect_body_spec i fp body
      refine ⟨l :: sk, by simpa using h1, ?_⟩
      intro L hL
      rcases List.mem_cons.mp hL with rfl | hL
      · exact Or.inl hb
      · exact h2 L hL
    · exact ⟨[], by simp [rstrip_inplace_idem], by simp⟩
    · obtain ⟨sk, h1, h2⟩ := collect_body_spec i fp (body ++ " \\\\ ".toList ++ lskip_spaces
        ((rstrip_inplace l).drop (calc_indent_cols (rstrip_inplace l)).2))
      refine ⟨l :: sk, by rw [List.map_cons, h1]; rfl, ?_⟩
      intro L hL
      rcases List.mem_cons.mp hL with rfl | hL
      · exact Or.inr (lt_of_not_le hd)
      · exact h2 L hL
    · obtain ⟨sk, h1, h2⟩ := collect_body_spec i fp (body ++ lskip_spaces
        ((rstrip_inplace l).drop (calc_indent_cols (rstrip_inplace l)).2))
      refine ⟨l :: sk, by rw [List.map_cons, h1]; rfl, ?_⟩
      intro L hL
      rcases List.mem_cons.mp hL with rfl | hL
      · exact Or.inr (lt_of_not_le hd)
      · exact h2 L hL

theorem read_title_spec (i : Int) : ∀ fp : List Str, ∃ skipped,
    fp.map rstrip_inplace
      = (skipped ++ ((read_title i fp).2.1.toList ++ (read_title i fp).2.2)).map rstrip_inplace ∧
    ∀ L ∈ skipped, line_blank L = true ∨ i < line_indent L
  | [] => ⟨[], by simp [read_title]⟩
  | l :: fp => by
    obtain ⟨sk, h1, h2⟩ := read_title_spec i fp
    simp only [read_title]
    split_ifs with hb hd
    · refine ⟨l :: sk, by simpa using h1, ?_⟩
      intro L hL
      rcases List.mem_cons.mp hL with rfl | hL
      · exact Or.inl hb
      · exact h2 L hL
    · exact ⟨[], by simp [rstrip_inplace_idem], by simp⟩
    · exact ⟨[l], by simp, by
        intro L hL
        rw [List.mem_singleton] at hL
        subst hL
        exact Or.inr (lt_of_not_le hd)⟩

theorem lookaheadOK_same (i : Int) (s1 : State) (fp : List Str) (h1 : s1.pending_line = none)
    (h2 : s1.fp = fp) : LookaheadOK i fp s1 :=
  ⟨[], by simp [State.todo, h1, h2], by simp⟩

theorem do_nobody_lookahead (name : Str) (i : Int) (s : State) :
    LookaheadOK i s.fp (do_nobody name i s) := skip_deeper_spec i s.fp

theorem do_inline_args_lookahead (name args : Str) (i : Int) (s : State) :
    LookaheadOK i s.fp (do_inline_args name args i s) := skip_deeper_spec i s.fp

theorem do_braced_lookahead (name args after : Str) (i : Int) (s : State) :
    LookaheadOK i s.fp (do_braced name args after i s) := by
  unfold do_braced
  split_ifs
  · exact do_inline_args_lookahead name args i s
  · exact collect_body_spec i s.fp after

theorem do_title_lookahead (name args after : Str) (i : Int) (s : State) :
    LookaheadOK i s.fp (do_title name args after i s) := by
  unfold do_title
  split_ifs
  · exact do_inline_args_lookahead name args i s
  · exact lookaheadOK_same i _ _ rfl rfl
  · exact read_title_spec i s.fp

theorem dispatch_header_lookahead (content name args after : Str) (i : Int) (s : State)
    (hp : s.pending_line = none) :
    LookaheadOK i s.fp (dispatch_header content name args after i s) := by
  unfold dispatch_header
  split_ifs
  · exact lookaheadOK_same i _ _ hp rfl
  · exact do_nobody_lookahead name i s
  · exact do_braced_lookahead name args after i s
  · exact do_title_lookahead name args after i s
  all_goals exact lookaheadOK_same i _ _ hp rfl

theorem dispatch_line_lookahead (content : Str) (i : Int) (s : State)
    (hp : s.pending_line = none) : LookaheadOK i s.fp (dispatch_line content i s) := by
  unfold dispatch_line
  split
  · exact dispatch_header_lookahead _ _ _ _ _ _ hp
  · unfold dispatch_literal
    split_ifs <;> exact lookaheadOK_same i _ _ hp rfl

theorem dispatch_top_lookahead (line content : Str) (i : Int) (s : State)
    (hp : s.pending_line = none) : LookaheadOK i s.fp (dispatch_top line content i s) := by
  unfold dispatch_top
  split
  · exact dispatch_line_lookahead _ _ _ hp
  · split
    · exact lookaheadOK_same i _ _ hp rfl
    · simp only []
      split_ifs <;> exact lookaheadOK_same i _ _ hp rfl
    · exact lookaheadOK_same i _ _ hp rfl
    · exact dispatch_line_lookahead _ _ _ hp

/-- A round of the loop takes the first of the lines still to be processed,
whether it comes from the pushback slot or from the input. -/
theorem main_iter_of_todo (py : Str → Str) {s : State} {line0 : Str} {rest : List Str}
    (h : s.todo = line0 :: rest) :
    main_iter py s = some (process_line py line0
      { st := s.st, r := s.r, pending_line := none, fp := rest }) := by
  unfold main_iter
  cases hp : s.pending_line with
  | some l =>
    simp only [State.todo, hp, Option.toList, List.singleton_append, List.cons.injEq] at h
    simp only [h.1, h.2]
  | none =>
    simp only [State.todo, hp, Option.toList, List.nil_append] at h
    simp only [h]

theorem shapeStep_indent_le {i : Int} {old new : List Block} (h : ShapeStep i old new)
    (ho : ∀ b ∈ old, b.indent_cols < i) : ∀ b ∈ new, b.indent_cols ≤ i := by
  have hmem : ∀ {st : List Block} {b : Block}, b ∈ st → (b.kind, b.indent_cols) ∈ shape st :=
    fun hb => List.mem_map.mpr ⟨_, hb, rfl⟩
  have hold : ∀ p ∈ shape old, p.2 < i := by
    intro p hp
    obtain ⟨b, hb, rfl⟩ := List.mem_map.mp hp
    exact ho b hb
  intro b hb
  have hb1 := hmem hb
  rcases h with h | ⟨k, h⟩
  · rw [h] at hb1
    exact le_of_lt (hold _ hb1)
  · rw [h] at hb1
    rcases List.mem_cons.mp hb1 with e | hb2
    · have : b.indent_cols = i := congrArg Prod.snd e
      exact le_of_eq this
    · exact le_of_lt (hold _ hb2)

theorem reachable_main_loop {py : Str → Str} : ∀ (n : Nat) {s : State}, Reachable py s →
    Reachable py (main_loop py n s)
  | 0, _, h => h
  | n + 1, s, h => by
    simp only [main_loop]
    cases hm : main_iter py s with
    | none => exact h
    | some s1 => exact reachable_main_loop n (Reachable.step h hm)

/-- C2: in every reachable state, when the next line to process (from the
pushback slot or from the input) is not blank and has indentation `i`, the
stack splits into the blocks `closed` on top, all opened at indentation at
least `i`, and the blocks `kept` below, all opened at indentation less than
`i`; the round closes and pops all of `closed`, top first, with their close
output written, and only then dispatches the line, on the stack `kept`. A
lookahead loop of that round consumes only lines that are blank or indented
deeper than every open block: any other line it reads is pushed back, so it is
the next line to process and the same holds for it. -/
theorem C2_closing_pass (py : Str → Str) (s : State) (hs : Reachable py s)
    (line0 : Str) (rest : List Str) (hnext : s.todo = line0 :: rest)
    (hnb : line_blank line0 = false) :
    ∃ closed kept s1,
      s.st = closed ++ kept ∧
      (∀ b ∈ closed, line_indent line0 ≤ b.indent_cols) ∧
      (∀ b ∈ kept, b.indent_cols < line_indent line0) ∧
      main_iter py s = some s1 ∧ Reachable py s1 ∧
      s1 = dispatch_top (rstrip_inplace line0) (line_content line0) (line_indent line0)
        { st := kept, r := close_all py closed s.r, pending_line := none, fp := rest } ∧
      ∃ skipped, rest.map rstrip_inplace = (skipped ++ s1.todo).map rstrip_inplace ∧
        ∀ L ∈ skipped, line_blank L = true ∨ ∀ b ∈ s1.st, b.indent_cols < line_indent L := by
  obtain ⟨closed, h1, h2, h3, h4⟩ :=
    close_blocks_for_indent_spec py (line_indent line0) s.st s.r
  have hsorted := reachable_sorted hs
  have hk : StackSorted (close_blocks_for_indent py (line_indent line0) s.st s.r).1 := by
    rw [h1] at hsorted; exact stackSorted_append_right hsorted
  have hlt := stackSorted_all_lt hk h4
  have hm := main_iter_of_todo py hnext
  rw [process_line_nonblank py line0 _ hnb] at hm
  simp only [] at hm
  refine ⟨closed, (close_blocks_for_indent py (line_indent line0) s.st s.r).1, _, h1, h3, hlt,
    hm, Reachable.step hs hm, by rw [h2], ?_⟩
  obtain ⟨skipped, e1, e2⟩ := dispatch_top_lookahead (rstrip_inplace line0)
    (line_content line0) (line_indent line0)
    { st := (close_blocks_for_indent py (line_indent line0) s.st s.r).1,
      r := (close_blocks_for_indent py (line_indent line0) s.st s.r).2,
      pending_line := none, fp := rest } rfl
  refine ⟨skipped, e1, fun L hL => ?_⟩
  rcases e2 L hL with hb | hd
  · exact Or.inl hb
  · refine Or.inr (fun b hb => lt_of_le_of_lt ?_ hd)
    exact shapeStep_indent_le (dispatch_top_shape _ _ _ _) hlt b hb

/-- C2 at the state reached after `itemize:` and a `newpage:` inside it whose
lookahead skipped a deeper line and pushed back the line `done`, which is at
the indentation of the open list: the list is closed before `done` is
dispatched. -/
theorem C2_closing_pass_witness :
    ∃ closed kept s1,
      (main_loop id 2 (State.init
          ["itemize:".toList, "  newpage:".toList, "    deep".toList, "done".toList])).st
        = closed ++ kept ∧
      (∀ b ∈ closed, line_indent "done".toList ≤ b.indent_cols) ∧
      (∀ b ∈ kept, b.indent_cols < line_indent "done".toList) ∧
      main_iter id (main_loop id 2 (State.init
          ["itemize:".toList, "  newpage:".toList, "    deep".toList, "done".toList]))
        = some s1 ∧
      Reachable id s1 ∧
      s1 = dispatch_top (rstrip_inplace "done".toList) (line_content "done".toList)
        (line_indent "done".toList)
        { st := kept,
          r := close_all id closed (main_loop id 2 (State.init
            ["itemize:".toList, "  newpage:".toList, "    deep".toList, "done".toList])).r,
          pending_line := none, fp := [] } ∧
      ∃ skipped, ([] : List Str).map rstrip_inplace = (skipped ++ s1.todo).map rstrip_inplace ∧
        ∀ L ∈ skipped, line_blank L = true ∨ ∀ b ∈ s1.st, b.indent_cols < line_indent L :=
  C2_closing_pass id
    (main_loop id 2 (State.init
      ["itemize:".toList, "  newpage:".toList, "    deep".toList, "done".toList]))
    (reachable_main_loop 2 (Reachable.init _))
    "done".toList [] (by decide) (by decide)

/-! ## Lines: indentation, content, trailing whitespace -/

theorem calc_indent_cols_nonneg : ∀ s : Str, 0 ≤ (calc_indent_cols s).1
  | [] => by simp [calc_indent_cols]
  | c :: cs => by
    have ih := calc_indent_cols_nonneg cs
    simp only [calc_indent_cols, TAB_WIDTH]
    split_ifs <;> simp <;> omega

theorem cols_nonneg (w : Str) : 0 ≤ cols w := calc_indent_cols_nonneg w

theorem calc_indent_cols_append : ∀ (w r : Str), IsIndent w →
    (∀ c, r.head? = some c → is_sp c = false) →
    calc_indent_cols (w ++ r) = (cols w, w.length)
  | [], r, _, hr => by
    cases r with
    | nil => simp [calc_indent_cols, cols]
    | cons x xs => simp [calc_indent_cols, cols, hr x rfl]
  | c :: w, r, hw, hr => by
    have ih := calc_indent_cols_append w r (fun x hx => hw x (List.mem_cons_of_mem c hx)) hr
    have hc := hw c (List.mem_cons_self c w)
    rw [List.cons_append, calc_indent_cols, if_pos hc]
    simp only [ih, cols, List.length_cons]
    rw [calc_indent_cols, if_pos hc]

theorem dropWhile_append_all {p : Char → Bool} : ∀ (a b : Str), (∀ c ∈ a, p c = true) →
    (a ++ b).dropWhile p = b.dropWhile p
  | [], b, _ => rfl
  | c :: a, b, h => by
    simp only [List.cons_append, List.dropWhile, h c (List.mem_cons_self c a)]
    exact dropWhile_append_all a b (fun x hx => h x (List.mem_cons_of_mem c hx))

theorem rstrip_inplace_append_trail (x e : Str) (he : IsTrail e) :
    rstrip_inplace (x ++ e) = rstrip_inplace x := by
  unfold rstrip_inplace
  rw [List.reverse_append, dropWhile_append_all _ _ (fun c hc => he c (List.mem_reverse.mp hc))]

theorem rstrip_inplace_eq_self_iff (s : Str) :
    rstrip_inplace s = s ↔ ∀ c, s.getLast? = some c → is_rstrip_char c = false := by
  have key : ∀ t : Str, t.dropWhile is_rstrip_char = t ↔
      ∀ c, t.head? = some c → is_rstrip_char c = false := by
    intro t
    cases t with
    | nil => simp
    | cons x xs =>
      by_cases h : is_rstrip_char x = true
      · simp only [List.dropWhile, h, List.head?_cons, Option.some.injEq, forall_eq',
          Bool.true_eq_false, iff_false]
        intro e
        have h1 := (List.dropWhile_suffix (l := xs) is_rstrip_char).length_le
        have := congrArg List.length e
        simp at this
        omega
      · simp only [Bool.not_eq_true] at h
        simp [List.dropWhile, h]
  unfold rstrip_inplace
  rw [← List.head?_reverse, ← key]
  constructor
  · intro h
    have := congrArg List.reverse h
    simpa using this
  · intro h
    rw [h, List.reverse_reverse]

theorem rstrip_inplace_append_content (w r : Str) (hr : rstrip_inplace r = r) (hne : r ≠ []) :
    rstrip_inplace (w ++ r) = w ++ r := by
  rw [rstrip_inplace_eq_self_iff] at hr ⊢
  intro c hc
  rw [List.getLast?_append_of_ne_nil _ hne] at hc
  exact hr c hc

theorem isContent_ne_nil {r : Str} (h : IsContent r) : r ≠ [] := by
  rintro rfl
  have := h.2.2
  simp [is_blank_line] at this

theorem isContent_head {r : Str} (h : IsContent r) : ∀ c, r.head? = some c → is_sp c = false :=
  (lskip_spaces_eq_self_iff r).mp h.1

/-- A record made of indentation, content and trailing whitespace: what `main`
computes for it. -/
theorem line_of_content {w r e : Str} (hw : IsIndent w) (hr : IsContent r) (he : IsTrail e) :
    rstrip_inplace (w ++ r ++ e) = w ++ r ∧ line_indent (w ++ r ++ e) = cols w ∧
    line_content (w ++ r ++ e) = r ∧ line_blank (w ++ r ++ e) = false := by
  have h1 : rstrip_inplace (w ++ r ++ e) = w ++ r := by
    rw [rstrip_inplace_append_trail _ _ he,
      rstrip_inplace_append_content w r hr.2.1 (isContent_ne_nil hr)]
  have h2 := calc_indent_cols_append w r hw (isContent_head hr)
  refine ⟨h1, ?_, ?_, ?_⟩
  · rw [line_indent, h1, h2]
  · rw [line_content, h1, h2]; simp
  · rw [line_blank, line_content, h1, h2]; simpa using hr.2.2

theorem lskip_spaces_strip_cols_from : ∀ (w r : Str) (c n : Int), IsIndent w →
    (∀ x, r.head? = some x → is_sp x = false) →
    lskip_spaces (strip_cols_from (w ++ r) c n) = r
  | [], r, c, n, _, hr => by
    cases r with
    | nil => simp [strip_cols_from, lskip_spaces]
    | cons x xs =>
      simp only [List.nil_append, strip_cols_from, hr x rfl]
      exact lskip_spaces_cons_of_not_sp xs (hr x rfl)
  | y :: w, r, c, n, hw, hr => by
    have hy := hw y (List.mem_cons_self y w)
    have hw1 : IsIndent w := fun x hx => hw x (List.mem_cons_of_mem y hx)
    have hall : lskip_spaces (w ++ r) = r := by
      unfold lskip_spaces
      rw [dropWhile_append_all w r hw1]
      exact (lskip_spaces_eq_self_iff r).mpr hr
    rw [List.cons_append, strip_cols_from, if_pos hy]
    simp only []
    split_ifs
    all_goals first
      | exact hall
      | (rw [lskip_spaces_cons_of_sp _ hy]; exact hall)
      | exact lskip_spaces_strip_cols_from w r _ n hw1 hr

theorem lskip_spaces_strip_cols {w r : Str} (n : Int) (hw : IsIndent w) (hr : IsContent r) :
    lskip_spaces (strip_cols (w ++ r) n) = r :=
  lskip_spaces_strip_cols_from w r 0 n hw (isContent_head hr)

theorem find_bn_of_no_bn : ∀ (s : Str), ¬ HasBackslashN s → find_bn s = []
  | [], _ => rfl
  | [c], _ => by simp [find_bn]
  | c :: d :: rest, h => by
    have ih := find_bn_of_no_bn (d :: rest) (not_hasBackslashN_cons h)
    have hh := not_hasBackslashN_head h
    rw [find_bn]
    split_ifs with hc
    · exfalso
      simp at hc
      simp [hc.1, hc.2] at hh
    · exact ih

/-- A row with no backslash-n is one part: it ends the pending row with the
plain separator and becomes the pending row. -/
theorem math_feed_row_single (m : Block) (t : Str) (r : Render) (hne : t ≠ [])
    (hbn : ¬ HasBackslashN t) :
    math_feed_row m t r =
      ({ m with math_pending := some t },
        match m.math_pending with
        | some pend => fputs (pend ++ " \\\\\n".toList) r
        | none => r) := by
  simp [math_feed_row, math_feed_row_from, hne, find_bn_of_no_bn t hbn]

/-! ## Running the loop on given lines -/

theorem main_loop_step (py : Str → Str) (n : Nat) {s : State} {line0 : Str} {rest : List Str}
    (h : s.todo = line0 :: rest) :
    main_loop py (n + 1) s = main_loop py n (process_line py line0
      { st := s.st, r := s.r, pending_line := none, fp := rest }) := by
  simp only [main_loop, main_iter_of_todo py h]

theorem main_loop_done (py : Str → Str) (n : Nat) {s : State} (h : s.todo = []) :
    main_loop py n s = s := by
  have hp : s.pending_line = none := by
    cases hp : s.pending_line with
    | none => rfl
    | some l => simp [State.todo, hp] at h
  have hf : s.fp = [] := by simpa [State.todo, hp] using h
  cases n with
  | zero => rfl
  | succ n => simp [main_loop, main_iter, hp, hf]

theorem main_loop_read (py : Str → Str) (n : Nat) (st : List Block) (r : Render)
    (line0 : Str) (rest : List Str) :
    main_loop py (n + 1) { st := st, r := r, pending_line := none, fp := line0 :: rest } =
      main_loop py n (process_line py line0
        { st := st, r := r, pending_line := none, fp := rest }) :=
  main_loop_step py n rfl

theorem main_loop_pending (py : Str → Str) (n : Nat) (st : List Block) (r : Render)
    (line0 : Str) (rest : List Str) :
    main_loop py (n + 1) { st := st, r := r, pending_line := some line0, fp := rest } =
      main_loop py n (process_line py line0
        { st := st, r := r, pending_line := none, fp := rest }) :=
  main_loop_step py n rfl

theorem main_loop_eof (py : Str → Str) (n : Nat) (st : List Block) (r : Render) :
    main_loop py n { st := st, r := r, pending_line := none, fp := [] } =
      { st := st, r := r, pending_line := none, fp := [] } :=
  main_loop_done py n rfl

/-- A non-blank record: the closing pass for its indentation, then the
dispatch of its content. -/
theorem process_line_content (py : Str → Str) {w c e : Str} (hw : IsIndent w)
    (hc : IsContent c) (he : IsTrail e) (s : State) :
    process_line py (w ++ c ++ e) s =
      dispatch_top (w ++ c) c (cols w)
        { s with st := (close_blocks_for_indent py (cols w) s.st s.r).1,
                 r := (close_blocks_for_indent py (cols w) s.st s.r).2 } := by
  obtain ⟨h1, h2, h3, h4⟩ := line_of_content hw hc he
  rw [process_line_nonblank py _ s h4, h1, h2, h3]

theorem close_blocks_for_indent_keep (py : Str → Str) {i : Int} {top : Block}
    (rest : List Block) (r : Render) (h : top.indent_cols < i) :
    close_blocks_for_indent py i (top :: rest) r = (top :: rest, r) := by
  simp [close_blocks_for_indent, not_le.mpr h]

/-- A content row of an open Math block. -/
theorem process_line_math_row (py : Str → Str) {w t e : Str} (hw : IsIndent w)
    (ht : IsContent t) (he : IsTrail e) (hl : t ≠ "latex:".toList) (hbn : ¬ HasBackslashN t)
    (m : Block) (rest : List Block) (rd : Render) (pl : Option Str) (fp : List Str)
    (hk : m.kind = BlockKind.BLK_MATH) (hi : m.indent_cols < cols w) :
    process_line py (w ++ t ++ e) { st := m :: rest, r := rd, pending_line := pl, fp := fp } =
      { st := { m with
                  math_base_cols := if m.math_base_cols < 0 then cols w else m.math_base_cols,
                  math_pending := some t } :: rest,
        r := (match m.math_pending with
          | some pend => fputs (pend ++ " \\\\\n".toList) rd
          | none => rd),
        pending_line := pl, fp := fp } := by
  rw [process_line_content py hw ht he]
  simp only [close_blocks_for_indent_keep py rest rd hi]
  unfold dispatch_top
  simp only [hk]
  rw [lskip_spaces_strip_cols _ hw ht, if_neg hl,
    math_feed_row_single _ t rd (isContent_ne_nil ht) hbn]

/-- A blank line while a Math block is on top. -/
theorem process_line_math_blank (py : Str → Str) {b : Str} (hb : line_blank b = true)
    (m : Block) (rest : List Block) (rd : Render) (pl : Option Str) (fp : List Str)
    (hk : m.kind = BlockKind.BLK_MATH) :
    process_line py b { st := m :: rest, r := rd, pending_line := pl, fp := fp } =
      { st := (math_blank_line m rd).1 :: rest, r := (math_blank_line m rd).2,
        pending_line := pl, fp := fp } := by
  unfold process_line
  simp only []
  rw [if_pos (show is_blank_line (List.drop (calc_indent_cols (rstrip_inplace b)).2
    (rstrip_inplace b)) = true from hb), if_pos hk]

/-- The header `math:` on an empty stack. -/
theorem process_line_math_open (py : Str → Str) {w e : Str} (hw : IsIndent w) (he : IsTrail e)
    (rd : Render) (pl : Option Str) (fp : List Str) :
    process_line py (w ++ "math:".toList ++ e)
        { st := [], r := rd, pending_line := pl, fp := fp } =
      { st := [{ Block.zero with kind := BlockKind.BLK_MATH, indent_cols := cols w,
                                 math_base_cols := -1 }],
        r := fputs "\\[\n\\begin{aligned}\n".toList (emit_default_preamble_once rd),
        pending_line := pl, fp := fp } := by
  rw [process_line_content py hw (by unfold IsContent; decide) he]
  rfl

/-- C3: a `math:` header, two content rows `r1`, `r2` indented deeper than
the header, a blank line and a third row `r3`, then the end of the input: for
rows that are not blank, have no backslash-n and are not `latex:`, the output
is the preamble, the opening markers, `r1` with the plain separator, `r2` with
the spaced separator, `r3` with no separator, the closing markers and the end
of the document; nothing stands before `r1` or after `r3`. -/
theorem C3_math_rows (py : Str → Str) (w0 w1 w2 w3 r1 r2 r3 e0 e1 e2 e3 b : Str)
    (hw0 : IsIndent w0) (hw1 : IsIndent w1) (hw2 : IsIndent w2) (hw3 : IsIndent w3)
    (he0 : IsTrail e0) (he1 : IsTrail e1) (he2 : IsTrail e2) (he3 : IsTrail e3)
    (hd1 : cols w0 < cols w1) (hd2 : cols w0 < cols w2) (hd3 : cols w0 < cols w3)
    (hb : line_blank b = true)
    (hr1 : IsContent r1) (hr2 : IsContent r2) (hr3 : IsContent r3)
    (hn1 : ¬ HasBackslashN r1) (hn2 : ¬ HasBackslashN r2) (hn3 : ¬ HasBackslashN r3)
    (hl1 : r1 ≠ "latex:".toList) (hl2 : r2 ≠ "latex:".toList) (hl3 : r3 ≠ "latex:".toList) :
    (main py [w0 ++ "math:".toList ++ e0, w1 ++ r1 ++ e1, w2 ++ r2 ++ e2, b,
        w3 ++ r3 ++ e3]).bytes
      = preamble ++ "\\[\n\\begin{aligned}\n".toList
        ++ r1 ++ " \\\\\n".toList
        ++ r2 ++ " \\\\[0.6em]\n".toList
        ++ r3 ++ "\n".toList
        ++ "\\end{aligned}\n\\]\n".toList ++ "\\end{document}\n".toList := by
  have h1 : ¬ (cols w1 < 0) := not_lt.mpr (cols_nonneg w1)
  simp only [main, State.init, List.length_cons, List.length_nil]
  rw [main_loop_read, process_line_math_open py hw0 he0,
    main_loop_read, process_line_math_row py hw1 hr1 he1 hl1 hn1 _ _ _ _ _ rfl hd1,
    main_loop_read, process_line_math_row py hw2 hr2 he2 hl2 hn2 _ _ _ _ _ rfl hd2,
    main_loop_read, process_line_math_blank py hb _ _ _ _ _ rfl,
    main_loop_read, process_line_math_row py hw3 hr3 he3 hl3 hn3 _ _ _ _ _ rfl hd3,
    main_loop_eof]
  simp [finish, close_all, close_one_block, math_flush_pending, math_blank_line, fputs,
    emit_default_preamble_once, emit_end_document_if_needed, Render.bytes, Ev.bytes, h1,
    Block.zero]

/-- C3 at the rows `a = b`, `c = d`, `e = f`. -/
theorem C3_math_rows_witness :
    (main id ["math:\n".toList, "  a = b\n".toList, "  c = d\n".toList, "\n".toList,
        "  e = f\n".toList]).bytes
      = preamble ++ "\\[\n\\begin{aligned}\n".toList
        ++ "a = b".toList ++ " \\\\\n".toList
        ++ "c = d".toList ++ " \\\\[0.6em]\n".toList
        ++ "e = f".toList ++ "\n".toList
        ++ "\\end{aligned}\n\\]\n".toList ++ "\\end{document}\n".toList :=
  C3_math_rows id [] "  ".toList "  ".toList "  ".toList "a = b".toList "c = d".toList
    "e = f".toList "\n".toList "\n".toList "\n".toList "\n".toList "\n".toList
    (by unfold IsIndent; decide) (by unfold IsIndent; decide) (by unfold IsIndent; decide)
    (by unfold IsIndent; decide)
    (by unfold IsTrail; decide) (by unfold IsTrail; decide) (by unfold IsTrail; decide)
    (by unfold IsTrail; decide)
    (by decide) (by decide) (by decide) (by decide)
    (by unfold IsContent; decide) (by unfold IsContent; decide) (by unfold IsContent; decide)
    (by unfold HasBackslashN; decide) (by unfold HasBackslashN; decide)
    (by unfold HasBackslashN; decide)
    (by decide) (by decide) (by decide)

/-! ## Headers and their lookahead -/

theorem process_line_rstrip (py : Str → Str) (l : Str) (s : State) :
    process_line py (rstrip_inplace l) s = process_line py l s := by
  unfold process_line
  rw [rstrip_inplace_idem]

/-- A line in the pushback slot is processed as the same line read from the
input. -/
theorem main_iter_pushback (py : Str → Str) (st : List Block) (r : Render) (L : Str)
    (rest : List Str) :
    main_iter py { st := st, r := r, pending_line := some (rstrip_inplace L), fp := rest } =
      main_iter py { st := st, r := r, pending_line := none, fp := L :: rest } := by
  simp only [main_iter, process_line_rstrip]

theorem dispatch_top_of_ready (line content : Str) (i : Int) (s : State)
    (h : HeaderReady s.st) : dispatch_top line content i s = dispatch_line content i s := by
  unfold dispatch_top
  split
  · rfl
  · rename_i top rest hst
    have hk : top.kind = BlockKind.BLK_ENV := h top (by rw [hst]; rfl)
    simp only [hk]

/-- A header line on a stack that is ready for it after the closing pass. -/
theorem main_iter_header (py : Str → Str) {s : State} {w c e : Str} {rest : List Str}
    {name args after : Str} (hw : IsIndent w) (hc : IsContent c) (he : IsTrail e)
    (htodo : s.todo = (w ++ c ++ e) :: rest)
    (hready : HeaderReady (close_blocks_for_indent py (cols w) s.st s.r).1)
    (hp : parse_header c = some (name, args, after)) :
    main_iter py s =
      some (dispatch_header c name args after (cols w) (after_closing py (cols w) s rest)) := by
  rw [main_iter_of_todo py htodo, process_line_content py hw hc he,
    dispatch_top_of_ready _ _ _ _ hready]
  unfold dispatch_line
  simp only [hp]
  rfl

theorem main_iter_header_read (py : Str → Str) (st : List Block) (r : Render) {w c e : Str}
    (rest : List Str) {name args after : Str} (hw : IsIndent w) (hc : IsContent c)
    (he : IsTrail e)
    (hready : HeaderReady (close_blocks_for_indent py (cols w) st r).1)
    (hp : parse_header c = some (name, args, after)) :
    main_iter py { st := st, r := r, pending_line := none, fp := (w ++ c ++ e) :: rest } =
      some (dispatch_header c name args after (cols w)
        { st := (close_blocks_for_indent py (cols w) st r).1,
          r := (close_blocks_for_indent py (cols w) st r).2,
          pending_line := none, fp := rest }) :=
  main_iter_header py hw hc he rfl hready hp

theorem skip_deeper_skipped (i : Int) : ∀ (skipped : List Str) (tl : List Str),
    (∀ l ∈ skipped, line_blank l = true ∨ i < line_indent l) →
    skip_deeper i (skipped ++ tl) = skip_deeper i tl
  | [], _, _ => rfl
  | l :: sk, tl, h => by
    have ih := skip_deeper_skipped i sk tl (fun x hx => h x (List.mem_cons_of_mem l hx))
    rw [List.cons_append, skip_deeper]
    rcases h l (List.mem_cons_self l sk) with hb | hd
    · rw [if_pos (show is_blank_line (List.drop (calc_indent_cols (rstrip_inplace l)).2
        (rstrip_inplace l)) = true from hb)]
      exact ih
    · rw [if_pos (show (calc_indent_cols (rstrip_inplace l)).1 > i from hd)]
      simp only [ite_self]
      exact ih

theorem skip_deeper_stop (i : Int) {L : Str} (rest : List Str) (hb : line_blank L = false)
    (hi : line_indent L ≤ i) : skip_deeper i (L :: rest) = (some (rstrip_inplace L), rest) := by
  rw [skip_deeper]
  rw [if_neg (show ¬ is_blank_line (List.drop (calc_indent_cols (rstrip_inplace L)).2
      (rstrip_inplace L)) = true from by
        have : is_blank_line (List.drop (calc_indent_cols (rstrip_inplace L)).2
          (rstrip_inplace L)) = false := hb
        simp [this]),
    if_neg (show ¬ (calc_indent_cols (rstrip_inplace L)).1 > i from not_lt.mpr hi)]

theorem collect_body_stop (i : Int) {L : Str} (rest : List Str) (body : Str)
    (hb : line_blank L = false) (hi : line_indent L ≤ i) :
    collect_body i (L :: rest) body = (body, some (rstrip_inplace L), rest) := by
  rw [collect_body]
  rw [if_neg (show ¬ is_blank_line (List.drop (calc_indent_cols (rstrip_inplace L)).2
      (rstrip_inplace L)) = true from by
        have : is_blank_line (List.drop (calc_indent_cols (rstrip_inplace L)).2
          (rstrip_inplace L)) = false := hb
        simp [this]),
    if_pos (show (calc_indent_cols (rstrip_inplace L)).1 ≤ i from hi)]

/-- A header that is an identifier and a colon parses to the identifier, empty
argument text, and the left-trimmed text after the colon. -/
theorem parse_header_simple {c name rest : Str} (hid : IsIdentifier name)
    (h : rstrip_inplace c = name ++ ':' :: rest) :
    parse_header c = some (name, [], lskip_spaces rest) := by
  have hsp : is_sp ':' = false := by decide
  have hh : ∀ y, (':' :: rest).head? = some y → is_ident_char y = false := by
    intro y hy
    simp only [List.head?_cons, Option.some.injEq] at hy
    subst hy
    decide
  rw [parse_header_of_form hid GroupSeq.nil (fun _ => hh) (by simpa using h),
    lskip_spaces_cons_of_not_sp _ hsp, scan_groups_other _ ':' rest (by decide) (by decide)]
  simp [lskip_spaces, rstrip_inplace]

theorem dispatch_header_nobody (content name args after : Str) (i : Int) (s : State)
    (hn : is_nobody_command name = true) :
    dispatch_header content name args after i s = do_nobody name i s := by
  unfold dispatch_header
  have hr : is_recognized_header_name name = true := by
    simp [is_recognized_header_name, hn]
  simp [hr, hn]

/-- C7: a header whose name is a no-body command, at indentation `cols w`,
followed by lines `skipped` that are blank or indented deeper, then by a
non-blank line `L` at indentation at most `cols w`: the round writes the
preamble if it is still due and `\name` once, pushes no block, writes nothing
for the skipped lines, and leaves `L` in the pushback slot, from where the next
round dispatches it as if it were read from the input. Every no-body command
name followed by a colon is such a header. -/
theorem C7_nobody_command (py : Str → Str) (s : State) (w c e name args after L : Str)
    (skipped rest : List Str)
    (hw : IsIndent w) (hc : IsContent c) (he : IsTrail e)
    (hp : parse_header c = some (name, args, after)) (hn : is_nobody_command name = true)
    (htodo : s.todo = (w ++ c ++ e) :: (skipped ++ L :: rest))
    (hready : HeaderReady (close_blocks_for_indent py (cols w) s.st s.r).1)
    (hsk : ∀ l ∈ skipped, line_blank l = true ∨ cols w < line_indent l)
    (hL : line_blank L = false) (hLi : line_indent L ≤ cols w) :
    main_iter py s = some
      { st := (close_blocks_for_indent py (cols w) s.st s.r).1,
        r := fputs ("\\".toList ++ name ++ "\n".toList)
          (emit_default_preamble_once (close_blocks_for_indent py (cols w) s.st s.r).2),
        pending_line := some (rstrip_inplace L), fp := rest } ∧
    main_iter py
      { st := (close_blocks_for_indent py (cols w) s.st s.r).1,
        r := fputs ("\\".toList ++ name ++ "\n".toList)
          (emit_default_preamble_once (close_blocks_for_indent py (cols w) s.st s.r).2),
        pending_line := some (rstrip_inplace L), fp := rest } =
    main_iter py
      { st := (close_blocks_for_indent py (cols w) s.st s.r).1,
        r := fputs ("\\".toList ++ name ++ "\n".toList)
          (emit_default_preamble_once (close_blocks_for_indent py (cols w) s.st s.r).2),
        pending_line := none, fp := L :: rest } ∧
    ∀ n ∈ nobody_commands, parse_header (n ++ ":".toList) = some (n, [], []) := by
  refine ⟨?_, main_iter_pushback py _ _ L rest, by decide⟩
  rw [main_iter_header py hw hc he htodo hready hp, dispatch_header_nobody _ _ _ _ _ _ hn]
  simp only [do_nobody, after_closing, skip_deeper_skipped _ skipped (L :: rest) hsk,
    skip_deeper_stop _ rest hL hLi]

/-- C7 at `newpage:` followed by two blank lines, a deeper line and the line
`text`: the three lines are discarded and `text` is pushed back. -/
theorem C7_nobody_command_witness :
    main_iter id (State.init ["newpage:\n".toList, "\n".toList, "\n".toList,
        "   stray\n".toList, "text\n".toList, "more\n".toList]) = some
      { st := [],
        r := fputs "\\newpage\n".toList
          (emit_default_preamble_once { g_doc_open := false, out := [] }),
        pending_line := some "text".toList, fp := ["more\n".toList] } :=
  (C7_nobody_command id
    (State.init ["newpage:\n".toList, "\n".toList, "\n".toList, "   stray\n".toList,
      "text\n".toList, "more\n".toList])
    [] "newpage:".toList "\n".toList "newpage".toList [] [] "text\n".toList
    ["\n".toList, "\n".toList, "   stray\n".toList] ["more\n".toList]
    (by unfold IsIndent; decide) (by unfold IsContent; decide) (by unfold IsTrail; decide)
    (by decide) (by decide) (by decide) (by unfold HeaderReady; decide) (by decide)
    (by decide) (by decide)).1

theorem collect_body_tail (i : Int) (tl : List Str) (body : Str)
    (h : ∀ L, tl.head? = some L → line_blank L = false ∧ line_indent L ≤ i) :
    collect_body i tl body = (body, tl.head?.map rstrip_inplace, tl.tail) := by
  cases tl with
  | nil => rfl
  | cons L rest => exact collect_body_stop i rest body (h L rfl).1 (h L rfl).2

theorem collect_body_deeper (i : Int) {w t e : Str} (tl : List Str) (body : Str)
    (hw : IsIndent w) (ht : IsContent t) (he : IsTrail e) (hd : i < cols w) :
    collect_body i ((w ++ t ++ e) :: tl) body =
      collect_body i tl ((if body.length > 0 then body ++ " \\\\ ".toList else body) ++ t) := by
  obtain ⟨h1, h2, h3, h4⟩ := line_of_content hw ht he
  rw [collect_body]
  rw [if_neg (show ¬ is_blank_line (List.drop (calc_indent_cols (rstrip_inplace (w ++ t ++ e))).2
      (rstrip_inplace (w ++ t ++ e))) = true from not_true_of_false h4),
    if_neg (show ¬ (calc_indent_cols (rstrip_inplace (w ++ t ++ e))).1 ≤ i from by
      have : (calc_indent_cols (rstrip_inplace (w ++ t ++ e))).1 = cols w := h2
      rw [this]; exact not_le.mpr hd)]
  have h3b : List.drop (calc_indent_cols (rstrip_inplace (w ++ t ++ e))).2
      (rstrip_inplace (w ++ t ++ e)) = t := h3
  rw [h3b, ht.1]

theorem isContent_title_inline {gap T : Str} (hT : IsContent T) :
    IsContent ("title:".toList ++ gap ++ T) := by
  refine ⟨?_, ?_, ?_⟩
  · exact lskip_spaces_cons_of_not_sp _ (by decide)
  · exact rstrip_inplace_append_content _ T hT.2.1 (isContent_ne_nil hT)
  · have : isspace 't' = false := by decide
    simp [is_blank_line, this]

theorem parse_header_title_inline {gap T : Str} (hgap : IsIndent gap) (hT : IsContent T) :
    parse_header ("title:".toList ++ gap ++ T) = some ("title".toList, [], T) := by
  have hid : IsIdentifier "title".toList :=
    ⟨'t', "itle".toList, rfl, Or.inr (by decide), by decide⟩
  have h : parse_header ("title:".toList ++ gap ++ T)
      = some ("title".toList, [], lskip_spaces (gap ++ T)) :=
    parse_header_simple hid (by rw [(isContent_title_inline hT).2.1]; rfl)
  rw [h]
  have : lskip_spaces (gap ++ T) = T := by
    unfold lskip_spaces
    rw [dropWhile_append_all gap T hgap]
    exact hT.1
  rw [this]

theorem dispatch_header_title (content args after : Str) (i : Int) (s : State) :
    dispatch_header content "title".toList args after i s
      = do_braced "title".toList args after i s := rfl

/-- The body form of `title` once its body and lookahead are known. -/
theorem do_braced_title_body (after : Str) (i : Int) (s : State) :
    do_braced "title".toList [] after i s =
      { s with
        r := fputs ("\\title\x7b".toList ++
            fputs_with_n_escapes_inline (collect_body i s.fp after).1 ++ "\x7d\n".toList)
          (emit_default_preamble_once s.r),
        pending_line := (collect_body i s.fp after).2.1,
        fp := (collect_body i s.fp after).2.2 } := rfl

set_option maxRecDepth 100000 in
/-- C5, the claim as stated fails: after `title: T` the deeper line `  more`
is consumed by the title and joins its argument; the output is not
`\title{T}` followed by the text line `more`. -/
theorem C5_counterexample :
    (main id ["title: T\n".toList, "  more\n".toList, "text\n".toList]).bytes
      = preamble ++ "\\title\x7bT \\\\ more\x7d\ntext\n\\end{document}\n".toList ∧
    (main id ["title: T\n".toList, "  more\n".toList, "text\n".toList]).bytes
      ≠ preamble ++ "\\title\x7bT\x7d\nmore\ntext\n\\end{document}\n".toList := by
  decide

/-- C5, amended: the header `title: T` (any spaces or tabs after the colon),
when the line that follows it, if any, is not blank and is indented no deeper
than the header, writes exactly `\title{T}` with inline escaping applied to
`T`, consumes no line (the following line goes to the pushback slot) and the
next round dispatches the following lines as if they were read from the input
in the state the header left. -/
theorem C5_title_inline (py : Str → Str) (st : List Block) (r : Render)
    (w gap T e : Str) (tl : List Str)
    (hw : IsIndent w) (hgap : IsIndent gap) (hT : IsContent T) (he : IsTrail e)
    (hready : HeaderReady (close_blocks_for_indent py (cols w) st r).1)
    (htl : ∀ L, tl.head? = some L → line_blank L = false ∧ line_indent L ≤ cols w) :
    main_iter py { st := st, r := r, pending_line := none,
                   fp := (w ++ ("title:".toList ++ gap ++ T) ++ e) :: tl } = some
      { st := (close_blocks_for_indent py (cols w) st r).1,
        r := fputs ("\\title\x7b".toList ++ fputs_with_n_escapes_inline T ++ "\x7d\n".toList)
          (emit_default_preamble_once (close_blocks_for_indent py (cols w) st r).2),
        pending_line := tl.head?.map rstrip_inplace, fp := tl.tail } ∧
    main_iter py
      { st := (close_blocks_for_indent py (cols w) st r).1,
        r := fputs ("\\title\x7b".toList ++ fputs_with_n_escapes_inline T ++ "\x7d\n".toList)
          (emit_default_preamble_once (close_blocks_for_indent py (cols w) st r).2),
        pending_line := tl.head?.map rstrip_inplace, fp := tl.tail } =
    main_iter py
      { st := (close_blocks_for_indent py (cols w) st r).1,
        r := fputs ("\\title\x7b".toList ++ fputs_with_n_escapes_inline T ++ "\x7d\n".toList)
          (emit_default_preamble_once (close_blocks_for_indent py (cols w) st r).2),
        pending_line := none, fp := tl } := by
  constructor
  · rw [main_iter_header_read py st r tl hw (isContent_title_inline hT) he hready
        (parse_header_title_inline hgap hT),
      dispatch_header_title, do_braced_title_body]
    simp only [collect_body_tail _ tl T htl]
  · cases tl with
    | nil => rfl
    | cons L rest => exact main_iter_pushback py _ _ L rest

/-- C5, amended, at `title: My Document` followed by the line `text`. -/
theorem C5_title_inline_witness :
    main_iter id (State.init ["title: My Document\n".toList, "text\n".toList]) = some
      { st := [],
        r := fputs "\\title\x7bMy Document\x7d\n".toList
          (emit_default_preamble_once { g_doc_open := false, out := [] }),
        pending_line := some "text".toList, fp := [] } :=
  (C5_title_inline id [] { g_doc_open := false, out := [] } [] " ".toList
    "My Document".toList "\n".toList ["text\n".toList]
    (by unfold IsIndent; decide) (by unfold IsIndent; decide) (by unfold IsContent; decide)
    (by unfold IsTrail; decide) (by unfold HeaderReady; decide) (by decide)).1

theorem title_inline_pushback (py : Str → Str) (st : List Block) (r : Render)
    (w T e L : Str) (rest : List Str)
    (hw : IsIndent w) (hT : IsContent T) (he : IsTrail e)
    (hready : HeaderReady (close_blocks_for_indent py (cols w) st r).1)
    (hL : line_blank L = false) (hLi : line_indent L ≤ cols w) :
    main_iter py { st := st, r := r, pending_line := none,
                   fp := (w ++ ("title:".toList ++ " ".toList ++ T) ++ e) :: L :: rest } = some
      { st := (close_blocks_for_indent py (cols w) st r).1,
        r := fputs ("\\title\x7b".toList ++ fputs_with_n_escapes_inline T ++ "\x7d\n".toList)
          (emit_default_preamble_once (close_blocks_for_indent py (cols w) st r).2),
        pending_line := some (rstrip_inplace L), fp := rest } := by
  have hgap : IsIndent " ".toList := by unfold IsIndent; decide
  rw [main_iter_header_read py st r (L :: rest) hw (isContent_title_inline hT) he hready
      (parse_header_title_inline hgap hT),
    dispatch_header_title, do_braced_title_body]
  simp only [collect_body_stop _ rest T hL hLi]

/-- C6: the header `title:` alone, then one line with the text `T` indented
deeper than the header, then a non-blank line `L` indented no deeper than the
header: the round writes exactly what the inline form `title: T` writes in the
same state, `\title{T}` with inline escaping, and leaves the same state, with
`L` in the pushback slot; the next round dispatches `L` as if it were read from
the input. -/
theorem C6_title_body (py : Str → Str) (st : List Block) (r : Render)
    (w w1 T e0 e1 L : Str) (rest : List Str)
    (hw : IsIndent w) (hw1 : IsIndent w1) (hT : IsContent T) (he0 : IsTrail e0)
    (he1 : IsTrail e1) (hd : cols w < cols w1)
    (hready : HeaderReady (close_blocks_for_indent py (cols w) st r).1)
    (hL : line_blank L = false) (hLi : line_indent L ≤ cols w) :
    main_iter py { st := st, r := r, pending_line := none,
                   fp := (w ++ "title:".toList ++ e0) :: (w1 ++ T ++ e1) :: L :: rest } = some
      { st := (close_blocks_for_indent py (cols w) st r).1,
        r := fputs ("\\title\x7b".toList ++ fputs_with_n_escapes_inline T ++ "\x7d\n".toList)
          (emit_default_preamble_once (close_blocks_for_indent py (cols w) st r).2),
        pending_line := some (rstrip_inplace L), fp := rest } ∧
    main_iter py { st := st, r := r, pending_line := none,
                   fp := (w ++ "title:".toList ++ e0) :: (w1 ++ T ++ e1) :: L :: rest } =
    main_iter py { st := st, r := r, pending_line := none,
                   fp := (w ++ ("title:".toList ++ " ".toList ++ T) ++ e0) :: L :: rest } ∧
    main_iter py
      { st := (close_blocks_for_indent py (cols w) st r).1,
        r := fputs ("\\title\x7b".toList ++ fputs_with_n_escapes_inline T ++ "\x7d\n".toList)
          (emit_default_preamble_once (close_blocks_for_indent py (cols w) st r).2),
        pending_line := some (rstrip_inplace L), fp := rest } =
    main_iter py
      { st := (close_blocks_for_indent py (cols w) st r).1,
        r := fputs ("\\title\x7b".toList ++ fputs_with_n_escapes_inline T ++ "\x7d\n".toList)
          (emit_default_preamble_once (close_blocks_for_indent py (cols w) st r).2),
        pending_line := none, fp := L :: rest } := by
  have hbody : main_iter py
      { st := st, r := r, pending_line := none,
        fp := (w ++ "title:".toList ++ e0) :: (w1 ++ T ++ e1) :: L :: rest } = some
      { st := (close_blocks_for_indent py (cols w) st r).1,
        r := fputs ("\\title\x7b".toList ++ fputs_with_n_escapes_inline T ++ "\x7d\n".toList)
          (emit_default_preamble_once (close_blocks_for_indent py (cols w) st r).2),
        pending_line := some (rstrip_inplace L), fp := rest } := by
    have hc0 : IsContent "title:".toList := by unfold IsContent; decide
    rw [main_iter_header_read py st r _ hw hc0 he0 hready
        (show parse_header "title:".toList = some ("title".toList, [], []) from by decide),
      dispatch_header_title, do_braced_title_body]
    simp only [collect_body_deeper _ _ _ hw1 hT he1 hd,
      collect_body_stop _ rest _ hL hLi]
    simp
  have hinline := (title_inline_pushback py st r w T e0 L rest hw hT he0 hready hL hLi)
  exact ⟨hbody, hbody.trans hinline.symm, main_iter_pushback py _ _ L rest⟩

/-- C6 at `title:`, the deeper line `My Document` and the line `text`. -/
theorem C6_title_body_witness :
    main_iter id (State.init ["title:\n".toList, "  My Document\n".toList,
        "text\n".toList]) = some
      { st := [],
        r := fputs "\\title\x7bMy Document\x7d\n".toList
          (emit_default_preamble_once { g_doc_open := false, out := [] }),
        pending_line := some "text".toList, fp := [] } :=
  (C6_title_body id [] { g_doc_open := false, out := [] } [] "  ".toList
    "My Document".toList "\n".toList "\n".toList "text\n".toList []
    (by unfold IsIndent; decide) (by unfold IsIndent; decide) (by unfold IsContent; decide)
    (by unfold IsTrail; decide) (by unfold IsTrail; decide) (by decide)
    (by unfold HeaderReady; decide) (by decide) (by decide)).1

/-! ## Code blocks -/

theorem strstr_sound : ∀ (hay needle : Str), strstr hay needle = true → needle <:+: hay
  | [], needle, h => by
    simp [strstr] at h
    subst h
    exact List.nil_infix
  | x :: xs, needle, h => by
    simp only [strstr, Bool.or_eq_true, List.isPrefixOf_iff_prefix] at h
    rcases h with h | h
    · exact h.isInfix
    · exact (strstr_sound xs needle h).trans (List.suffix_cons x xs).isInfix

theorem strchr_suffix : ∀ (s : Str) (c : Char) (r : Str), strchr s c = some r → r <:+ s
  | [], c, r, h => by simp [strchr] at h
  | x :: xs, c, r, h => by
    simp only [strchr] at h
    split_ifs at h
    · simp only [Option.some.injEq] at h
      subst h
      exact List.suffix_refl _
    · exact (strchr_suffix xs c r h).trans (List.suffix_cons x xs)

/-- Argument text with no `results=` in it, in any letter case, gives the
Verbatim mode. -/
theorem parse_python_results_mode_verbatim (args : Str)
    (h : ¬ ("results=".toList <:+: args.map tolower)) :
    parse_python_results_mode args = PyResultsMode.PYRES_VERBATIM := by
  unfold parse_python_results_mode
  split
  · rfl
  · rename_i lb hlb
    split
    · rfl
    · rename_i rb hrb
      simp only []
      split_ifs with hs
      · exfalso
        apply h
        have hopt : (((lb.drop 1).take ((lb.drop 1).length - rb.length)).map tolower)
            <:+: args.map tolower := by
          apply List.IsInfix.map
          exact (List.take_prefix _ _).isInfix.trans
            ((List.drop_suffix 1 lb).isInfix.trans (strchr_suffix _ _ _ hlb).isInfix)
        have hpre : ∀ x : Str, "results=".toList <+: x →
            strstr (((lb.drop 1).take ((lb.drop 1).length - rb.length)).map tolower) x = true →
            "results=".toList <:+: args.map tolower :=
          fun x hx hstr => (hx.isInfix.trans (strstr_sound _ _ hstr)).trans hopt
        simp only [Bool.or_eq_true] at hs
        rcases hs with (hs | hs) | hs
        · exact hpre _ (by decide) hs
        · exact hpre _ (by decide) hs
        · exact hpre _ (by decide) hs
      · rfl

/-- The text `close_one_block` writes for a captured output: the output, and
a newline when the output is not empty and does not end in one. -/
theorem with_final_newline_eq (out : Str) :
    with_final_newline out
      = out ++ (if out ≠ [] ∧ out.getLast? ≠ some '\n' then ['\n'] else []) := by
  unfold with_final_newline
  split_ifs <;> simp

theorem bytes_fputs (t : Str) (r : Render) : (fputs t r).bytes = r.bytes ++ t := by
  simp [fputs, Render.bytes, Ev.bytes]

theorem process_line_python_keeps (py : Str → Str) (line : Str) (top : Block)
    (rest : List Block) (r : Render) (pl : Option Str) (fp : List Str)
    (hk : top.kind = BlockKind.BLK_PYTHON)
    (h : line_blank line = true ∨ top.indent_cols < line_indent line) :
    ∃ top1, (process_line py line
        { st := top :: rest, r := r, pending_line := pl, fp := fp }).st = top1 :: rest ∧
      top1.kind = BlockKind.BLK_PYTHON ∧ top1.py_mode = top.py_mode ∧
      top1.indent_cols = top.indent_cols := by
  by_cases hb : line_blank line = true
  · refine ⟨top, ?_, hk, rfl, rfl⟩
    unfold process_line
    simp only []
    rw [if_pos (show is_blank_line (List.drop (calc_indent_cols (rstrip_inplace line)).2
      (rstrip_inplace line)) = true from hb)]
    simp [hk]
  · have hd : top.indent_cols < line_indent line := by
      rcases h with h | h
      · exact absurd h hb
      · exact h
    simp only [Bool.not_eq_true] at hb
    rw [process_line_nonblank py line _ hb]
    simp only [close_blocks_for_indent_keep py rest r hd]
    unfold dispatch_top
    simp only [hk]
    exact ⟨_, rfl, rfl, rfl, rfl⟩

/-- C4: with the Code Execution Service any function `py`. The header
`python:` pushes a Code block in Verbatim mode and `python[results=tex]:` one
in DirectOutput mode (argument text with no `results=` in it always gives
Verbatim); blank and deeper lines keep the block and its mode; and closing a
Code block with accumulated source `code` writes, after the preamble if it is
still due, `\begin{verbatim}`, the captured text `py code` with a newline added
when it is not empty and does not end in one, and `\end{verbatim}` in Verbatim
mode, and the captured text alone, with the same newline rule, in DirectOutput
mode. -/
theorem C4_python_results (py : Str → Str) :
    (∀ (st : List Block) (r : Render) (w e : Str) (rest : List Str),
      IsIndent w → IsTrail e →
      HeaderReady (close_blocks_for_indent py (cols w) st r).1 →
      main_iter py { st := st, r := r, pending_line := none,
                     fp := (w ++ "python:".toList ++ e) :: rest } = some
        { st := { Block.zero with kind := BlockKind.BLK_PYTHON, indent_cols := cols w,
                                  py_base_cols := -1,
                                  py_mode := PyResultsMode.PYRES_VERBATIM, py_code := [] }
                  :: (close_blocks_for_indent py (cols w) st r).1,
          r := (close_blocks_for_indent py (cols w) st r).2,
          pending_line := none, fp := rest }) ∧
    (∀ (st : List Block) (r : Render) (w e : Str) (rest : List Str),
      IsIndent w → IsTrail e →
      HeaderReady (close_blocks_for_indent py (cols w) st r).1 →
      main_iter py { st := st, r := r, pending_line := none,
                     fp := (w ++ "python[results=tex]:".toList ++ e) :: rest } = some
        { st := { Block.zero with kind := BlockKind.BLK_PYTHON, indent_cols := cols w,
                                  py_base_cols := -1,
                                  py_mode := PyResultsMode.PYRES_TEX, py_code := [] }
                  :: (close_blocks_for_indent py (cols w) st r).1,
          r := (close_blocks_for_indent py (cols w) st r).2,
          pending_line := none, fp := rest }) ∧
    (∀ args : Str, ¬ ("results=".toList <:+: args.map tolower) →
      parse_python_results_mode args = PyResultsMode.PYRES_VERBATIM) ∧
    (∀ (line : Str) (top : Block) (rest : List Block) (r : Render) (pl : Option Str)
      (fp : List Str), top.kind = BlockKind.BLK_PYTHON →
      line_blank line = true ∨ top.indent_cols < line_indent line →
      ∃ top1, (process_line py line
          { st := top :: rest, r := r, pending_line := pl, fp := fp }).st = top1 :: rest ∧
        top1.kind = BlockKind.BLK_PYTHON ∧ top1.py_mode = top.py_mode ∧
        top1.indent_cols = top.indent_cols) ∧
    (∀ (b : Block) (r : Render), b.kind = BlockKind.BLK_PYTHON →
      b.py_mode = PyResultsMode.PYRES_VERBATIM →
      (close_one_block py b r).bytes
        = (emit_default_preamble_once r).bytes ++ "\\begin{verbatim}\n".toList
          ++ py b.py_code
          ++ (if py b.py_code ≠ [] ∧ (py b.py_code).getLast? ≠ some '\n' then ['\n'] else [])
          ++ "\\end{verbatim}\n".toList) ∧
    (∀ (b : Block) (r : Render), b.kind = BlockKind.BLK_PYTHON →
      b.py_mode = PyResultsMode.PYRES_TEX →
      (close_one_block py b r).bytes
        = (emit_default_preamble_once r).bytes ++ py b.py_code
          ++ (if py b.py_code ≠ [] ∧ (py b.py_code).getLast? ≠ some '\n' then ['\n'] else [])) := by
  refine ⟨?_, ?_, parse_python_results_mode_verbatim, process_line_python_keeps py, ?_, ?_⟩
  · intro st r w e rest hw he hready
    have hc : IsContent "python:".toList := by unfold IsContent; decide
    rw [main_iter_header_read py st r rest hw hc he hready
      (show parse_header "python:".toList = some ("python".toList, [], []) from by decide)]
    rfl
  · intro st r w e rest hw he hready
    have hc : IsContent "python[results=tex]:".toList := by unfold IsContent; decide
    rw [main_iter_header_read py st r rest hw hc he hready
      (show parse_header "python[results=tex]:".toList
        = some ("python".toList, "[results=tex]".toList, []) from by decide)]
    rfl
  · intro b r hk hm
    unfold close_one_block
    simp only [hk, hm]
    rw [if_neg (by decide), bytes_fputs, bytes_fputs, bytes_fputs, with_final_newline_eq]
    simp only [List.append_assoc]
  · intro b r hk hm
    unfold close_one_block
    simp only [hk, hm]
    rw [if_pos trivial, bytes_fputs, with_final_newline_eq]
    simp only [List.append_assoc]

/-- C4 at the document `python:` with one source line, and at a Code block
whose captured text `x` lacks its final newline. -/
theorem C4_python_results_witness :
    main_iter id (State.init ["python:\n".toList, "  print(1)\n".toList]) = some
      { st := [{ Block.zero with kind := BlockKind.BLK_PYTHON, indent_cols := 0,
                                 py_base_cols := -1,
                                 py_mode := PyResultsMode.PYRES_VERBATIM, py_code := [] }],
        r := { g_doc_open := false, out := [] },
        pending_line := none, fp := ["  print(1)\n".toList] } ∧
    (close_one_block id
        { Block.zero with kind := BlockKind.BLK_PYTHON, py_code := "x".toList }
        { g_doc_open := true, out := [] }).bytes
      = "\\begin{verbatim}\nx\n\\end{verbatim}\n".toList :=
  ⟨(C4_python_results id).1 [] { g_doc_open := false, out := [] } [] "\n".toList
      ["  print(1)\n".toList] (by unfold IsIndent; decide) (by unfold IsTrail; decide)
      (by unfold HeaderReady; decide),
    (C4_python_results id).2.2.2.2.1
      { Block.zero with kind := BlockKind.BLK_PYTHON, py_code := "x".toList }
      { g_doc_open := true, out := [] } rfl rfl⟩

/-! ## The preamble comes first -/

@[simp] theorem fputs_g_doc_open (t : Str) (r : Render) :
    (fputs t r).g_doc_open = r.g_doc_open := rfl

@[simp] theorem emit_default_preamble_once_open (r : Render) :
    (emit_default_preamble_once r).g_doc_open = true := by
  unfold emit_default_preamble_once
  split_ifs with h
  · exact h
  · rfl

@[simp] theorem emit_text_open (t : Str) (r : Render) :
    (emit_text_with_n_escapes t r).g_doc_open = true := by
  simp [emit_text_with_n_escapes]

theorem bytes_append_ev (g : Bool) (out : List Ev) (e : Ev) :
    Render.bytes { g_doc_open := g, out := out ++ [e] }
      = Render.bytes { g_doc_open := g, out := out } ++ e.bytes := by
  simp [Render.bytes]

theorem good_append_ev {r : Render} (e : Ev) (h : Good r) (hg : r.g_doc_open = true) :
    Good { g_doc_open := r.g_doc_open, out := r.out ++ [e] } := by
  refine ⟨fun h0 => ?_, fun _ => ?_⟩
  · simp [hg] at h0
  · obtain ⟨pre, rest, h1, h2⟩ := h.2 hg
    refine ⟨pre, rest ++ e.bytes, h1, ?_⟩
    rw [bytes_append_ev]
    have : Render.bytes { g_doc_open := r.g_doc_open, out := r.out } = r.bytes := rfl
    rw [this, h2]
    simp

theorem good_fputs {r : Render} (t : Str) (h : Good r) (hg : r.g_doc_open = true) :
    Good (fputs t r) := good_append_ev (Ev.text t) h hg

theorem good_fputs_newline {r : Render} (h : Good r) : Good (fputs "\n".toList r) := by
  by_cases hg : r.g_doc_open = true
  · exact good_fputs _ h hg
  · simp only [Bool.not_eq_true] at hg
    refine ⟨fun _ => ?_, fun h1 => ?_⟩
    · rw [bytes_fputs]
      intro c hc
      rcases List.mem_append.mp hc with hc | hc
      · exact h.1 hg c hc
      · simpa using hc
    · simp [hg] at h1

theorem good_preamble {r : Render} (h : Good r) : Good (emit_default_preamble_once r) := by
  unfold emit_default_preamble_once
  split_ifs with hg
  · exact h
  · simp only [Bool.not_eq_true] at hg
    refine ⟨fun h0 => by simp at h0, fun _ => ⟨r.bytes, [], h.1 hg, ?_⟩⟩
    rw [bytes_append_ev]
    simp [Render.bytes, Ev.bytes]

theorem good_emit_text {r : Render} (t : Str) (h : Good r) :
    Good (emit_text_with_n_escapes t r) :=
  good_fputs _ (good_preamble h) (emit_default_preamble_once_open r)

@[simp] theorem math_flush_pending_g (m : Block) (r : Render) :
    (math_flush_pending m r).2.g_doc_open = r.g_doc_open := by
  unfold math_flush_pending
  split <;> rfl

@[simp] theorem math_blank_line_g (m : Block) (r : Render) :
    (math_blank_line m r).2.g_doc_open = r.g_doc_open := by
  unfold math_blank_line
  split <;> rfl

theorem good_math_flush_pending {r : Render} (m : Block) (h : Good r)
    (hg : r.g_doc_open = true) : Good (math_flush_pending m r).2 := by
  unfold math_flush_pending
  split
  · exact good_fputs _ h hg
  · exact h

theorem good_math_blank_line {r : Render} (m : Block) (h : Good r)
    (hg : r.g_doc_open = true) : Good (math_blank_line m r).2 := by
  unfold math_blank_line
  split
  · exact good_fputs _ h hg
  · exact h

theorem math_feed_row_from_good : ∀ (fuel : Nat) (m : Block) (p : Str) (r : Render),
    Good r → r.g_doc_open = true →
    Good (math_feed_row_from fuel m p r).2 ∧
    (math_feed_row_from fuel m p r).2.g_doc_open = true
  | 0, m, p, r, h, hg => by simp [math_feed_row_from, h, hg]
  | fuel + 1, m, p, r, h, hg => by
    have h1 : Good (match m.math_pending with
        | some pend => fputs (pend ++ " \\\\\n".toList) r
        | none => r) ∧
        (match m.math_pending with
        | some pend => fputs (pend ++ " \\\\\n".toList) r
        | none => r).g_doc_open = true := by
      cases m.math_pending with
      | none => exact ⟨h, hg⟩
      | some pend => exact ⟨good_fputs _ h hg, hg⟩
    simp only [math_feed_row_from]
    split_ifs
    · exact ⟨h, hg⟩
    · exact h1
    · exact math_feed_row_from_good fuel _ _ _ h1.1 h1.2

theorem close_one_block_good (py : Str → Str) (b : Block) {r : Render} (h : Good r)
    (hm : b.kind = BlockKind.BLK_MATH → r.g_doc_open = true) :
    Good (close_one_block py b r) ∧
    (r.g_doc_open = true → (close_one_block py b r).g_doc_open = true) := by
  unfold close_one_block
  split
  · exact ⟨good_append_ev _ (good_preamble h) (emit_default_preamble_once_open r),
      fun _ => emit_default_preamble_once_open r⟩
  · exact ⟨h, id⟩
  · rename_i hk
    have hg := hm hk
    exact ⟨good_fputs _ (good_math_flush_pending b h hg) (by simpa using hg),
      fun _ => by simpa using hg⟩
  · simp only []
    split_ifs
    · exact ⟨good_fputs _ (good_preamble h) (by simp), fun _ => by simp⟩
    · exact ⟨good_fputs _ (good_fputs _ (good_fputs _ (good_preamble h) (by simp)) (by simp))
        (by simp), fun _ => by simp⟩

theorem mathOpen_tail {b : Block} {st : List Block} {r : Render} (h : MathOpen (b :: st) r) :
    MathOpen st r := fun ⟨x, hx, hk⟩ => h ⟨x, List.mem_cons_of_mem b hx, hk⟩

theorem mathOpen_mono {st : List Block} {r r1 : Render} (h : MathOpen st r)
    (hg : r.g_doc_open = true → r1.g_doc_open = true) : MathOpen st r1 :=
  fun hx => hg (h hx)

theorem mathOpen_of_open (st : List Block) {r : Render} (hg : r.g_doc_open = true) :
    MathOpen st r := fun _ => hg

theorem close_blocks_for_indent_good (py : Str → Str) (i : Int) : ∀ (st : List Block)
    (r : Render), Good r → MathOpen st r →
    Good (close_blocks_for_indent py i st r).2 ∧
    MathOpen (close_blocks_for_indent py i st r).1 (close_blocks_for_indent py i st r).2 ∧
    (r.g_doc_open = true → (close_blocks_for_indent py i st r).2.g_doc_open = true)
  | [], r, h, hm => by simpa [close_blocks_for_indent] using ⟨h, hm⟩
  | b :: st, r, h, hm => by
    simp only [close_blocks_for_indent]
    split_ifs
    · have hc := close_one_block_good py b h (fun hk => hm ⟨b, List.mem_cons_self b st, hk⟩)
      have ih := close_blocks_for_indent_good py i st _ hc.1
        (mathOpen_mono (mathOpen_tail hm) hc.2)
      exact ⟨ih.1, ih.2.1, fun hg => ih.2.2 (hc.2 hg)⟩
    · exact ⟨h, hm, id⟩

theorem close_all_good (py : Str → Str) : ∀ (st : List Block) (r : Render),
    Good r → MathOpen st r → Good (close_all py st r)
  | [], r, h, _ => by simpa [close_all] using h
  | b :: st, r, h, hm => by
    simp only [close_all]
    have hc := close_one_block_good py b h (fun hk => hm ⟨b, List.mem_cons_self b st, hk⟩)
    exact close_all_good py st _ hc.1 (mathOpen_mono (mathOpen_tail hm) hc.2)

theorem mathOpen_cons_of_ne {b : Block} {st : List Block} {r : Render}
    (hb : b.kind ≠ BlockKind.BLK_MATH) (h : MathOpen st r) : MathOpen (b :: st) r := by
  rintro ⟨x, hx, hk⟩
  rcases List.mem_cons.mp hx with rfl | hx
  · exact absurd hk hb
  · exact h ⟨x, hx, hk⟩

theorem mathOpen_replace_top {b b1 : Block} {st : List Block} {r : Render}
    (hk : b1.kind = b.kind) (h : MathOpen (b :: st) r) : MathOpen (b1 :: st) r := by
  rintro ⟨x, hx, hxk⟩
  rcases List.mem_cons.mp hx with rfl | hx
  · exact h ⟨b, List.mem_cons_self b st, hk ▸ hxk⟩
  · exact h ⟨x, List.mem_cons_of_mem b hx, hxk⟩

theorem do_nobody_good (name : Str) (i : Int) (s : State) (h : Good s.r) :
    Good (do_nobody name i s).r ∧ (do_nobody name i s).r.g_doc_open = true :=
  ⟨good_fputs _ (good_preamble h) (by simp), by simp [do_nobody]⟩

theorem do_inline_args_good (name args : Str) (i : Int) (s : State) (h : Good s.r) :
    Good (do_inline_args name args i s).r ∧ (do_inline_args name args i s).r.g_doc_open = true :=
  ⟨good_fputs _ (good_preamble h) (by simp), by simp [do_inline_args]⟩

theorem do_braced_good (name args after : Str) (i : Int) (s : State) (h : Good s.r) :
    Good (do_braced name args after i s).r ∧
    (do_braced name args after i s).r.g_doc_open = true := by
  unfold do_braced
  split_ifs
  · exact do_inline_args_good name args i s h
  · exact ⟨good_fputs _ (good_preamble h) (by simp), by simp⟩

theorem do_title_good (name args after : Str) (i : Int) (s : State) (h : Good s.r) :
    Good (do_title name args after i s).r ∧
    (do_title name args after i s).r.g_doc_open = true := by
  unfold do_title
  split_ifs
  · exact do_inline_args_good name args i s h
  · exact ⟨good_fputs _ (good_preamble h) (by simp), by simp⟩
  · exact ⟨good_fputs _ (good_preamble h) (by simp), by simp⟩

theorem inv_open (s : State) (h : Good s.r) (hg : s.r.g_doc_open = true) : StateInv s :=
  ⟨h, mathOpen_of_open s.st hg⟩

theorem math_feed_row_good (m : Block) (t : Str) {r : Render} (h : Good r)
    (hg : r.g_doc_open = true) :
    Good (math_feed_row m t r).2 ∧ (math_feed_row m t r).2.g_doc_open = true :=
  math_feed_row_from_good _ m t r h hg

set_option maxHeartbeats 2000000 in
/-- Case analysis on what `dispatch_header` does. -/
theorem dispatch_header_cases (P : State → Prop) (content name args after : Str) (i : Int)
    (s : State)
    (htext : P { s with r := emit_text_with_n_escapes content s.r })
    (hnobody : P (do_nobody name i s))
    (hbraced : P (do_braced name args after i s))
    (htitle : P (do_title name args after i s))
    (hraw : P { s with st := { Block.zero with kind := BlockKind.BLK_RAW, indent_cols := i,
                                               raw_base_cols := -1 } :: s.st })
    (hmath : P { s with
      r := fputs "\\[\n\\begin{aligned}\n".toList (emit_default_preamble_once s.r),
      st := { Block.zero with kind := BlockKind.BLK_MATH, indent_cols := i,
                              math_base_cols := -1, math_pending := none,
                              math_raw_sticky := false } :: s.st })
    (hpy : P { s with st := { Block.zero with kind := BlockKind.BLK_PYTHON, indent_cols := i,
                                              py_base_cols := -1,
                                              py_mode := parse_python_results_mode args,
                                              py_code := [] } :: s.st })
    (henv : ∀ r1 : Render,
      (r1 = { g_doc_open := (emit_default_preamble_once s.r).g_doc_open,
              out := (emit_default_preamble_once s.r).out ++ [Ev.begin_env name args] } ∨
       r1 = emit_text_with_n_escapes after
            { g_doc_open := (emit_default_preamble_once s.r).g_doc_open,
              out := (emit_default_preamble_once s.r).out ++ [Ev.begin_env name args] }) →
      P { s with st := { Block.zero with kind := BlockKind.BLK_ENV, indent_cols := i,
                                         env_name := name,
                                         is_list := is_list_env_name name } :: s.st,
                 r := r1 }) :
    P (dispatch_header content name args after i s) := by
  unfold dispatch_header
  split_ifs
  · exact htext
  · exact hnobody
  · exact hbraced
  · exact htitle
  · exact hraw
  · exact hmath
  · exact hpy
  · exact henv _ (Or.inr rfl)
  · exact henv _ (Or.inl rfl)
  · exact htext

theorem dispatch_header_good (content name args after : Str) (i : Int) (s : State)
    (hs : StateInv s) : StateInv (dispatch_header content name args after i s) := by
  have h := hs.1
  have hm := hs.2
  have ho := emit_default_preamble_once_open s.r
  apply dispatch_header_cases
  · exact ⟨good_emit_text _ h, mathOpen_of_open _ (emit_text_open _ _)⟩
  · exact ⟨(do_nobody_good name i s h).1, mathOpen_of_open _ (do_nobody_good name i s h).2⟩
  · exact ⟨(do_braced_good name args after i s h).1,
      mathOpen_of_open _ (do_braced_good name args after i s h).2⟩
  · exact ⟨(do_title_good name args after i s h).1,
      mathOpen_of_open _ (do_title_good name args after i s h).2⟩
  · exact ⟨h, mathOpen_cons_of_ne (fun hk => BlockKind.noConfusion hk) hm⟩
  · exact ⟨good_fputs _ (good_preamble h) ho, mathOpen_of_open _ ho⟩
  · exact ⟨h, mathOpen_cons_of_ne (fun hk => BlockKind.noConfusion hk) hm⟩
  · intro r1 hr1
    rcases hr1 with rfl | rfl
    · exact ⟨good_append_ev _ (good_preamble h) ho, mathOpen_of_open _ ho⟩
    · exact ⟨good_emit_text _ (good_append_ev _ (good_preamble h) ho),
        mathOpen_of_open _ (emit_text_open _ _)⟩

theorem dispatch_line_good (content : Str) (i : Int) (s : State)
    (hs : StateInv s) : StateInv (dispatch_line content i s) := by
  have h := hs.1
  unfold dispatch_line
  split
  · exact dispatch_header_good _ _ _ _ _ _ hs
  · unfold dispatch_literal
    split_ifs
    · exact ⟨good_fputs _ (good_preamble h) (emit_default_preamble_once_open _),
        mathOpen_of_open _ (emit_default_preamble_once_open s.r)⟩
    · exact ⟨good_fputs _ (good_preamble h) (emit_default_preamble_once_open _),
        mathOpen_of_open _ (emit_default_preamble_once_open s.r)⟩
    · exact ⟨good_fputs _ (good_preamble h) (emit_default_preamble_once_open _),
        mathOpen_of_open _ (emit_default_preamble_once_open s.r)⟩
    · exact ⟨good_emit_text _ h, mathOpen_of_open _ (emit_text_open _ _)⟩

theorem dispatch_top_good (line content : Str) (i : Int) (s : State)
    (hs : StateInv s) : StateInv (dispatch_top line content i s) := by
  have h := hs.1
  have hm := hs.2
  unfold dispatch_top
  split
  · exact dispatch_line_good _ _ _ hs
  · rename_i top rest hst
    rw [hst] at hm
    split
    · exact ⟨good_fputs _ (good_preamble h) (emit_default_preamble_once_open _),
        mathOpen_of_open _ (emit_default_preamble_once_open s.r)⟩
    · rename_i hk
      have hg : s.r.g_doc_open = true := hm ⟨top, List.mem_cons_self top rest, hk⟩
      simp only []
      split_ifs
      all_goals first
        | exact ⟨h, mathOpen_of_open _ hg⟩
        | exact ⟨(math_feed_row_good _ _ h hg).1,
            mathOpen_of_open _ (math_feed_row_good _ _ h hg).2⟩
    · exact ⟨h, @mathOpen_replace_top top _ rest s.r rfl hm⟩
    · exact dispatch_line_good _ _ _ hs

theorem process_line_good (py : Str → Str) (line : Str) (s : State)
    (hs : StateInv s) : StateInv (process_line py line s) := by
  have h := hs.1
  have hm := hs.2
  unfold process_line
  simp only []
  split_ifs
  · split
    · exact ⟨good_fputs_newline h, mathOpen_mono hm (fun hg => hg)⟩
    · rename_i t0 rest hst
      split_ifs with hk
      · have hg : s.r.g_doc_open = true :=
          hm ⟨t0, by rw [hst]; exact List.mem_cons_self t0 rest, hk⟩
        exact ⟨good_math_blank_line t0 h hg,
          mathOpen_of_open _ ((math_blank_line_g t0 s.r).trans hg)⟩
      · exact ⟨good_fputs_newline h, mathOpen_mono hm (fun hg => hg)⟩
  · have hc := close_blocks_for_indent_good py (calc_indent_cols (rstrip_inplace line)).1
      s.st s.r h hm
    exact dispatch_top_good _ _ _ _ ⟨hc.1, hc.2.1⟩

theorem main_iter_good {py : Str → Str} {s s1 : State} (hm : main_iter py s = some s1)
    (h : StateInv s) : StateInv s1 := by
  unfold main_iter at hm
  split at hm
  · simp only [Option.some.injEq] at hm
    subst hm
    exact process_line_good py _ _ h
  · split at hm
    · simp at hm
    · simp only [Option.some.injEq] at hm
      subst hm
      exact process_line_good py _ _ h

theorem main_loop_good (py : Str → Str) : ∀ (n : Nat) (s : State),
    StateInv s → StateInv (main_loop py n s)
  | 0, s, h => by simpa [main_loop] using h
  | n + 1, s, h => by
    simp only [main_loop]
    cases hm : main_iter py s with
    | none => simpa using h
    | some s1 => exact main_loop_good py n s1 (main_iter_good hm h)

theorem stateInv_init (lines : List Str) : StateInv (State.init lines) := by
  refine ⟨⟨fun _ => ?_, fun h => ?_⟩, fun ⟨b, hb, _⟩ => ?_⟩
  · intro c hc; simp [State.init, Render.bytes] at hc
  · simp [State.init] at h
  · simp [State.init] at hb

theorem emit_end_document_preambleFirst {r : Render} (h : Good r) :
    PreambleFirst (emit_end_document_if_needed r).bytes := by
  unfold emit_end_document_if_needed
  split_ifs with hg
  · obtain ⟨pre, rest, hp, hb⟩ := h.2 hg
    refine Or.inr ⟨pre, rest ++ "\\end{document}\n".toList, hp, ?_⟩
    rw [bytes_append_ev]
    change r.bytes ++ _ = _
    rw [hb]
    simp [Ev.bytes]
  · simp only [Bool.not_eq_true] at hg
    exact Or.inl (h.1 hg)

/-- The output of every run starts with newlines only and then, if there is
more, the preamble. -/
theorem main_preambleFirst (py : Str → Str) (lines : List Str) :
    PreambleFirst (main py lines).bytes := by
  have h1 := main_loop_good py lines.length _ (stateInv_init lines)
  exact emit_end_document_preambleFirst (close_all_good py _ _ h1.1 h1.2)

/-! ## Raw passthrough -/

theorem rstrip_inplace_decomp (s : Str) : ∃ e, IsTrail e ∧ s = rstrip_inplace s ++ e := by
  refine ⟨(s.reverse.takeWhile is_rstrip_char).reverse, ?_, ?_⟩
  · intro c hc
    exact List.mem_takeWhile_imp (List.mem_reverse.mp hc)
  · unfold rstrip_inplace
    rw [← List.reverse_append, List.takeWhile_append_dropWhile, List.reverse_reverse]

theorem isTrail_replicate (k : Nat) : IsTrail (List.replicate k ' ') := by
  intro c hc
  rw [List.eq_of_mem_replicate hc]
  decide

theorem isIndent_replicate (k : Nat) : IsIndent (List.replicate k ' ') := by
  intro c hc
  rw [List.eq_of_mem_replicate hc]
  decide

theorem rstrip_inplace_indent_line (k : Nat) (l : Str) :
    rstrip_inplace (indent_line k l) =
      if rstrip_inplace l = [] then [] else List.replicate k ' ' ++ rstrip_inplace l := by
  obtain ⟨e, he, hl⟩ := rstrip_inplace_decomp l
  unfold indent_line
  split_ifs with h
  · rw [h, List.nil_append] at hl
    rw [hl, rstrip_inplace_append_trail _ _ he]
    have := rstrip_inplace_append_trail [] (List.replicate k ' ') (isTrail_replicate k)
    simpa [rstrip_inplace] using this
  · conv_lhs => rw [hl]
    rw [← List.append_assoc, rstrip_inplace_append_trail _ _ he,
      rstrip_inplace_append_content _ _ (rstrip_inplace_idem l) h]

theorem drop_consumed_eq_lskip : ∀ s : Str, s.drop (calc_indent_cols s).2 = lskip_spaces s
  | [] => rfl
  | c :: cs => by
    by_cases h : is_sp c = true
    · rw [calc_indent_cols, if_pos h, lskip_spaces_cons_of_sp _ h]
      exact drop_consumed_eq_lskip cs
    · rw [calc_indent_cols, if_neg h]
      simp only [Bool.not_eq_true] at h
      rw [lskip_spaces_cons_of_not_sp _ h]
      rfl

theorem line_content_eq (l : Str) : line_content l = lskip_spaces (rstrip_inplace l) :=
  drop_consumed_eq_lskip _

theorem line_content_indent_line (k : Nat) (l : Str) :
    line_content (indent_line k l) = line_content l := by
  rw [line_content_eq, line_content_eq, rstrip_inplace_indent_line]
  split_ifs with h
  · rw [h]
  · unfold lskip_spaces
    rw [dropWhile_append_all _ _ (isIndent_replicate k)]

theorem line_blank_indent_line (k : Nat) (l : Str) :
    line_blank (indent_line k l) = line_blank l := by
  unfold line_blank
  rw [line_content_indent_line]

theorem rstrip_ne_nil_of_nonblank {l : Str} (h : line_blank l = false) :
    rstrip_inplace l ≠ [] := by
  intro hn
  rw [line_blank, line_content_eq, hn] at h
  simp [lskip_spaces, is_blank_line] at h

theorem calc_indent_cols_replicate : ∀ (k : Nat) (x : Str),
    (calc_indent_cols (List.replicate k ' ' ++ x)).1 = (k : Int) + (calc_indent_cols x).1
  | 0, x => by simp
  | k + 1, x => by
    have ih := calc_indent_cols_replicate k x
    have h1 : is_sp ' ' = true := by decide
    have h2 : (' ' == '\t') = false := by decide
    rw [List.replicate_succ, List.cons_append, calc_indent_cols, if_pos h1]
    simp only [h2, ih]
    push_cast
    omega

theorem line_indent_indent_line (k : Nat) {l : Str} (h : line_blank l = false) :
    line_indent (indent_line k l) = (k : Int) + line_indent l := by
  unfold line_indent
  rw [rstrip_inplace_indent_line, if_neg (rstrip_ne_nil_of_nonblank h),
    calc_indent_cols_replicate]

theorem strip_cols_from_replicate : ∀ (k : Nat) (x : Str) (c : Int),
    strip_cols_from (List.replicate (k + 1) ' ' ++ x) c (c + (k : Int) + 1) = x
  | 0, x, c => by
    have h1 : is_sp ' ' = true := by decide
    have h2 : (' ' == '\t') = false := by decide
    rw [List.replicate_succ, List.cons_append, strip_cols_from, if_pos h1]
    simp [h2]
  | k + 1, x, c => by
    have h1 : is_sp ' ' = true := by decide
    have h2 : (' ' == '\t') = false := by decide
    have ih := strip_cols_from_replicate k x (c + 1)
    rw [List.replicate_succ, List.cons_append, strip_cols_from, if_pos h1]
    simp only [h2]
    rw [if_neg (by push_cast; simp; omega), if_neg (by push_cast; simp; omega)]
    have e : c + ((k + 1 : Nat) : Int) + 1 = c + 1 + (k : Int) + 1 := by push_cast; omega
    rw [e]
    exact ih

theorem strip_cols_indent (k : Nat) (hk : 0 < k) (x : Str) :
    strip_cols (List.replicate k ' ' ++ x) (k : Int) = x := by
  obtain ⟨j, rfl⟩ : ∃ j, k = j + 1 := ⟨k - 1, by omega⟩
  have := strip_cols_from_replicate j x 0
  unfold strip_cols
  have e : ((j + 1 : Nat) : Int) = 0 + (j : Int) + 1 := by push_cast; omega
  rw [e]
  exact this

theorem line_indent_nonneg (l : Str) : 0 ≤ line_indent l := calc_indent_cols_nonneg _

theorem raw_line_blank (py : Str → Str) (k : Nat) {l : Str} (hb : line_blank l = true)
    (b : Int) (r : Render) (pl : Option Str) (fp : List Str) :
    process_line py (indent_line k l)
        { st := [raw_block b], r := r, pending_line := pl, fp := fp } =
      { st := [raw_block b], r := fputs "\n".toList r, pending_line := pl, fp := fp } := by
  have hb1 : line_blank (indent_line k l) = true := by rw [line_blank_indent_line]; exact hb
  unfold process_line
  simp only []
  rw [if_pos (show is_blank_line (List.drop (calc_indent_cols (rstrip_inplace
    (indent_line k l))).2 (rstrip_inplace (indent_line k l))) = true from hb1)]
  rfl

theorem raw_line_content (py : Str → Str) (k : Nat) (hk : 0 < k) {l : Str}
    (hb : line_blank l = false) (b : Int) (hbase : b = (k : Int) ∨ (b < 0 ∧ line_indent l = 0))
    (r : Render) (pl : Option Str) (fp : List Str) :
    process_line py (indent_line k l)
        { st := [raw_block b], r := r, pending_line := pl, fp := fp } =
      { st := [raw_block (k : Int)],
        r := fputs (rstrip_inplace l ++ "\n".toList) (emit_default_preamble_once r),
        pending_line := pl, fp := fp } := by
  have hb1 : line_blank (indent_line k l) = false := by rw [line_blank_indent_line]; exact hb
  have hi := line_indent_indent_line k hb
  have hnn := line_indent_nonneg l
  have hr : rstrip_inplace (indent_line k l) = List.replicate k ' ' ++ rstrip_inplace l := by
    rw [rstrip_inplace_indent_line, if_neg (rstrip_ne_nil_of_nonblank hb)]
  have hkeep : (raw_block b).indent_cols < line_indent (indent_line k l) := by
    rw [hi]
    have : (raw_block b).indent_cols = 0 := rfl
    omega
  have hbase2 : (if b < 0 then line_indent (indent_line k l) else b) = (k : Int) := by
    rcases hbase with h | ⟨h1, h2⟩
    · rw [if_neg (by omega), h]
    · rw [if_pos h1, hi, h2]; simp
  rw [process_line_nonblank py _ _ hb1]
  simp only [close_blocks_for_indent_keep py [] r hkeep]
  unfold dispatch_top
  have hkind : (raw_block b).kind = BlockKind.BLK_RAW := rfl
  simp only [hkind]
  have hrb : (raw_block b).raw_base_cols = b := rfl
  simp only [hrb, hbase2, hr, strip_cols_indent k hk]
  rfl

/-- Raw lines once the base column is fixed. -/
theorem raw_run_fixed (py : Str → Str) (k : Nat) (hk : 0 < k) : ∀ (ls : List Str) (r : Render)
    (n : Nat), r.g_doc_open = true → ls.length ≤ n →
    ∃ r1, main_loop py n { st := [raw_block (k : Int)], r := r, pending_line := none,
                           fp := ls.map (indent_line k) } =
        { st := [raw_block (k : Int)], r := r1, pending_line := none, fp := [] } ∧
      r1.bytes = r.bytes ++ (ls.map raw_norm).flatten ∧ r1.g_doc_open = true
  | [], r, n, hg, _ => ⟨r, main_loop_eof py n _ r, by simp, hg⟩
  | l :: ls, r, 0, _, hn => by simp at hn
  | l :: ls, r, n + 1, hg, hn => by
    rw [List.map_cons, main_loop_read]
    by_cases hb : line_blank l = true
    · rw [raw_line_blank py k hb]
      obtain ⟨r1, h1, h2, h3⟩ := raw_run_fixed py k hk ls (fputs "\n".toList r) n hg
        (by simpa using hn)
      refine ⟨r1, h1, ?_, h3⟩
      rw [h2, bytes_fputs]
      simp [raw_norm, hb]
    · simp only [Bool.not_eq_true] at hb
      rw [raw_line_content py k hk hb _ (Or.inl rfl)]
      obtain ⟨r1, h1, h2, h3⟩ := raw_run_fixed py k hk ls
        (fputs (rstrip_inplace l ++ "\n".toList) (emit_default_preamble_once r)) n
        (by simp) (by simpa using hn)
      refine ⟨r1, h1, ?_, h3⟩
      have he : emit_default_preamble_once r = r := by
        unfold emit_default_preamble_once
        rw [if_pos hg]
      rw [h2, bytes_fputs, he]
      simp [raw_norm, hb]

/-- Raw lines from the header on, before the preamble is written. -/
theorem raw_run_start (py : Str → Str) (k : Nat) (hk : 0 < k) : ∀ (ls : List Str)
    (r : Render) (n : Nat), r.g_doc_open = false → ls.length ≤ n → FirstNonblankFlush ls →
    ∃ r1 b, main_loop py n { st := [raw_block (-1)], r := r, pending_line := none,
                             fp := ls.map (indent_line k) } =
        { st := [raw_block b], r := r1, pending_line := none, fp := [] } ∧
      r1.bytes = r.bytes ++ ((ls.takeWhile line_blank).map raw_norm).flatten ++
        (if ls.dropWhile line_blank = [] then []
          else preamble ++ ((ls.dropWhile line_blank).map raw_norm).flatten) ∧
      r1.g_doc_open = !(ls.dropWhile line_blank).isEmpty
  | [], r, n, hg, _, _ => ⟨r, -1, main_loop_eof py n _ r, by simp, by simpa using hg⟩
  | l :: ls, r, 0, _, hn, _ => by simp at hn
  | l :: ls, r, n + 1, hg, hn, hf => by
    rw [List.map_cons, main_loop_read]
    by_cases hb : line_blank l = true
    · rw [raw_line_blank py k hb]
      have hf1 : FirstNonblankFlush ls := by
        intro x hx
        apply hf x
        simpa [List.dropWhile, hb] using hx
      obtain ⟨r1, b, h1, h2, h3⟩ := raw_run_start py k hk ls (fputs "\n".toList r) n hg
        (by simpa using hn) hf1
      refine ⟨r1, b, h1, ?_, ?_⟩
      · rw [h2, bytes_fputs]
        simp [List.takeWhile, List.dropWhile, hb, raw_norm]
      · simpa [List.dropWhile, hb] using h3
    · simp only [Bool.not_eq_true] at hb
      have hl0 : line_indent l = 0 := hf l (by simp [List.dropWhile, hb])
      rw [raw_line_content py k hk hb _ (Or.inr ⟨by decide, hl0⟩)]
      obtain ⟨r1, h1, h2, h3⟩ := raw_run_fixed py k hk ls
        (fputs (rstrip_inplace l ++ "\n".toList) (emit_default_preamble_once r)) n
        (by simp) (by simpa using hn)
      refine ⟨r1, (k : Int), h1, ?_, ?_⟩
      · have he : (emit_default_preamble_once r).bytes = r.bytes ++ preamble := by
          unfold emit_default_preamble_once
          rw [if_neg (by simp [hg]), bytes_append_ev]
          rfl
        rw [h2, bytes_fputs, he]
        simp [List.takeWhile, List.dropWhile, hb, raw_norm]
      · simpa [List.dropWhile, hb] using h3

/-- The records of a byte stream are what `read_line` returns, call after
call, until it returns NULL. -/
theorem read_lines_eq_read_line : ∀ s : Str,
    read_lines s = match read_line s with
      | none => []
      | some (l, rest) => l :: read_lines rest
  | [] => rfl
  | c :: cs => by
    have ih := read_lines_eq_read_line cs
    by_cases hc : (c == '\n') = true
    · simp only [read_lines, read_line, hc, if_true]
    · simp only [Bool.not_eq_true] at hc
      simp only [read_lines, read_line, hc]
      cases hr : read_line cs with
      | none =>
        rw [hr] at ih
        simp [ih, read_lines]
      | some p =>
        obtain ⟨l, rest⟩ := p
        rw [hr] at ih
        simp [ih]

theorem read_lines_line : ∀ (l y : Str), '\n' ∉ l →
    read_lines (l ++ '\n' :: y) = (l ++ ['\n']) :: read_lines y
  | [], y, _ => by simp [read_lines]
  | c :: l, y, h => by
    have hc : (c == '\n') = false := by
      have : c ≠ '\n' := fun e => h (by simp [e])
      simp [this]
    have ih := read_lines_line l y (fun hm => h (List.mem_cons_of_mem c hm))
    rw [List.cons_append, read_lines]
    simp only [hc, ih]
    simp

theorem read_lines_newlines : ∀ (pre x : Str), OnlyNewlines pre →
    (read_lines (pre ++ x)).dropWhile line_blank = (read_lines x).dropWhile line_blank ∧
    (read_lines (pre ++ x)).takeWhile line_blank
      = pre.map (fun _ => ['\n']) ++ (read_lines x).takeWhile line_blank
  | [], x, _ => by simp
  | c :: pre, x, h => by
    have hc : c = '\n' := h c (List.mem_cons_self c pre)
    have ih := read_lines_newlines pre x (fun d hd => h d (List.mem_cons_of_mem c hd))
    have hb : line_blank ['\n'] = true := by decide
    subst hc
    rw [List.cons_append, read_lines]
    simp [List.dropWhile, List.takeWhile, hb, ih.1, ih.2]

set_option maxRecDepth 100000 in
theorem preamble_first_line :
    preamble = "\\documentclass{article}".toList ++ '\n' :: preamble.drop 24 := by decide

theorem firstNonblankFlush_of_preambleFirst {O : Str} (h : PreambleFirst O) :
    FirstNonblankFlush (read_lines O) := by
  rcases h with h | ⟨pre, rest, hp, rfl⟩
  · have := (read_lines_newlines O [] h).1
    rw [List.append_nil] at this
    intro l hl
    rw [this] at hl
    simp [read_lines] at hl
  · intro l hl
    rw [List.append_assoc, (read_lines_newlines pre _ hp).1, preamble_first_line,
      List.append_assoc, List.cons_append, read_lines_line _ _ (by decide)] at hl
    have hb : line_blank ("\\documentclass{article}".toList ++ ['\n']) = false := by decide
    simp only [List.dropWhile, hb, List.head?_cons, Option.some.injEq] at hl
    subst hl
    decide

theorem process_line_latex_open (py : Str → Str) (r : Render) (pl : Option Str)
    (fp : List Str) :
    process_line py "latex:\n".toList { st := [], r := r, pending_line := pl, fp := fp } =
      { st := [raw_block (-1)], r := r, pending_line := pl, fp := fp } := rfl

/-- The whole run on a document that wraps `O` as raw content, for any text
`O` whose first non-blank line is not indented. -/
theorem main_wrap_raw (py : Str → Str) (k : Nat) (hk : 0 < k) (O : Str)
    (hO : FirstNonblankFlush (read_lines O)) :
    (main py (wrap_raw k O)).bytes
      = (((read_lines O).takeWhile line_blank).map raw_norm).flatten ++
        (if (read_lines O).dropWhile line_blank = [] then []
          else preamble ++ (((read_lines O).dropWhile line_blank).map raw_norm).flatten
            ++ "\\end{document}\n".toList) := by
  simp only [main, wrap_raw, State.init, List.length_cons, List.length_map]
  rw [main_loop_read, process_line_latex_open]
  obtain ⟨r1, b, h1, h2, h3⟩ := raw_run_start py k hk (read_lines O)
    { g_doc_open := false, out := [] } (read_lines O).length rfl le_rfl hO
  rw [h1]
  simp only [finish, close_all]
  have hc : close_one_block py (raw_block b) r1 = r1 := rfl
  rw [hc]
  unfold emit_end_document_if_needed
  have hb0 : Render.bytes { g_doc_open := false, out := [] } = [] := rfl
  rw [hb0, List.nil_append] at h2
  by_cases he : (read_lines O).dropWhile line_blank = []
  · rw [he] at h2 h3
    rw [he, if_neg (by simp [h3]), h2]
    simp
  · have hg : r1.g_doc_open = true := by
      rw [h3]
      cases hd : (read_lines O).dropWhile line_blank with
      | nil => exact absurd hd he
      | cons x xs => rfl
    rw [if_pos hg, bytes_append_ev, if_neg he]
    change r1.bytes ++ _ = _
    rw [h2, if_neg he]
    simp [Ev.bytes]

theorem raw_norm_of_trimmed (x : Str) (hx : rstrip_inplace x = x)
    (hb : x = [] ∨ line_blank x = false) : raw_norm (x ++ ['\n']) = x ++ ['\n'] := by
  have ht : IsTrail ['\n'] := by unfold IsTrail; decide
  have hr : rstrip_inplace (x ++ ['\n']) = x := by
    rw [rstrip_inplace_append_trail _ _ ht, hx]
  have hlb : line_blank (x ++ ['\n']) = line_blank x := by
    unfold line_blank
    rw [line_content_eq, line_content_eq, hr, hx]
  unfold raw_norm
  rw [hlb, hr]
  rcases hb with rfl | hb
  · rfl
  · rw [hb]
    rfl

set_option maxRecDepth 1000000 in
theorem math_trailing_space_run :
    (main id ["math:\n".toList, " a \\n\n".toList]).bytes
      = preamble ++ "\\[\n\\begin{aligned}\na \n\\end{aligned}\n\\]\n\\end{document}\n".toList := by
  decide

set_option maxRecDepth 1000000 in
theorem math_trailing_space_raw_take :
    (main id (wrap_raw 1 (preamble ++ "\\[\n\\begin{aligned}\na \n\\end{aligned}\n\\]\n\\end{document}\n".toList))).bytes.take 760
      = (preamble ++ (preamble ++
        "\\[\n\\begin{aligned}\na\n\\end{aligned}\n\\]\n\\end{document}\n".toList)
      ++ "\\end{document}\n".toList).take 760 := by
  decide

set_option maxRecDepth 1000000 in
theorem math_trailing_space_raw_drop :
    (main id (wrap_raw 1 (preamble ++ "\\[\n\\begin{aligned}\na \n\\end{aligned}\n\\]\n\\end{document}\n".toList))).bytes.drop 760
      = (preamble ++ (preamble ++
        "\\[\n\\begin{aligned}\na\n\\end{aligned}\n\\]\n\\end{document}\n".toList)
      ++ "\\end{document}\n".toList).drop 760 := by
  decide

theorem math_trailing_space_raw :
    (main id (wrap_raw 1 (preamble ++ "\\[\n\\begin{aligned}\na \n\\end{aligned}\n\\]\n\\end{document}\n".toList))).bytes
      = (preamble ++ (preamble ++
        "\\[\n\\begin{aligned}\na\n\\end{aligned}\n\\]\n\\end{document}\n".toList)
      ++ "\\end{document}\n".toList) := by
  rw [← List.take_append_drop 760 (main id (wrap_raw 1 (preamble ++ "\\[\n\\begin{aligned}\na \n\\end{aligned}\n\\]\n\\end{document}\n".toList))).bytes,
    math_trailing_space_raw_take, math_trailing_space_raw_drop, List.take_append_drop]

set_option maxRecDepth 1000000 in
/-- C8, the claim as stated fails: the output of the run on `math:` with the
row `a \n` has the line `a ` with a trailing space; fed back as raw content,
indented by one space, that line comes out as `a`: the second output is not
the preamble, the first output byte for byte, and the end of the document. -/
theorem C8_counterexample :
    (main id ["math:\n".toList, " a \\n\n".toList]).bytes
      = preamble ++ "\\[\n\\begin{aligned}\na \n\\end{aligned}\n\\]\n\\end{document}\n".toList ∧
    (main id (wrap_raw 1 (main id ["math:\n".toList, " a \\n\n".toList]).bytes)).bytes
      = preamble ++ (preamble ++
          "\\[\n\\begin{aligned}\na\n\\end{aligned}\n\\]\n\\end{document}\n".toList)
        ++ "\\end{document}\n".toList ∧
    (main id (wrap_raw 1 (main id ["math:\n".toList, " a \\n\n".toList]).bytes)).bytes
      ≠ preamble ++ (main id ["math:\n".toList, " a \\n\n".toList]).bytes
        ++ "\\end{document}\n".toList := by
  refine ⟨math_trailing_space_run, ?_, ?_⟩
  · rw [math_trailing_space_run]
    exact math_trailing_space_raw
  · rw [math_trailing_space_run, math_trailing_space_raw]
    intro h
    have := congrArg List.length h
    revert this
    decide

/-- C8, amended: for the output `O` of any run (with any Code Execution
Service), the run on the `latex:` header followed by the lines of `O`, each
indented by the same `k > 0` spaces, writes the lines of `O` in order, each
with its trailing whitespace removed (a blank line becomes an empty line),
with nothing else added, dropped or altered, except that the run's own
preamble comes before the first non-blank line and its own `\end{document}`
at the end. A line with no trailing whitespace comes out byte for byte. -/
theorem C8_raw_round_trip (py py2 : Str → Str) (lines : List Str) (k : Nat) (hk : 0 < k) :
    (main py2 (wrap_raw k (main py lines).bytes)).bytes
      = (((read_lines (main py lines).bytes).takeWhile line_blank).map raw_norm).flatten ++
        (if (read_lines (main py lines).bytes).dropWhile line_blank = [] then []
          else preamble
            ++ (((read_lines (main py lines).bytes).dropWhile line_blank).map raw_norm).flatten
            ++ "\\end{document}\n".toList) ∧
    (∀ x : Str, rstrip_inplace x = x → x = [] ∨ line_blank x = false →
      raw_norm (x ++ ['\n']) = x ++ ['\n']) :=
  ⟨main_wrap_raw py2 k hk _ (firstNonblankFlush_of_preambleFirst (main_preambleFirst py lines)),
    raw_norm_of_trimmed⟩

/-- C8, amended, at the output of the run on the text line `hello`, indented
by two spaces. -/
theorem C8_raw_round_trip_witness :
    (main id (wrap_raw 2 (main id ["hello\n".toList]).bytes)).bytes
      = (((read_lines (main id ["hello\n".toList]).bytes).takeWhile line_blank).map
          raw_norm).flatten ++
        (if (read_lines (main id ["hello\n".toList]).bytes).dropWhile line_blank = [] then []
          else preamble
            ++ (((read_lines (main id ["hello\n".toList]).bytes).dropWhile line_blank).map
                raw_norm).flatten
            ++ "\\end{document}\n".toList) :=
  (C8_raw_round_trip id id ["hello\n".toList] 2 (by decide)).1

/-! ## The results of the header parser -/

theorem isTrail_of_rstrip_nil {s : Str} (h : rstrip_inplace s = []) : IsTrail s := by
  obtain ⟨e, he, hs⟩ := rstrip_inplace_decomp s
  rw [h] at hs
  simp only [List.nil_append] at hs
  rw [hs]
  exact he

theorem rstrip_inplace_append_of_ne_nil (a s : Str) (h : rstrip_inplace s ≠ []) :
    rstrip_inplace (a ++ s) = a ++ rstrip_inplace s := by
  obtain ⟨e, he, hs⟩ := rstrip_inplace_decomp s
  conv_lhs => rw [hs, ← List.append_assoc, rstrip_inplace_append_trail _ _ he]
  exact rstrip_inplace_append_content a _ (rstrip_inplace_idem s) h

theorem rstrip_inplace_of_suffix {s a t : Str} (h : rstrip_inplace s = s) (e : s = a ++ t) :
    rstrip_inplace t = t := by
  rw [rstrip_inplace_eq_self_iff] at h ⊢
  intro c hc
  apply h c
  have hne : t ≠ [] := by
    rintro rfl
    simp at hc
  rw [e, List.getLast?_append_of_ne_nil _ hne]
  exact hc

theorem isGroup_rstrip {g : Str} (hg : IsGroup g) : rstrip_inplace g = g := by
  rw [rstrip_inplace_eq_self_iff]
  intro c hc
  rcases hg with ⟨w, _, rfl⟩ | ⟨w, _, rfl⟩
  · rw [List.getLast?_append_of_ne_nil _ (by simp)] at hc
    simp at hc
    subst hc
    decide
  · rw [List.getLast?_append_of_ne_nil _ (by simp)] at hc
    simp at hc
    subst hc
    decide

theorem isGroup_ne_nil {g : Str} (hg : IsGroup g) : g ≠ [] := by
  rcases hg with ⟨w, _, rfl⟩ | ⟨w, _, rfl⟩ <;> simp

theorem groupSeq_lskip {s : Str} (h : GroupSeq s) : GroupSeq (lskip_spaces s) := by
  induction h with
  | nil => exact GroupSeq.nil
  | space c s hc _ ih =>
    rw [lskip_spaces_cons_of_sp s ((is_sp_iff c).mpr hc)]
    exact ih
  | group g s hg hs _ =>
    have : lskip_spaces (g ++ s) = g ++ s := by
      rw [lskip_spaces_eq_self_iff]
      intro y hy
      rcases hg with ⟨w, _, rfl⟩ | ⟨w, _, rfl⟩ <;> simp at hy <;> subst hy <;> decide
    rw [this]
    exact GroupSeq.group g s hg hs

/-- Trimming a sequence of groups on the right removes spaces and tabs only,
and leaves a sequence of groups. -/
theorem groupSeq_rstrip {s : Str} (h : GroupSeq s) :
    GroupSeq (rstrip_inplace s) ∧ ∃ r, IsIndent r ∧ s = rstrip_inplace s ++ r := by
  induction h with
  | nil => exact ⟨GroupSeq.nil, [], by intro c hc; simp at hc, rfl⟩
  | space c s hc _ ih =>
    obtain ⟨ih1, r, hr, e⟩ := ih
    by_cases hn : rstrip_inplace s = []
    · have hsr : s = r := by rw [hn] at e; simpa using e
      have hi : IsIndent (c :: s) := by
        intro x hx
        rcases List.mem_cons.mp hx with rfl | hx
        · exact (is_sp_iff x).mpr hc
        · exact hr x (hsr ▸ hx)
      have ht : IsTrail (c :: s) := by
        intro x hx
        have := (is_sp_iff x).mp (hi x hx)
        rcases this with rfl | rfl <;> decide
      have h0 : rstrip_inplace (c :: s) = [] := by
        have := rstrip_inplace_append_trail [] (c :: s) ht
        simpa [rstrip_inplace] using this
      rw [h0]
      exact ⟨GroupSeq.nil, c :: s, hi, rfl⟩
    · have h1 := rstrip_inplace_append_of_ne_nil [c] s hn
      simp only [List.singleton_append] at h1
      rw [h1]
      exact ⟨GroupSeq.space c _ hc ih1, r, hr, by rw [List.cons_append, ← e]⟩
  | group g s hg _ ih =>
    obtain ⟨ih1, r, hr, e⟩ := ih
    by_cases hn : rstrip_inplace s = []
    · have hsr : s = r := by rw [hn] at e; simpa using e
      rw [rstrip_inplace_append_trail g s (isTrail_of_rstrip_nil hn), isGroup_rstrip hg]
      refine ⟨?_, s, hsr ▸ hr, rfl⟩
      have := GroupSeq.group g [] hg GroupSeq.nil
      simpa using this
    · rw [rstrip_inplace_append_of_ne_nil g s hn]
      exact ⟨GroupSeq.group g _ hg ih1, r, hr, by rw [List.append_assoc, ← e]⟩

theorem groupSeq_getLast {s : Str} (h : GroupSeq s) :
    ∀ y, s.getLast? = some y → y = ' ' ∨ y = '\t' ∨ y = ']' ∨ y = '}' := by
  induction h with
  | nil => intro y hy; simp at hy
  | space c s hc _ ih =>
    intro y hy
    cases s with
    | nil =>
      simp at hy
      subst hy
      rcases hc with rfl | rfl <;> simp
    | cons a as =>
      rw [List.getLast?_cons_cons] at hy
      exact ih y hy
  | group g s hg _ ih =>
    intro y hy
    by_cases hs : s = []
    · subst hs
      rcases hg with ⟨w, _, rfl⟩ | ⟨w, _, rfl⟩
      · rw [List.append_nil, List.getLast?_append_of_ne_nil _ (by simp)] at hy
        simp at hy
        simp [← hy]
      · rw [List.append_nil, List.getLast?_append_of_ne_nil _ (by simp)] at hy
        simp at hy
        simp [← hy]
    · rw [List.getLast?_append_of_ne_nil _ hs] at hy
      exact ih y hy

/-- Trimmed on both sides, a sequence of groups is empty or runs from an
opening bracket to a closing one. -/
theorem groupSeq_trimmed_ends {s : Str} (h : GroupSeq s) (hl : lskip_spaces s = s)
    (hr : rstrip_inplace s = s) :
    s = [] ∨ ∃ x y, s.head? = some x ∧ (x = '[' ∨ x = '{') ∧
      s.getLast? = some y ∧ (y = ']' ∨ y = '}') := by
  cases s with
  | nil => exact Or.inl rfl
  | cons a as =>
    right
    have h1 := groupSeq_head h a rfl
    have h2 := (lskip_spaces_eq_self_iff _).mp hl a rfl
    obtain ⟨y, hy⟩ : ∃ y, (a :: as).getLast? = some y :=
      ⟨(a :: as).getLast (by simp), List.getLast?_eq_getLast _ _⟩
    have h3 := groupSeq_getLast h y hy
    have h4 := (rstrip_inplace_eq_self_iff _).mp hr y hy
    refine ⟨a, y, rfl, ?_, hy, ?_⟩
    · rcases h1 with rfl | rfl | rfl | rfl
      · exact absurd h2 (by decide)
      · exact absurd h2 (by decide)
      · exact Or.inl rfl
      · exact Or.inr rfl
    · rcases h3 with rfl | rfl | rfl | rfl
      · exact absurd h4 (by decide)
      · exact absurd h4 (by decide)
      · exact Or.inl rfl
      · exact Or.inr rfl

theorem lskip_spaces_decomp (s : Str) : ∃ l, IsIndent l ∧ s = l ++ lskip_spaces s :=
  ⟨s.takeWhile is_sp, fun _ hc => List.mem_takeWhile_imp hc,
    (List.takeWhile_append_dropWhile is_sp s).symm⟩

theorem rstrip_inplace_lskip {s : Str} (h : rstrip_inplace s = s) :
    rstrip_inplace (lskip_spaces s) = lskip_spaces s := by
  obtain ⟨l, _, e⟩ := lskip_spaces_decomp s
  exact rstrip_inplace_of_suffix h e

/-- C11: when `parse_header` matches a content string `c`, its results cut `c`
up: `c` is `name`, then a slice `pre`, then a colon, then a slice `t`, where
`name` is an identifier that the next character does not continue, `pre` is a
sequence of groups, `args_before` is `pre` without its leading and trailing
spaces and tabs (brackets kept as they are), and `inline_after` is `t` without
its leading spaces and tabs and its trailing whitespace. So `args_before` is a
sequence of groups (no colon outside a group) that is empty or runs from `[`
or `\x7b` to `]` or `\x7d`. -/
theorem C11_parse_header_results (c name args after : Str) (hc : lskip_spaces c = c)
    (h : parse_header c = some (name, args, after)) :
    IsIdentifier name ∧
    ∃ pre t, c = name ++ pre ++ ':' :: t ∧ GroupSeq pre ∧
      (∀ y, (pre ++ ':' :: t).head? = some y → is_ident_char y = false) ∧
      (∃ l r, IsIndent l ∧ IsIndent r ∧ pre = l ++ args ++ r) ∧
      (∃ l e, IsIndent l ∧ IsTrail e ∧ t = l ++ after ++ e) ∧
      lskip_spaces after = after ∧ rstrip_inplace after = after ∧
      GroupSeq args ∧
      (args = [] ∨ ∃ x y, args.head? = some x ∧ (x = '[' ∨ x = '{') ∧
        args.getLast? = some y ∧ (y = ']' ∨ y = '}')) := by
  have hl := lskip_spaces_rstrip_of_content hc
  cases hs : rstrip_inplace c with
  | nil =>
    have hl : lskip_spaces (rstrip_inplace c) = [] := hl.trans hs
    rw [parse_header_none_of_trim_nil hl] at h
    simp at h
  | cons c0 rest =>
    have hl : lskip_spaces (rstrip_inplace c) = c0 :: rest := hl.trans hs
    by_cases h0 : is_ident_start c0 = true
    · rw [parse_header_of_trim hl h0] at h
      cases hsg : scan_groups ((lskip_spaces (rest.dropWhile is_ident_char)).length + 1)
          (lskip_spaces (rest.dropWhile is_ident_char)) with
      | none => rw [hsg] at h; simp at h
      | some r =>
        rw [hsg] at h
        cases r with
        | nil => simp at h
        | cons x aft =>
          by_cases hx : x = ':'
          · subst hx
            obtain ⟨pre0, hpre0, e⟩ := scan_groups_sound _ _ _ hsg
            simp only [bne_self_eq_false, Bool.false_eq_true, ↓reduceIte, Option.some.injEq,
              Prod.mk.injEq] at h
            obtain ⟨hname, hargs, hafter⟩ := h
            have e1 := lskip_spaces_append_takeWhile (rest.dropWhile is_ident_char)
            have e2 := List.takeWhile_append_dropWhile is_ident_char rest
            rw [e] at e1
            have hpre : GroupSeq ((rest.dropWhile is_ident_char).takeWhile is_sp ++ pre0) :=
              groupSeq_spaces _ (fun y hy => List.mem_takeWhile_imp hy) hpre0
            generalize hP : (rest.dropWhile is_ident_char).takeWhile is_sp ++ pre0 = pre
              at hpre
            have e3 : rest.dropWhile is_ident_char = pre ++ ':' :: aft := by
              rw [← e1, ← hP, List.append_assoc]
            have htake : (rest.dropWhile is_ident_char).take
                ((rest.dropWhile is_ident_char).length - (':' :: aft).length) = pre := by
              rw [e3]
              simp
            rw [htake] at hargs
            have hrc : rstrip_inplace c = name ++ pre ++ ':' :: aft := by
              rw [hs, ← hname, List.cons_append, List.cons_append, List.append_assoc, ← e3, e2]
            obtain ⟨te, hte, hce⟩ := rstrip_inplace_decomp c
            have haft : rstrip_inplace aft = aft :=
              rstrip_inplace_of_suffix (rstrip_inplace_idem c)
                (show rstrip_inplace c = (name ++ pre ++ [':']) ++ aft by rw [hrc]; simp)
            obtain ⟨hg1, r1, hr1, er1⟩ := groupSeq_rstrip hpre
            obtain ⟨l1, hl1, el1⟩ := lskip_spaces_decomp (rstrip_inplace pre)
            obtain ⟨l2, hl2, el2⟩ := lskip_spaces_decomp aft
            have hga : GroupSeq args := hargs ▸ groupSeq_lskip hg1
            have hra : rstrip_inplace args = args :=
              hargs ▸ rstrip_inplace_lskip (rstrip_inplace_idem pre)
            have hla : lskip_spaces args = args := hargs ▸ lskip_spaces_idem _
            refine ⟨?_, pre, aft ++ te, ?_, hpre, ?_, ⟨l1, r1, hl1, hr1, ?_⟩,
              ⟨l2, te, hl2, hte, ?_⟩, ?_, ?_, hga, groupSeq_trimmed_ends hga hla hra⟩
            · rw [← hname]
              refine ⟨c0, _, rfl, ?_, fun x hx => ?_⟩
              · simpa [is_ident_start] using h0
              · have := List.mem_takeWhile_imp hx
                simpa [is_ident_char, isalnum, or_assoc] using this
            · rw [hce, hrc]
              simp
            · exact head_append_not_ident hpre (fun _ y hy => by simp at hy; subst hy; decide)
            · rw [← hargs, ← el1, ← er1]
            · rw [← hafter, ← el2]
            · rw [← hafter]; exact lskip_spaces_idem _
            · rw [← hafter]; exact rstrip_inplace_lskip haft
          · have : (x != ':') = true := by simp [hx]
            simp [this] at h
    · simp only [Bool.not_eq_true] at h0
      rw [parse_header_none_of_not_ident hl h0] at h
      simp at h

set_option maxRecDepth 100000 in
/-- C11 at the header `fig [a:b] \x7bc\x7d : x y`, read with trailing spaces. -/
theorem C11_parse_header_results_witness :
    parse_header "fig [a:b] {c} :  x y  ".toList =
      some ("fig".toList, "[a:b] {c}".toList, "x y".toList) ∧
    ∃ pre t, "fig [a:b] {c} :  x y  ".toList = "fig".toList ++ pre ++ ':' :: t ∧
      GroupSeq pre ∧ GroupSeq "[a:b] {c}".toList :=
  have h := C11_parse_header_results "fig [a:b] {c} :  x y  ".toList "fig".toList
    "[a:b] {c}".toList "x y".toList (by decide) (by decide)
  ⟨by decide, h.2.imp fun _ hp => hp.imp fun _ ht => ⟨ht.1, ht.2.1, ht.2.2.2.2.2.2.2.1⟩⟩

/-! ## Fragments between backslash-n -/

theorem split_bn_ne_nil : ∀ (s : Str), split_bn s ≠ []
  | [] => by simp [split_bn]
  | [c] => by simp [split_bn]
  | c :: d :: rest => by
    rw [split_bn]
    split_ifs
    · simp
    · cases h : split_bn (d :: rest) <;> simp [cons_head]

theorem join_with_cons_head (sep : Str) (c : Char) {l : List Str} (h : l ≠ []) :
    join_with sep (cons_head c l) = c :: join_with sep l := by
  match l, h with
  | [f], _ => rfl
  | f :: g :: fs, _ => rfl

theorem join_with_nil_cons (sep : Str) {l : List Str} (h : l ≠ []) :
    join_with sep ([] :: l) = sep ++ join_with sep l := by
  match l, h with
  | f :: fs, _ => rfl

/-- Any function with the shape of the escape loops writes the fragments
joined by its break string. -/
theorem escape_loop_eq_join (f : Str → Str) (brk : Str) (h0 : f [] = [])
    (h1 : ∀ c, f [c] = [c])
    (h2 : ∀ c d rest, f (c :: d :: rest) =
      if c == '\\' && d == 'n' then brk ++ f rest else c :: f (d :: rest)) :
    ∀ s, f s = join_with brk (split_bn s)
  | [] => by rw [h0]; rfl
  | [c] => by rw [h1]; rfl
  | c :: d :: rest => by
    rw [h2, split_bn]
    split_ifs
    · rw [join_with_nil_cons brk (split_bn_ne_nil rest), escape_loop_eq_join f brk h0 h1 h2 rest]
    · rw [join_with_cons_head brk c (split_bn_ne_nil _),
        escape_loop_eq_join f brk h0 h1 h2 (d :: rest)]

theorem text_n_escapes_eq_join (s : Str) :
    text_n_escapes s = join_with "\\\\\n".toList (split_bn s) :=
  escape_loop_eq_join text_n_escapes _ rfl (fun _ => rfl) (fun c d rest => by
    rw [text_n_escapes]) s

theorem item_n_escapes_eq_join (s : Str) :
    item_n_escapes s = join_with "\\\\\n".toList (split_bn s) :=
  escape_loop_eq_join item_n_escapes _ rfl (fun _ => rfl) (fun c d rest => by
    rw [item_n_escapes]) s

theorem inline_escapes_eq_join (s : Str) :
    fputs_with_n_escapes_inline s = join_with "\\\\".toList (split_bn s) :=
  escape_loop_eq_join fputs_with_n_escapes_inline _ rfl (fun _ => rfl) (fun c d rest => by
    rw [fputs_with_n_escapes_inline]) s

/-- The fragments joined by backslash-n give the string back. -/
theorem split_bn_join (s : Str) : s = join_with "\\n".toList (split_bn s) :=
  escape_loop_eq_join id _ rfl (fun _ => rfl) (fun c d rest => by
    by_cases h : (c == '\\' && d == 'n') = true
    · rw [if_pos h]
      simp only [Bool.and_eq_true, beq_iff_eq] at h
      simp [h.1, h.2]
    · rw [if_neg h]
      rfl) s

theorem hasBackslashN_cons_iff (c : Char) (s : Str) :
    HasBackslashN (c :: s) ↔ (c = '\\' ∧ s.head? = some 'n') ∨ HasBackslashN s := by
  constructor
  · rintro ⟨a, b, e⟩
    cases a with
    | nil =>
      left
      simp at e
      simp [← e.1, ← e.2]
    | cons x a =>
      right
      simp at e
      exact ⟨a, b, by simp [e.2]⟩
  · rintro (⟨rfl, h⟩ | ⟨a, b, e⟩)
    · cases s with
      | nil => simp at h
      | cons y ys =>
        simp at h
        subst h
        exact ⟨[], ys, by simp⟩
    · exact ⟨c :: a, b, by simp [← e]⟩

theorem split_bn_head : ∀ (s : Str) (f : Str) (fs : List Str), split_bn s = f :: fs →
    ∀ x, f.head? = some x → s.head? = some x
  | [], f, fs, h, x, hx => by
    simp [split_bn] at h
    obtain ⟨h1, _⟩ := h
    subst h1
    simp at hx
  | [c], f, fs, h, x, hx => by
    simp [split_bn] at h
    obtain ⟨h1, _⟩ := h
    subst h1
    simpa using hx
  | c :: d :: rest, f, fs, h, x, hx => by
    rw [split_bn] at h
    split_ifs at h
    · simp at h
      obtain ⟨h1, _⟩ := h
      subst h1
      simp at hx
    · cases hs : split_bn (d :: rest) with
      | nil => exact absurd hs (split_bn_ne_nil _)
      | cons g gs =>
        rw [hs] at h
        simp [cons_head] at h
        obtain ⟨h1, _⟩ := h
        subst h1
        simpa using hx

/-- No fragment holds a backslash-n. -/
theorem split_bn_no_bn : ∀ (s : Str), ∀ f ∈ split_bn s, ¬ HasBackslashN f
  | [], f, hf => by
    simp [split_bn] at hf
    subst hf
    rintro ⟨a, b, e⟩
    simp at e
  | [c], f, hf => by
    simp [split_bn] at hf
    subst hf
    rintro ⟨a, b, e⟩
    have := congrArg List.length e
    simp at this
    omega
  | c :: d :: rest, f, hf => by
    rw [split_bn] at hf
    split_ifs at hf with hb
    · rcases List.mem_cons.mp hf with rfl | hf
      · rintro ⟨a, b, e⟩
        simp at e
      · exact split_bn_no_bn rest f hf
    · cases hs : split_bn (d :: rest) with
      | nil => exact absurd hs (split_bn_ne_nil _)
      | cons g gs =>
        rw [hs] at hf
        simp only [cons_head] at hf
        have ih := split_bn_no_bn (d :: rest)
        rw [hs] at ih
        rcases List.mem_cons.mp hf with rfl | hf
        · rw [hasBackslashN_cons_iff]
          rintro (⟨rfl, hg⟩ | hg)
          · have := split_bn_head (d :: rest) g gs hs 'n' hg
            simp at this
            subst this
            simp at hb
          · exact ih g (List.mem_cons_self _ _) hg
        · exact ih f (List.mem_cons_of_mem _ hf)

theorem cons_head_length (c : Char) {l : List Str} (h : l ≠ []) :
    (cons_head c l).length = l.length := by
  match l, h with
  | f :: fs, _ => rfl

/-- One fragment more than occurrences. -/
theorem split_bn_length : ∀ (s : Str), (split_bn s).length = count_bn s + 1
  | [] => rfl
  | [c] => rfl
  | c :: d :: rest => by
    rw [split_bn, count_bn]
    split_ifs
    · simp [split_bn_length rest]
    · rw [cons_head_length c (split_bn_ne_nil _), split_bn_length (d :: rest)]

theorem count_bn_pos : ∀ (s : Str), HasBackslashN s → 0 < count_bn s
  | [], h => by
    obtain ⟨a, b, e⟩ := h
    simp at e
  | [c], h => by
    obtain ⟨a, b, e⟩ := h
    have := congrArg List.length e
    simp at this
    omega
  | c :: d :: rest, h => by
    rw [count_bn]
    split_ifs with hb
    · omega
    · rw [hasBackslashN_cons_iff] at h
      rcases h with ⟨rfl, hd⟩ | h
      · simp at hd
        subst hd
        simp at hb
      · exact count_bn_pos (d :: rest) h

theorem inline_escapes_of_no_bn : ∀ (s : Str), ¬ HasBackslashN s →
    fputs_with_n_escapes_inline s = s
  | [], _ => rfl
  | [_], _ => rfl
  | c :: d :: rest, h => by
    have ih := inline_escapes_of_no_bn (d :: rest) (not_hasBackslashN_cons h)
    rw [fputs_with_n_escapes_inline, not_hasBackslashN_head h]
    simp [ih]

/-- The text-line loop writes one character more than the argument-body loop
for each backslash-n. -/
theorem text_n_escapes_length : ∀ (s : Str),
    (text_n_escapes s).length = (fputs_with_n_escapes_inline s).length + count_bn s
  | [] => rfl
  | [c] => rfl
  | c :: d :: rest => by
    rw [text_n_escapes, fputs_with_n_escapes_inline, count_bn]
    split_ifs
    · simp [text_n_escapes_length rest]
      omega
    · simp [text_n_escapes_length (d :: rest)]
      omega

/-! ## The three uses of the escape loop -/

/-- C15, the claim as stated fails: for `a\nb` the text-line loop writes
`a\\`, a newline and `b`, the argument-body loop writes `a\\b`, with no
newline after the forced line break. -/
theorem C15_counterexample :
    text_n_escapes "a\\nb".toList = "a\\\\\nb".toList ∧
    item_n_escapes "a\\nb".toList = "a\\\\\nb".toList ∧
    fputs_with_n_escapes_inline "a\\nb".toList = "a\\\\b".toList ∧
    fputs_with_n_escapes_inline "a\\nb".toList ≠ text_n_escapes "a\\nb".toList := by
  decide

/-- C15, amended: the text-line loop of `emit_text_with_n_escapes` and the
list-item loop are the same function: both write the fragments of `s` between
its backslash-n occurrences joined by backslash, backslash, newline. The
argument-body loop `fputs_with_n_escapes_inline` writes the same fragments
joined by backslash, backslash alone. So the three agree exactly on the
strings with no backslash-n. -/
theorem C15_escape_loops (s : Str) :
    item_n_escapes s = text_n_escapes s ∧
    (∃ frags : List Str, frags ≠ [] ∧ s = join_with "\\n".toList frags ∧
      (∀ f ∈ frags, ¬ HasBackslashN f) ∧
      text_n_escapes s = join_with "\\\\\n".toList frags ∧
      item_n_escapes s = join_with "\\\\\n".toList frags ∧
      fputs_with_n_escapes_inline s = join_with "\\\\".toList frags) ∧
    (fputs_with_n_escapes_inline s = text_n_escapes s ↔ ¬ HasBackslashN s) := by
  refine ⟨?_, ⟨split_bn s, split_bn_ne_nil s, split_bn_join s, split_bn_no_bn s,
    text_n_escapes_eq_join s, item_n_escapes_eq_join s, inline_escapes_eq_join s⟩, ?_, ?_⟩
  · rw [item_n_escapes_eq_join, text_n_escapes_eq_join]
  · intro h hb
    have h1 := text_n_escapes_length s
    have h2 := count_bn_pos s hb
    rw [← h] at h1
    omega
  · intro hb
    rw [inline_escapes_of_no_bn s hb, text_n_escapes_of_no_bn s hb]

/-- C15, the amended statement at `a\nb` and at a string with no backslash-n. -/
theorem C15_escape_loops_witness :
    item_n_escapes "a\\nb".toList = text_n_escapes "a\\nb".toList ∧
    fputs_with_n_escapes_inline "no break".toList = text_n_escapes "no break".toList :=
  ⟨(C15_escape_loops "a\\nb".toList).1,
    (C15_escape_loops "no break".toList).2.2.mpr (by unfold HasBackslashN; decide)⟩

/-! ## The rows of one math line -/

theorem split_bn_of_no_bn : ∀ (s : Str), ¬ HasBackslashN s → split_bn s = [s]
  | [], _ => rfl
  | [_], _ => rfl
  | c :: d :: rest, h => by
    have ih := split_bn_of_no_bn (d :: rest) (not_hasBackslashN_cons h)
    rw [split_bn, not_hasBackslashN_head h]
    simp [ih, cons_head]

theorem split_bn_append_bn : ∀ (a rest : Str), ¬ HasBackslashN a →
    split_bn (a ++ '\\' :: 'n' :: rest) = a :: split_bn rest
  | [], rest, _ => by simp [split_bn]
  | [c], rest, _ => by
    have : (c == '\\' && '\\' == 'n') = false := by
      have : ('\\' == 'n') = false := by decide
      simp [this]
    simp only [List.singleton_append, split_bn, this]
    simp [split_bn, cons_head]
  | c :: d :: a, rest, h => by
    have ih := split_bn_append_bn (d :: a) rest (not_hasBackslashN_cons h)
    simp only [List.cons_append] at ih ⊢
    rw [split_bn, not_hasBackslashN_head h]
    simp [ih, cons_head]

/-- The scan of `math_feed_row` stops at the end of a text with no
backslash-n, and otherwise at the first backslash-n. -/
theorem find_bn_decomp : ∀ (p : Str), (find_bn p = [] ∧ ¬ HasBackslashN p) ∨
    ∃ part q, ¬ HasBackslashN part ∧ p = part ++ '\\' :: 'n' :: q ∧
      find_bn p = '\\' :: 'n' :: q
  | [] => Or.inl ⟨rfl, by rintro ⟨a, b, e⟩; simp at e⟩
  | c :: cs => by
    rw [find_bn]
    split_ifs with hb
    · right
      simp only [Bool.and_eq_true, beq_iff_eq] at hb
      obtain ⟨rfl, hn⟩ := hb
      cases cs with
      | nil => simp at hn
      | cons y ys =>
        simp at hn
        subst hn
        exact ⟨[], ys, by rintro ⟨a, b, e⟩; simp at e, rfl, rfl⟩
    · have hb2 : ¬ (c = '\\' ∧ cs.head? = some 'n') := by
        simpa using hb
      rcases find_bn_decomp cs with ⟨h1, h2⟩ | ⟨part, q, h1, h2, h3⟩
      · left
        refine ⟨h1, ?_⟩
        rw [hasBackslashN_cons_iff]
        rintro (h | h)
        · exact hb2 h
        · exact h2 h
      · right
        refine ⟨c :: part, q, ?_, by rw [h2]; rfl, h3⟩
        rw [hasBackslashN_cons_iff]
        rintro (⟨rfl, h⟩ | h)
        · apply hb2
          refine ⟨rfl, ?_⟩
          rw [h2]
          cases part with
          | nil => simp at h
          | cons y ys => simpa using h
        · exact h1 h

theorem getLast?_cons_of_ne_nil {α : Type} (a : α) {l : List α} (h : l ≠ []) :
    (a :: l).getLast? = l.getLast? := by
  match l, h with
  | b :: bs, _ => exact List.getLast?_cons_cons

/-- The last fragment is empty exactly for the empty text and for a text that
ends with a backslash-n. -/
theorem split_bn_getLast : ∀ (s : Str),
    (split_bn s).getLast? = some [] ↔ s = [] ∨ ['\\', 'n'] <:+ s
  | [] => by simp [split_bn]
  | [c] => by
    simp only [split_bn, List.getLast?_singleton, Option.some.injEq, List.cons_ne_self,
      false_or, false_iff]
    intro h
    have := h.length_le
    simp at this
  | c :: d :: rest => by
    have ih1 := split_bn_getLast rest
    have ih2 := split_bn_getLast (d :: rest)
    rw [split_bn]
    split_ifs with hb
    · simp only [Bool.and_eq_true, beq_iff_eq] at hb
      obtain ⟨rfl, rfl⟩ := hb
      rw [getLast?_cons_of_ne_nil _ (split_bn_ne_nil rest), ih1, List.suffix_cons_iff,
        List.suffix_cons_iff]
      simp
    · have hb2 : ¬ (c = '\\' ∧ d = 'n') := by simpa using hb
      have e1 : (['\\', 'n'] <:+ c :: d :: rest) ↔ ['\\', 'n'] <:+ d :: rest := by
        rw [List.suffix_cons_iff]
        constructor
        · rintro (h | h)
          · simp at h
            exact absurd ⟨h.1.symm, h.2.1.symm⟩ hb2
          · exact h
        · exact Or.inr
      simp only [List.cons_ne_nil, false_or] at ih2 ⊢
      rw [e1, ← ih2]
      cases hs : split_bn (d :: rest) with
      | nil => exact absurd hs (split_bn_ne_nil _)
      | cons g gs =>
        cases gs with
        | nil =>
          have hj := split_bn_join (d :: rest)
          rw [hs] at hj
          simp only [join_with] at hj
          subst hj
          simp [cons_head]
        | cons h hs2 =>
          simp [cons_head, List.getLast?_cons_cons]

theorem math_rows_nil : math_rows [] = [] := by
  decide

theorem math_rows_of_no_bn {p : Str} (hne : p ≠ []) (h : ¬ HasBackslashN p) :
    math_rows p = [p] := by
  unfold math_rows
  rw [split_bn_of_no_bn p h]
  simp [hne]

theorem math_rows_append_bn (part q : Str) (h : ¬ HasBackslashN part) :
    math_rows (part ++ '\\' :: 'n' :: q) = part :: math_rows q := by
  unfold math_rows
  rw [split_bn_append_bn part q h, getLast?_cons_of_ne_nil _ (split_bn_ne_nil q)]
  split_ifs
  · cases hs : split_bn q with
    | nil => exact absurd hs (split_bn_ne_nil _)
    | cons g gs => rfl
  · rfl

theorem block_pending_eta (m : Block) : { m with math_pending := m.math_pending } = m := rfl

/-- The loop of `math_feed_row`, with fuel above the length of the text, feeds
the rows of the text. -/
theorem math_feed_row_from_rows : ∀ (fuel : Nat) (m : Block) (p : Str) (r : Render),
    p.length < fuel → math_feed_row_from fuel m p r = feed_rows m r (math_rows p)
  | 0, _, _, _, h => by omega
  | fuel + 1, m, p, r, h => by
    rw [math_feed_row_from]
    by_cases hp : p = []
    · subst hp
      rw [if_pos rfl, math_rows_nil]
      unfold feed_rows
      cases hm : m.math_pending with
      | none =>
        simp only [Option.toList, List.append_nil, List.getLast?_nil, List.dropLast_nil,
          List.foldl_nil]
        rw [← hm]
      | some x =>
        simp only [Option.toList, List.append_nil, List.getLast?_singleton,
          List.dropLast_single, List.foldl_nil]
        rw [← hm]
    · rw [if_neg hp]
      rcases find_bn_decomp p with ⟨h1, h2⟩ | ⟨part, q, h1, h2, h3⟩
      · simp only [h1, List.length_nil, Nat.sub_zero, List.take_length, if_true]
        rw [math_rows_of_no_bn hp h2]
        unfold feed_rows
        cases hm : m.math_pending <;> simp [Option.toList]
      · have hlen : p.length - (find_bn p).length = part.length := by
          rw [h3, h2]
          simp
        have htake : p.take part.length = part := by
          rw [h2]
          simp
        simp only [hlen, htake, h3, List.drop_succ_cons, List.drop_zero]
        rw [if_neg (by simp)]
        rw [math_feed_row_from_rows fuel _ q _ (by rw [h2] at h; simp at h; omega), h2,
          math_rows_append_bn part q h1]
        unfold feed_rows
        cases hm : m.math_pending <;> simp [Option.toList, List.dropLast_cons_of_ne_nil]

/-- C19, the claim as stated fails: the row `a\n` has one backslash-n, and
`math_feed_row` takes one row from it, not two: `a` is left pending and
nothing is written; the empty fragment after the backslash-n is no row. -/
theorem C19_counterexample :
    count_bn "a\\n".toList = 1 ∧
    math_feed_row { Block.zero with kind := BlockKind.BLK_MATH } "a\\n".toList
        { g_doc_open := true, out := [] }
      = ({ Block.zero with kind := BlockKind.BLK_MATH, math_pending := some "a".toList },
          { g_doc_open := true, out := [] }) ∧
    math_feed_row { Block.zero with kind := BlockKind.BLK_MATH } "a\\n".toList
        { g_doc_open := true, out := [] }
      ≠ ({ Block.zero with kind := BlockKind.BLK_MATH, math_pending := some [] },
          { g_doc_open := true, out := [Ev.text "a \\\\\n".toList] }) := by
  decide

/-- C19, amended: `math_feed_row` on a text `t` with `k` occurrences of
backslash-n (counted without overlap) takes as rows the `k+1` fragments of `t`
between the occurrences, empty fragments at the start and in the middle
included, except an empty last fragment: when `t` ends with a backslash-n (or
is empty) there are `k` rows, otherwise `k+1`. The row that was pending and
every row but the last are written with the plain row separator, and the last
row is left pending. -/
theorem C19_math_feed_row (m : Block) (t : Str) (r : Render) :
    math_feed_row m t r = feed_rows m r (math_rows t) ∧
    (split_bn t).length = count_bn t + 1 ∧
    t = join_with "\\n".toList (split_bn t) ∧
    (∀ f ∈ split_bn t, ¬ HasBackslashN f) ∧
    (t ≠ [] → ¬ "\\n".toList <:+ t →
      math_rows t = split_bn t ∧ (math_rows t).length = count_bn t + 1) ∧
    (t = [] ∨ "\\n".toList <:+ t →
      math_rows t = (split_bn t).dropLast ∧ (math_rows t).length = count_bn t) := by
  refine ⟨math_feed_row_from_rows _ m t r (Nat.lt_succ_self _), split_bn_length t,
    split_bn_join t, split_bn_no_bn t, fun h1 h2 => ?_, fun h => ?_⟩
  · have hl : ¬ (split_bn t).getLast? = some [] := by
      rw [split_bn_getLast]
      rintro (h | h)
      · exact h1 h
      · exact h2 h
    have e : math_rows t = split_bn t := by
      unfold math_rows
      rw [if_neg hl]
    exact ⟨e, by rw [e, split_bn_length]⟩
  · have hl : (split_bn t).getLast? = some [] := (split_bn_getLast t).mpr h
    have e : math_rows t = (split_bn t).dropLast := by
      unfold math_rows
      rw [if_pos hl]
    refine ⟨e, ?_⟩
    rw [e, List.length_dropLast, split_bn_length]
    rfl

/-- C19, the amended statement at `\na\n\nb`: three occurrences, four rows,
the first and the third empty; and at `a\n`: one occurrence, one row. -/
theorem C19_math_feed_row_witness :
    math_rows "\\na\\n\\nb".toList = [[], "a".toList, [], "b".toList] ∧
    (math_rows "\\na\\n\\nb".toList).length = count_bn "\\na\\n\\nb".toList + 1 ∧
    (math_rows "a\\n".toList).length = count_bn "a\\n".toList :=
  ⟨by decide,
    ((C19_math_feed_row Block.zero "\\na\\n\\nb".toList { g_doc_open := true, out := [] }).2.2.2.2.1
      (by decide) (by decide)).2,
    ((C19_math_feed_row Block.zero "a\\n".toList { g_doc_open := true, out := [] }).2.2.2.2.2
      (Or.inr (by decide))).2⟩

/-! ## Stripping columns -/

theorem calc_indent_cols_cons_sp {c : Char} (cs : Str) (hc : is_sp c = true) :
    (calc_indent_cols (c :: cs)).1 =
      (calc_indent_cols cs).1 + (if c == '\t' then TAB_WIDTH else 1) := by
  rw [calc_indent_cols, if_pos hc]

theorem calc_indent_cols_append_indent : ∀ (w r : Str), IsIndent w →
    (calc_indent_cols (w ++ r)).1 = cols w + (calc_indent_cols r).1
  | [], r, _ => by simp [cols, calc_indent_cols]
  | c :: w, r, hw => by
    have ih := calc_indent_cols_append_indent w r (fun x hx => hw x (List.mem_cons_of_mem c hx))
    have hc := hw c (List.mem_cons_self c w)
    rw [List.cons_append, calc_indent_cols_cons_sp _ hc, ih, cols, cols,
      calc_indent_cols_cons_sp _ hc]
    omega

/-- The loop of `strip_cols` started with `c` columns counted, `c ≤ n`: it
removes a run `pre` of spaces and tabs that brings the count to at most `n`,
and stops because the count is `n`, or because no indentation is left, or
because the next character is a tab that would pass `n`. -/
theorem strip_cols_from_spec : ∀ (line : Str) (c n : Int), c ≤ n →
    ∃ pre, IsIndent pre ∧ line = pre ++ strip_cols_from line c n ∧ c + cols pre ≤ n ∧
      (c + cols pre = n ∨
        (∀ y, (strip_cols_from line c n).head? = some y → is_sp y = false) ∨
        ((strip_cols_from line c n).head? = some '\t' ∧ n < c + cols pre + 4))
  | [], c, n, h => ⟨[], by intro x hx; simp at hx, rfl, by simpa [cols, calc_indent_cols] using h,
      Or.inr (Or.inl (by simp [strip_cols_from]))⟩
  | x :: xs, c, n, h => by
    rw [strip_cols_from]
    by_cases hx : is_sp x = true
    · rw [if_pos hx]
      simp only []
      by_cases h1 : c + (if x == '\t' then TAB_WIDTH else 1) > n
      · rw [if_pos h1]
        refine ⟨[], by intro y hy; simp at hy, rfl, by simpa [cols, calc_indent_cols] using h, ?_⟩
        rcases (is_sp_iff x).mp hx with rfl | rfl
        · left
          simp [cols, calc_indent_cols] at h1 ⊢
          omega
        · by_cases hcn : c = n
          · left
            simp [cols, calc_indent_cols, hcn]
          · right
            right
            simp [cols, calc_indent_cols, TAB_WIDTH] at h1 ⊢
            omega
      · rw [if_neg h1]
        have hcx : cols [x] = (if x == '\t' then TAB_WIDTH else 1) := by
          rw [cols, calc_indent_cols_cons_sp _ hx]
          simp [calc_indent_cols]
        have hix : IsIndent [x] := by
          intro y hy
          simp at hy
          subst hy
          exact hx
        by_cases h2 : c + (if x == '\t' then TAB_WIDTH else 1) = n
        · rw [if_pos h2]
          exact ⟨[x], hix, rfl, by rw [hcx]; omega, Or.inl (by rw [hcx]; exact h2)⟩
        · rw [if_neg h2]
          obtain ⟨pre, hp, e, hle, hcase⟩ := strip_cols_from_spec xs
            (c + (if x == '\t' then TAB_WIDTH else 1)) n (by omega)
          have hcp : cols (x :: pre) = (if x == '\t' then TAB_WIDTH else 1) + cols pre := by
            rw [cols, calc_indent_cols_cons_sp _ hx, cols]
            omega
          refine ⟨x :: pre, ?_, by rw [List.cons_append, ← e], by rw [hcp]; omega, ?_⟩
          · intro y hy
            rcases List.mem_cons.mp hy with rfl | hy
            · exact hx
            · exact hp y hy
          · rw [hcp]
            rcases hcase with h3 | h3 | ⟨h3, h4⟩
            · exact Or.inl (by omega)
            · exact Or.inr (Or.inl h3)
            · exact Or.inr (Or.inr ⟨h3, by omega⟩)
    · rw [if_neg hx]
      simp only [Bool.not_eq_true] at hx
      exact ⟨[], by intro y hy; simp at hy, rfl, by simpa [cols, calc_indent_cols] using h,
        Or.inr (Or.inl (by simp [hx]))⟩

theorem calc_indent_cols_of_head {s : Str} (h : ∀ y, s.head? = some y → is_sp y = false) :
    (calc_indent_cols s).1 = 0 := by
  cases s with
  | nil => rfl
  | cons x xs => simp [calc_indent_cols, h x rfl]

theorem calc_indent_cols_tab (s : Str) (h : s.head? = some '\t') :
    4 ≤ (calc_indent_cols s).1 := by
  cases s with
  | nil => simp at h
  | cons x xs =>
    simp at h
    subst h
    have := calc_indent_cols_nonneg xs
    rw [calc_indent_cols_cons_sp _ (by decide)]
    simp [TAB_WIDTH]
    omega

/-- C20, the claim as stated fails: the line of one tab and `x` has four
columns of indentation, and stripping two columns leaves it whole, with four
columns, not two: a tab is never cut. -/
theorem C20_counterexample :
    (calc_indent_cols "\tx".toList).1 = 4 ∧
    strip_cols "\tx".toList 2 = "\tx".toList ∧
    (calc_indent_cols (strip_cols "\tx".toList 2)).1 ≠ (calc_indent_cols "\tx".toList).1 - 2 := by
  decide

/-- C20, amended: for `n ≥ 0`, `strip_cols line n` is `line` without a run
`pre` of leading spaces and tabs, whose width is at most `n`, and the
indentation of the result is that of `line` less the width of `pre`. When the
indentation of `line` is less than `n`, all of it is removed. When it is at
least `n`, the width of `pre` is exactly `n`, unless the result begins with a
tab that would pass column `n` (then fewer than `n` and more than `n - 4`
columns are stripped). In particular, when the leading indentation holds no
tab, exactly `n` columns are stripped. -/
theorem C20_strip_cols (line : Str) (n : Int) (hn : 0 ≤ n) :
    ∃ pre, IsIndent pre ∧ line = pre ++ strip_cols line n ∧ cols pre ≤ n ∧
      (calc_indent_cols (strip_cols line n)).1 = (calc_indent_cols line).1 - cols pre ∧
      ((calc_indent_cols line).1 < n →
        lskip_spaces (strip_cols line n) = strip_cols line n ∧
        (calc_indent_cols (strip_cols line n)).1 = 0) ∧
      (n ≤ (calc_indent_cols line).1 →
        cols pre = n ∨ ((strip_cols line n).head? = some '\t' ∧ n < cols pre + 4)) ∧
      (n ≤ (calc_indent_cols line).1 → (∀ c ∈ line.takeWhile is_sp, c = ' ') →
        (calc_indent_cols (strip_cols line n)).1 = (calc_indent_cols line).1 - n) := by
  obtain ⟨pre, hp, e, hle, hcase⟩ := strip_cols_from_spec line 0 n hn
  change line = pre ++ strip_cols line n at e
  change (0 + cols pre = n ∨
    (∀ y, (strip_cols line n).head? = some y → is_sp y = false) ∨
    ((strip_cols line n).head? = some '\t' ∧ n < 0 + cols pre + 4)) at hcase
  have hsum : (calc_indent_cols line).1 = cols pre + (calc_indent_cols (strip_cols line n)).1 := by
    conv_lhs => rw [e]
    exact calc_indent_cols_append_indent pre _ hp
  have hnn := calc_indent_cols_nonneg (strip_cols line n)
  have hlt : (calc_indent_cols line).1 < n →
      ∀ y, (strip_cols line n).head? = some y → is_sp y = false := by
    intro hl
    rcases hcase with h | h | ⟨h, _⟩
    · omega
    · exact h
    · have := calc_indent_cols_tab _ h
      omega
  have hge : n ≤ (calc_indent_cols line).1 →
      cols pre = n ∨ ((strip_cols line n).head? = some '\t' ∧ n < cols pre + 4) := by
    intro hl
    rcases hcase with h | h | ⟨h, h2⟩
    · exact Or.inl (by omega)
    · have := calc_indent_cols_of_head h
      exact Or.inl (by omega)
    · exact Or.inr ⟨h, by omega⟩
  refine ⟨pre, hp, e, by omega, by omega, fun hl => ⟨?_, ?_⟩, hge, fun hl hsp => ?_⟩
  · exact (lskip_spaces_eq_self_iff _).mpr (hlt hl)
  · exact calc_indent_cols_of_head (hlt hl)
  · rcases hge hl with h | ⟨h, _⟩
    · omega
    · exfalso
      cases hs : strip_cols line n with
      | nil => rw [hs] at h; simp at h
      | cons y ys =>
        rw [hs] at h e
        simp at h
        subst h
        have hmem : '\t' ∈ line.takeWhile is_sp := by
          rw [e, List.takeWhile_append_of_pos hp, List.takeWhile_cons_of_pos (by decide)]
          simp
        have := hsp _ hmem
        revert this
        decide

set_option maxRecDepth 100000 in
/-- C20, the amended statement at a line indented by six spaces, stripped of
four columns. -/
theorem C20_strip_cols_witness :
    ∃ pre, IsIndent pre ∧ "      x".toList = pre ++ strip_cols "      x".toList 4 ∧ cols pre ≤ 4 :=
  (C20_strip_cols "      x".toList 4 (by decide)).imp fun _ h => ⟨h.1, h.2.1, h.2.2.1⟩

/-! ## The results mode of a python header -/

theorem strstr_complete : ∀ (hay needle : Str), needle <:+: hay → strstr hay needle = true
  | [], needle, h => by
    have := List.eq_nil_of_infix_nil h
    subst this
    rfl
  | x :: xs, needle, h => by
    rw [strstr, Bool.or_eq_true, List.isPrefixOf_iff_prefix]
    rcases List.infix_cons_iff.mp h with h | h
    · exact Or.inl h
    · exact Or.inr (strstr_complete xs needle h)

theorem strstr_iff (hay needle : Str) : strstr hay needle = true ↔ needle <:+: hay :=
  ⟨strstr_sound hay needle, strstr_complete hay needle⟩

theorem strchr_of_decomp (c : Char) : ∀ (pre t : Str), c ∉ pre →
    strchr (pre ++ c :: t) c = some (c :: t)
  | [], t, _ => by simp [strchr]
  | x :: pre, t, h => by
    have hx : (x == c) = false := by
      simp only [List.mem_cons, not_or] at h
      simpa using fun e => h.1 e.symm
    rw [List.cons_append, strchr, hx]
    exact strchr_of_decomp c pre t (fun hm => h (List.mem_cons_of_mem x hm))

theorem strchr_decomp (c : Char) : ∀ (s : Str), (strchr s c = none ∧ c ∉ s) ∨
    ∃ pre t, s = pre ++ c :: t ∧ c ∉ pre ∧ strchr s c = some (c :: t)
  | [] => Or.inl ⟨rfl, by simp⟩
  | x :: xs => by
    by_cases hx : x = c
    · subst hx
      exact Or.inr ⟨[], xs, rfl, by simp, by simp [strchr]⟩
    · have hb : (x == c) = false := by simpa using hx
      rcases strchr_decomp c xs with ⟨h1, h2⟩ | ⟨pre, t, e, hp, h⟩
      · left
        refine ⟨by rw [strchr, hb]; exact h1, ?_⟩
        simp only [List.mem_cons, not_or]
        exact ⟨fun e => hx e.symm, h2⟩
      · right
        refine ⟨x :: pre, t, by rw [e]; rfl, ?_, by rw [strchr, hb]; exact h⟩
        simp only [List.mem_cons, not_or]
        exact ⟨fun e => hx e.symm, hp⟩

/-- The mode on argument text whose option text is `opt`. -/
theorem parse_python_results_mode_of_bracket {args opt : Str} (h : FirstBracket args opt) :
    parse_python_results_mode args =
      if strstr (opt.map tolower) "results=tex".toList ||
          strstr (opt.map tolower) "results=asis".toList ||
          strstr (opt.map tolower) "results=raw".toList then PyResultsMode.PYRES_TEX
      else PyResultsMode.PYRES_VERBATIM := by
  obtain ⟨pre, post, e, hp, ho⟩ := h
  have e1 : strchr args '[' = some ('[' :: (opt ++ ']' :: post)) := by
    rw [e]
    exact strchr_of_decomp '[' pre _ hp
  have e2 : strchr (opt ++ ']' :: post) ']' = some (']' :: post) :=
    strchr_of_decomp ']' opt post ho
  unfold parse_python_results_mode
  simp only [e1, List.drop_succ_cons, List.drop_zero, e2]
  have e3 : (opt ++ ']' :: post).take ((opt ++ ']' :: post).length - (']' :: post).length)
      = opt := by
    simp
  simp only [e3]

/-- Without a `[`, or without a `]` after the first `[`, the mode is
Verbatim. -/
theorem parse_python_results_mode_no_bracket {args : Str}
    (h : ¬ ∃ opt, FirstBracket args opt) :
    parse_python_results_mode args = PyResultsMode.PYRES_VERBATIM := by
  unfold parse_python_results_mode
  rcases strchr_decomp '[' args with ⟨h1, _⟩ | ⟨pre, t, e, hp, h1⟩
  · rw [h1]
  · rw [h1]
    simp only [List.drop_succ_cons, List.drop_zero]
    rcases strchr_decomp ']' t with ⟨h2, _⟩ | ⟨opt, post, e2, ho, h2⟩
    · rw [h2]
    · exfalso
      exact h ⟨opt, pre, post, by rw [e, e2], hp, ho⟩

/-- C13, the claim as stated fails: the header `python[a][results=tex]:` has
the argument text `[a][results=tex]`, which holds `results=tex`, and the mode
is Verbatim: the option is not in the first bracket group. -/
theorem C13_counterexample :
    parse_header "python[a][results=tex]:".toList
      = some ("python".toList, "[a][results=tex]".toList, []) ∧
    "results=tex".toList <:+: "[a][results=tex]".toList.map tolower ∧
    parse_python_results_mode "[a][results=tex]".toList = PyResultsMode.PYRES_VERBATIM := by
  decide

/-- C13, amended: `parse_python_results_mode` returns the direct-output mode
exactly when the argument text has a `[` and a `]` after it, and the text
between the first `[` and the first `]` after it, compared in lower case,
holds `results=tex`, `results=asis` or `results=raw`; in every other case it
returns Verbatim. -/
theorem C13_parse_python_results_mode (args : Str) :
    (parse_python_results_mode args = PyResultsMode.PYRES_TEX ↔
      ∃ opt, FirstBracket args opt ∧ HasTexOption opt) ∧
    (parse_python_results_mode args = PyResultsMode.PYRES_VERBATIM ↔
      ¬ ∃ opt, FirstBracket args opt ∧ HasTexOption opt) := by
  have key : parse_python_results_mode args = PyResultsMode.PYRES_TEX ↔
      ∃ opt, FirstBracket args opt ∧ HasTexOption opt := by
    constructor
    · intro h
      by_cases hb : ∃ opt, FirstBracket args opt
      · obtain ⟨opt, ho⟩ := hb
        refine ⟨opt, ho, ?_⟩
        rw [parse_python_results_mode_of_bracket ho] at h
        split_ifs at h with hc
        simp only [Bool.or_eq_true, strstr_iff] at hc
        unfold HasTexOption
        tauto
      · rw [parse_python_results_mode_no_bracket hb] at h
        exact absurd h (by decide)
    · rintro ⟨opt, ho, hc⟩
      rw [parse_python_results_mode_of_bracket ho, if_pos]
      simp only [Bool.or_eq_true, strstr_iff]
      unfold HasTexOption at hc
      tauto
  refine ⟨key, ?_⟩
  rw [← key]
  cases parse_python_results_mode args <;> simp

/-- C13, the amended statement at the argument text `[Results=TeX, x]\x7bb\x7d`. -/
theorem C13_parse_python_results_mode_witness :
    parse_python_results_mode "[Results=TeX, x]{b}".toList = PyResultsMode.PYRES_TEX :=
  (C13_parse_python_results_mode "[Results=TeX, x]{b}".toList).1.mpr
    ⟨"Results=TeX, x".toList, ⟨[], "{b}".toList, by decide, by decide, by decide⟩,
      Or.inl (by decide)⟩

/-! ## Blank lines before the preamble -/

set_option maxRecDepth 1000000 in
/-- C14, the code at the failing input: on a blank line followed by the line
`x`, the run writes a newline for the blank line first, and only then the
preamble: the first character of the output is not the first character of the
preamble. The blank-line branch of `main` is the one write that does not go
through `emit_default_preamble_once`. What holds for every input: once the
flag is set `emit_default_preamble_once` writes nothing more, and the output
is newlines only (those of leading blank lines), followed, if anything else
was written, by the preamble. -/
theorem C14_blank_line_before_preamble :
    (main id ["\n".toList, "x\n".toList]).bytes
      = "\n".toList ++ preamble ++ "x\n\\end{document}\n".toList ∧
    (main id ["\n".toList, "x\n".toList]).bytes.head? ≠ preamble.head? ∧
    (∀ r : Render, r.g_doc_open = true → emit_default_preamble_once r = r) ∧
    (∀ (py : Str → Str) (lines : List Str), PreambleFirst (main py lines).bytes) := by
  refine ⟨by decide, by decide, fun r h => ?_, main_preambleFirst⟩
  simp [emit_default_preamble_once, h]

/-! ## Title commands in body form -/

theorem mem_of_any_streq {l : List Str} {name : Str} (h : l.any (streq name) = true) :
    name ∈ l := by
  obtain ⟨x, hx, e⟩ := List.any_eq_true.mp h
  have : name = x := by simpa [streq] using e
  exact this ▸ hx

theorem title_commands_apart :
    ∀ n ∈ title_commands, is_nobody_command n = false ∧ is_braced_command n = false := by
  decide

theorem dispatch_header_title_command (content name args after : Str) (i : Int) (s : State)
    (hn : is_title_command name = true) :
    dispatch_header content name args after i s = do_title name args after i s := by
  obtain ⟨h1, h2⟩ := title_commands_apart name (mem_of_any_streq hn)
  unfold dispatch_header
  have hr : is_recognized_header_name name = true := by
    simp [is_recognized_header_name, hn]
  simp [hr, hn, h1, h2]

theorem read_title_blanks (i : Int) : ∀ (blanks tl : List Str),
    (∀ l ∈ blanks, line_blank l = true) → read_title i (blanks ++ tl) = read_title i tl
  | [], _, _ => rfl
  | l :: bl, tl, h => by
    have ih := read_title_blanks i bl tl (fun x hx => h x (List.mem_cons_of_mem l hx))
    rw [List.cons_append, read_title]
    rw [if_pos (show is_blank_line (List.drop (calc_indent_cols (rstrip_inplace l)).2
        (rstrip_inplace l)) = true from h l (List.mem_cons_self l bl))]
    exact ih

theorem read_title_stop (i : Int) {L : Str} (rest : List Str) (hb : line_blank L = false)
    (hi : line_indent L ≤ i) : read_title i (L :: rest) = (none, some (rstrip_inplace L), rest) := by
  rw [read_title]
  rw [if_neg (show ¬ is_blank_line (List.drop (calc_indent_cols (rstrip_inplace L)).2
      (rstrip_inplace L)) = true from not_true_of_false hb),
    if_pos (show (calc_indent_cols (rstrip_inplace L)).1 ≤ i from hi)]

theorem read_title_deeper (i : Int) {w t e : Str} (tl : List Str)
    (hw : IsIndent w) (ht : IsContent t) (he : IsTrail e) (hd : i < cols w) :
    read_title i ((w ++ t ++ e) :: tl) = (some t, none, tl) := by
  obtain ⟨h1, h2, h3, h4⟩ := line_of_content hw ht he
  rw [read_title]
  rw [if_neg (show ¬ is_blank_line (List.drop (calc_indent_cols (rstrip_inplace (w ++ t ++ e))).2
      (rstrip_inplace (w ++ t ++ e))) = true from not_true_of_false h4),
    if_neg (show ¬ (calc_indent_cols (rstrip_inplace (w ++ t ++ e))).1 ≤ i from by
      have : (calc_indent_cols (rstrip_inplace (w ++ t ++ e))).1 = cols w := h2
      rw [this]; exact not_le.mpr hd)]
  have h3b : List.drop (calc_indent_cols (rstrip_inplace (w ++ t ++ e))).2
      (rstrip_inplace (w ++ t ++ e)) = t := h3
  rw [h3b, ht.1]

/-- The body form of a title command once its lookahead is known. -/
theorem do_title_body (name : Str) (i : Int) (s : State) :
    do_title name [] [] i s =
      { s with
        r := fputs ("\\".toList ++ name ++ "\x7b".toList ++
            fputs_with_n_escapes_inline ((read_title i s.fp).1.getD []) ++ "\x7d\n".toList)
          (emit_default_preamble_once s.r),
        pending_line := (read_title i s.fp).2.1,
        fp := (read_title i s.fp).2.2 } := rfl

/-- C16: a header whose name is a title command, with no argument text and
nothing after the colon, at indentation `cols w`, followed by blank lines
`blanks`. If the next line is not blank and indented deeper, its content `T`
is the title: the round writes `\name\x7bT\x7d` with inline escaping and
consumes that one line only, the lines after it stay in the input whatever
their indentation. If the next line is not blank and indented no deeper, the
title is empty and that line goes to the pushback slot, from where the next
round dispatches it as if it were read from the input. If no line is left, the
round writes `\name\x7b\x7d`. Every title command name followed by a colon is
such a header. -/
theorem C16_title_command_body (py : Str → Str) (st : List Block) (r : Render)
    (w c e name : Str) (blanks : List Str)
    (hw : IsIndent w) (hc : IsContent c) (he : IsTrail e)
    (hp : parse_header c = some (name, [], [])) (hn : is_title_command name = true)
    (hready : HeaderReady (close_blocks_for_indent py (cols w) st r).1)
    (hbl : ∀ l ∈ blanks, line_blank l = true) :
    (∀ (w1 T e1 : Str) (tl : List Str), IsIndent w1 → IsContent T → IsTrail e1 →
      cols w < cols w1 →
      main_iter py { st := st, r := r, pending_line := none,
                     fp := (w ++ c ++ e) :: (blanks ++ (w1 ++ T ++ e1) :: tl) } = some
        { st := (close_blocks_for_indent py (cols w) st r).1,
          r := fputs ("\\".toList ++ name ++ "\x7b".toList ++
              fputs_with_n_escapes_inline T ++ "\x7d\n".toList)
            (emit_default_preamble_once (close_blocks_for_indent py (cols w) st r).2),
          pending_line := none, fp := tl }) ∧
    (∀ (L : Str) (rest : List Str), line_blank L = false → line_indent L ≤ cols w →
      main_iter py { st := st, r := r, pending_line := none,
                     fp := (w ++ c ++ e) :: (blanks ++ L :: rest) } = some
        { st := (close_blocks_for_indent py (cols w) st r).1,
          r := fputs ("\\".toList ++ name ++ "\x7b\x7d\n".toList)
            (emit_default_preamble_once (close_blocks_for_indent py (cols w) st r).2),
          pending_line := some (rstrip_inplace L), fp := rest } ∧
      main_iter py
        { st := (close_blocks_for_indent py (cols w) st r).1,
          r := fputs ("\\".toList ++ name ++ "\x7b\x7d\n".toList)
            (emit_default_preamble_once (close_blocks_for_indent py (cols w) st r).2),
          pending_line := some (rstrip_inplace L), fp := rest } =
      main_iter py
        { st := (close_blocks_for_indent py (cols w) st r).1,
          r := fputs ("\\".toList ++ name ++ "\x7b\x7d\n".toList)
            (emit_default_preamble_once (close_blocks_for_indent py (cols w) st r).2),
          pending_line := none, fp := L :: rest }) ∧
    main_iter py { st := st, r := r, pending_line := none, fp := (w ++ c ++ e) :: blanks } = some
      { st := (close_blocks_for_indent py (cols w) st r).1,
        r := fputs ("\\".toList ++ name ++ "\x7b\x7d\n".toList)
          (emit_default_preamble_once (close_blocks_for_indent py (cols w) st r).2),
        pending_line := none, fp := [] } ∧
    ∀ n ∈ title_commands, parse_header (n ++ ":".toList) = some (n, [], []) := by
  refine ⟨fun w1 T e1 tl hw1 hT he1 hd => ?_, fun L rest hL hLi => ⟨?_, ?_⟩, ?_, by decide⟩
  · rw [main_iter_header_read py st r _ hw hc he hready hp,
      dispatch_header_title_command _ _ _ _ _ _ hn, do_title_body]
    simp only [read_title_blanks _ blanks _ hbl, read_title_deeper _ tl hw1 hT he1 hd]
    rfl
  · rw [main_iter_header_read py st r _ hw hc he hready hp,
      dispatch_header_title_command _ _ _ _ _ _ hn, do_title_body]
    simp only [read_title_blanks _ blanks _ hbl, read_title_stop _ rest hL hLi]
    simp [fputs_with_n_escapes_inline]
  · exact main_iter_pushback py _ _ L rest
  · rw [main_iter_header_read py st r _ hw hc he hready hp,
      dispatch_header_title_command _ _ _ _ _ _ hn, do_title_body]
    have := read_title_blanks (cols w) blanks [] hbl
    rw [List.append_nil] at this
    simp only [this, read_title]
    simp [fputs_with_n_escapes_inline]

/-- C16 at `section:`, a blank line, the deeper line `Intro`, a second deeper
line and the line `text`: the title is `Intro`, the second deeper line stays
in the input. -/
theorem C16_title_command_body_witness :
    main_iter id (State.init ["section:\n".toList, "\n".toList, "  Intro\n".toList,
        "  second\n".toList, "text\n".toList]) = some
      { st := [],
        r := fputs "\\section\x7bIntro\x7d\n".toList
          (emit_default_preamble_once { g_doc_open := false, out := [] }),
        pending_line := none, fp := ["  second\n".toList, "text\n".toList] } :=
  (C16_title_command_body id [] { g_doc_open := false, out := [] } [] "section:".toList
    "\n".toList "section".toList ["\n".toList]
    (by unfold IsIndent; decide) (by unfold IsContent; decide) (by unfold IsTrail; decide)
    (by decide) (by decide) (by unfold HeaderReady; decide) (by decide)).1
    "  ".toList "Intro".toList "\n".toList ["  second\n".toList, "text\n".toList]
    (by unfold IsIndent; decide) (by unfold IsContent; decide) (by unfold IsTrail; decide)
    (by decide)

/-! ## Braced commands in body form -/

theorem braced_commands_apart : ∀ n ∈ braced_commands, is_nobody_command n = false := by
  decide

theorem dispatch_header_braced_command (content name args after : Str) (i : Int) (s : State)
    (hn : is_braced_command name = true) :
    dispatch_header content name args after i s = do_braced name args after i s := by
  have h1 := braced_commands_apart name (mem_of_any_streq hn)
  unfold dispatch_header
  have hr : is_recognized_header_name name = true := by
    simp [is_recognized_header_name, hn]
  simp [hr, hn, h1]

/-- The body form of a braced command once its body and lookahead are known. -/
theorem do_braced_body (name after : Str) (i : Int) (s : State) :
    do_braced name [] after i s =
      { s with
        r := fputs ("\\".toList ++ name ++ "\x7b".toList ++
            fputs_with_n_escapes_inline (collect_body i s.fp after).1 ++ "\x7d\n".toList)
          (emit_default_preamble_once s.r),
        pending_line := (collect_body i s.fp after).2.1,
        fp := (collect_body i s.fp after).2.2 } := rfl

theorem collect_body_blank (i : Int) {l : Str} (tl : List Str) (body : Str)
    (h : line_blank l = true) : collect_body i (l :: tl) body = collect_body i tl body := by
  rw [collect_body]
  rw [if_pos (show is_blank_line (List.drop (calc_indent_cols (rstrip_inplace l)).2
      (rstrip_inplace l)) = true from h)]

theorem collect_body_line (i : Int) {l : Str} (tl : List Str) (body : Str)
    (hb : line_blank l = false) (hd : i < line_indent l) :
    collect_body i (l :: tl) body =
      collect_body i tl
        ((if body.length > 0 then body ++ " \\\\ ".toList else body) ++ line_content l) := by
  rw [collect_body]
  rw [if_neg (show ¬ is_blank_line (List.drop (calc_indent_cols (rstrip_inplace l)).2
      (rstrip_inplace l)) = true from not_true_of_false hb),
    if_neg (show ¬ (calc_indent_cols (rstrip_inplace l)).1 ≤ i from not_le.mpr hd)]
  have e : lskip_spaces (List.drop (calc_indent_cols (rstrip_inplace l)).2 (rstrip_inplace l))
      = line_content l := by
    change lskip_spaces (line_content l) = line_content l
    rw [line_content_eq, lskip_spaces_idem]
  rw [e]

/-- The lookahead loop over lines that are blank or deeper: the contents of
the non-blank ones are appended to the body, each after the separator when the
body is not empty. -/
theorem collect_body_lines (i : Int) : ∀ (fl tl : List Str) (body : Str),
    (∀ l ∈ fl, line_blank l = true ∨ i < line_indent l) →
    collect_body i (fl ++ tl) body =
      collect_body i tl (((fl.filter (fun l => !line_blank l)).map line_content).foldl
        (fun b t => (if b.length > 0 then b ++ " \\\\ ".toList else b) ++ t) body)
  | [], _, _, _ => rfl
  | l :: fl, tl, body, h => by
    have hfl : ∀ x ∈ fl, line_blank x = true ∨ i < line_indent x :=
      fun x hx => h x (List.mem_cons_of_mem l hx)
    by_cases hb : line_blank l = true
    · rw [List.cons_append, collect_body_blank i _ body hb, collect_body_lines i fl tl body hfl]
      simp [List.filter, hb]
    · simp only [Bool.not_eq_true] at hb
      have hd : i < line_indent l := by
        rcases h l (List.mem_cons_self l fl) with h1 | h1
        · rw [hb] at h1; exact absurd h1 (by decide)
        · exact h1
      rw [List.cons_append, collect_body_line i _ body hb hd, collect_body_lines i fl tl _ hfl]
      simp [List.filter, hb]

theorem join_with_append_sep (sep a t : Str) (segs : List Str) :
    join_with sep ((a ++ sep ++ t) :: segs) = a ++ sep ++ join_with sep (t :: segs) := by
  cases segs with
  | nil => rfl
  | cons s ss => simp [join_with]

/-- Appending non-empty segments to a body one by one, each after the
separator when the body is not empty, joins them with the separator. -/
theorem foldl_segments_eq_join (sep : Str) : ∀ (segs : List Str) (body : Str),
    (∀ t ∈ segs, t ≠ []) →
    segs.foldl (fun b t => (if b.length > 0 then b ++ sep else b) ++ t) body
      = join_with sep ((if body = [] then [] else [body]) ++ segs)
  | [], body, _ => by
    by_cases hb : body = []
    · simp [hb, join_with]
    · simp [hb, join_with]
  | t :: segs, body, h => by
    have ht : t ≠ [] := h t (List.mem_cons_self t segs)
    have hs : ∀ x ∈ segs, x ≠ [] := fun x hx => h x (List.mem_cons_of_mem t hx)
    rw [List.foldl_cons, foldl_segments_eq_join sep segs _ hs]
    by_cases hb : body = []
    · subst hb
      simp [ht]
    · have hl : body.length > 0 := List.length_pos.mpr hb
      have hne : body ++ sep ++ t ≠ [] := by simp [hb]
      simp only [hl, if_true, hne, if_false, hb, List.singleton_append]
      exact join_with_append_sep sep body t segs

theorem line_content_ne_nil {l : Str} (h : line_blank l = false) : line_content l ≠ [] := by
  intro e
  rw [line_blank, e] at h
  exact absurd h (by decide)

theorem collect_body_segments (i : Int) (fl tl : List Str) (after : Str)
    (h : ∀ l ∈ fl, line_blank l = true ∨ i < line_indent l) :
    collect_body i (fl ++ tl) after =
      collect_body i tl (join_with " \\\\ ".toList (body_segments after fl)) := by
  rw [collect_body_lines i fl tl after h, foldl_segments_eq_join]
  · rfl
  · intro t ht
    obtain ⟨l, hl, rfl⟩ := List.mem_map.mp ht
    have := (List.mem_filter.mp hl).2
    exact line_content_ne_nil (by simpa using this)

/-- C17: a header whose name is a braced command, with no argument text and
the text `after` behind the colon, at indentation `cols w`, followed by lines
`fl` that are blank or indented deeper. The segments are `after`, if not
empty, and the content of each non-blank line of `fl`; the round writes
`\name\x7bB\x7d` where `B` is the inline escaping of the segments joined by
space, backslash, backslash, space, the separator standing between consecutive
segments only. A following non-blank line `L` indented no deeper ends the
collection and goes to the pushback slot, from where the next round dispatches
it as if it were read from the input; so does the end of the input. Every
braced command name followed by a colon is such a header. -/
theorem C17_braced_command_body (py : Str → Str) (st : List Block) (r : Render)
    (w c e name after : Str) (fl : List Str)
    (hw : IsIndent w) (hc : IsContent c) (he : IsTrail e)
    (hp : parse_header c = some (name, [], after)) (hn : is_braced_command name = true)
    (hready : HeaderReady (close_blocks_for_indent py (cols w) st r).1)
    (hfl : ∀ l ∈ fl, line_blank l = true ∨ cols w < line_indent l) :
    (∀ (L : Str) (rest : List Str), line_blank L = false → line_indent L ≤ cols w →
      main_iter py { st := st, r := r, pending_line := none,
                     fp := (w ++ c ++ e) :: (fl ++ L :: rest) } = some
        { st := (close_blocks_for_indent py (cols w) st r).1,
          r := fputs ("\\".toList ++ name ++ "\x7b".toList ++
              fputs_with_n_escapes_inline (join_with " \\\\ ".toList (body_segments after fl))
              ++ "\x7d\n".toList)
            (emit_default_preamble_once (close_blocks_for_indent py (cols w) st r).2),
          pending_line := some (rstrip_inplace L), fp := rest } ∧
      main_iter py
        { st := (close_blocks_for_indent py (cols w) st r).1,
          r := fputs ("\\".toList ++ name ++ "\x7b".toList ++
              fputs_with_n_escapes_inline (join_with " \\\\ ".toList (body_segments after fl))
              ++ "\x7d\n".toList)
            (emit_default_preamble_once (close_blocks_for_indent py (cols w) st r).2),
          pending_line := some (rstrip_inplace L), fp := rest } =
      main_iter py
        { st := (close_blocks_for_indent py (cols w) st r).1,
          r := fputs ("\\".toList ++ name ++ "\x7b".toList ++
              fputs_with_n_escapes_inline (join_with " \\\\ ".toList (body_segments after fl))
              ++ "\x7d\n".toList)
            (emit_default_preamble_once (close_blocks_for_indent py (cols w) st r).2),
          pending_line := none, fp := L :: rest }) ∧
    main_iter py { st := st, r := r, pending_line := none, fp := (w ++ c ++ e) :: fl } = some
      { st := (close_blocks_for_indent py (cols w) st r).1,
        r := fputs ("\\".toList ++ name ++ "\x7b".toList ++
            fputs_with_n_escapes_inline (join_with " \\\\ ".toList (body_segments after fl))
            ++ "\x7d\n".toList)
          (emit_default_preamble_once (close_blocks_for_indent py (cols w) st r).2),
        pending_line := none, fp := [] } ∧
    ∀ n ∈ braced_commands, parse_header (n ++ ":".toList) = some (n, [], []) := by
  refine ⟨fun L rest hL hLi => ⟨?_, main_iter_pushback py _ _ L rest⟩, ?_, by decide⟩
  · rw [main_iter_header_read py st r _ hw hc he hready hp,
      dispatch_header_braced_command _ _ _ _ _ _ hn, do_braced_body]
    simp only [collect_body_segments _ fl _ after hfl, collect_body_stop _ rest _ hL hLi]
  · rw [main_iter_header_read py st r _ hw hc he hready hp,
      dispatch_header_braced_command _ _ _ _ _ _ hn, do_braced_body]
    have := collect_body_segments (cols w) fl [] after hfl
    rw [List.append_nil] at this
    simp only [this, collect_body]

set_option maxRecDepth 100000 in
/-- C17 at `author: Ann`, the deeper line `Bob`, a blank line, the deeper line
`Cy` and the line `text`: three segments, two separators. -/
theorem C17_braced_command_body_witness :
    main_iter id (State.init ["author: Ann\n".toList, "  Bob\n".toList, "\n".toList,
        "   Cy\n".toList, "text\n".toList]) = some
      { st := [],
        r := fputs "\\author\x7bAnn \\\\ Bob \\\\ Cy\x7d\n".toList
          (emit_default_preamble_once { g_doc_open := false, out := [] }),
        pending_line := some "text".toList, fp := [] } :=
  ((C17_braced_command_body id [] { g_doc_open := false, out := [] } [] "author: Ann".toList
    "\n".toList "author".toList "Ann".toList ["  Bob\n".toList, "\n".toList, "   Cy\n".toList]
    (by unfold IsIndent; decide) (by unfold IsContent; decide) (by unfold IsTrail; decide)
    (by decide) (by decide) (by unfold HeaderReady; decide) (by decide)).1
    "text\n".toList [] (by decide) (by decide)).1

/-! ## The fallback for lines that are no header -/

theorem looks_like_command_call_iff (c : Str) :
    looks_like_command_call c = true ↔ CommandCall c := by
  constructor
  · intro h
    cases c with
    | nil => simp [looks_like_command_call] at h
    | cons c0 rest =>
      simp only [looks_like_command_call] at h
      by_cases h0 : is_ident_start c0 = true
      · simp only [h0, Bool.not_true, Bool.false_eq_true, if_false] at h
        cases hd : rest.dropWhile is_ident_char with
        | nil => rw [hd] at h; simp at h
        | cons x t =>
          rw [hd] at h
          simp only [Bool.or_eq_true, beq_iff_eq] at h
          refine ⟨c0 :: rest.takeWhile is_ident_char, x, t, ?_, h, ?_⟩
          · refine ⟨c0, _, rfl, ?_, fun y hy => ?_⟩
            · simpa [is_ident_start] using h0
            · have := List.mem_takeWhile_imp hy
              simpa [is_ident_char, isalnum, or_assoc] using this
          · rw [List.cons_append, ← hd, List.takeWhile_append_dropWhile]
      · simp [h0] at h
  · rintro ⟨id, x, t, hid, hx, rfl⟩
    obtain ⟨c0, cs, rfl, h0, hcs⟩ := isIdentifier_chars hid
    have hxi : is_ident_char x = false := by
      rcases hx with rfl | rfl <;> decide
    have hd := (dropWhile_append_stop cs (x :: t) hcs
      (fun y hy => by simp at hy; subst hy; exact hxi)).1
    simp only [List.cons_append, looks_like_command_call, h0, Bool.not_true, Bool.false_eq_true,
      if_false, hd]
    rcases hx with rfl | rfl <;> decide

theorem inside_list_env_iff (st : List Block) : inside_list_env st = true ↔ TopIsList st := by
  cases st with
  | nil => simp [inside_list_env, TopIsList]
  | cons top rest => simp [inside_list_env, TopIsList]

/-- The marker that `strip_list_marker` removes from a content string: `- ` or
`* ` at its start, once. -/
theorem strip_list_marker_content (c : Str) (hc : lskip_spaces c = c) :
    (∀ t, c = '-' :: ' ' :: t → strip_list_marker c = t) ∧
    (∀ t, c = '*' :: ' ' :: t → strip_list_marker c = t) ∧
    (¬ "- ".toList <+: c → ¬ "* ".toList <+: c → strip_list_marker c = c) := by
  unfold strip_list_marker
  rw [hc]
  refine ⟨fun t e => by subst e; rfl, fun t e => by subst e; rfl, fun h1 h2 => ?_⟩
  match c with
  | [] => rfl
  | [a] => rfl
  | a :: b :: t =>
    simp only []
    split_ifs with h
    · exfalso
      simp only [Bool.and_eq_true, Bool.or_eq_true, beq_iff_eq] at h
      obtain ⟨ha | ha, hb⟩ := h
      · exact h1 ⟨t, by simp [ha, hb]⟩
      · exact h2 ⟨t, by simp [ha, hb]⟩
    · rfl

theorem item_n_escapes_eq_text (s : Str) : item_n_escapes s = text_n_escapes s := by
  rw [item_n_escapes_eq_join, text_n_escapes_eq_join]

/-- A line that is no header, on a stack that is ready for a header after the
closing pass, goes to the fallback. -/
theorem main_iter_literal_read (py : Str → Str) (st : List Block) (r : Render) {w c e : Str}
    (rest : List Str) (hw : IsIndent w) (hc : IsContent c) (he : IsTrail e)
    (hready : HeaderReady (close_blocks_for_indent py (cols w) st r).1)
    (hp : parse_header c = none) :
    main_iter py { st := st, r := r, pending_line := none, fp := (w ++ c ++ e) :: rest } =
      some (dispatch_literal c
        { st := (close_blocks_for_indent py (cols w) st r).1,
          r := (close_blocks_for_indent py (cols w) st r).2,
          pending_line := none, fp := rest }) := by
  have htodo : State.todo
      { st := st, r := r, pending_line := none, fp := (w ++ c ++ e) :: rest }
        = (w ++ c ++ e) :: rest := rfl
  rw [main_iter_of_todo py htodo, process_line_content py hw hc he,
    dispatch_top_of_ready _ _ _ _ hready]
  unfold dispatch_line
  simp only [hp]

/-- C18: a non-blank line with content `c` on which `parse_header` reports no
match, with no consuming block on top after the closing pass: the round
writes the preamble if it is still due and one line `X`, pushes and pops
nothing more, and consumes only this line. `X` is `c` unchanged when `c`
starts with a backslash; else a backslash and `c` unchanged when `c` is an
identifier immediately followed by `\x7b` or `[`; else, when the innermost
open block is a list Environment, `\item ` and the escaped text of `c` without
one leading `- ` or `* `; else the escaped text of `c`. -/
theorem C18_fallback_literal (py : Str → Str) (st : List Block) (r : Render)
    (w c e : Str) (rest : List Str)
    (hw : IsIndent w) (hc : IsContent c) (he : IsTrail e)
    (hp : parse_header c = none)
    (hready : HeaderReady (close_blocks_for_indent py (cols w) st r).1) :
    (∃ X, main_iter py { st := st, r := r, pending_line := none, fp := (w ++ c ++ e) :: rest }
        = some
          { st := (close_blocks_for_indent py (cols w) st r).1,
            r := fputs (X ++ "\n".toList)
              (emit_default_preamble_once (close_blocks_for_indent py (cols w) st r).2),
            pending_line := none, fp := rest } ∧
      (c.head? = some '\\' → X = c) ∧
      (c.head? ≠ some '\\' → CommandCall c → X = '\\' :: c) ∧
      (c.head? ≠ some '\\' → ¬ CommandCall c →
        TopIsList (close_blocks_for_indent py (cols w) st r).1 →
        X = "\\item ".toList ++ text_n_escapes (strip_list_marker c)) ∧
      (c.head? ≠ some '\\' → ¬ CommandCall c →
        ¬ TopIsList (close_blocks_for_indent py (cols w) st r).1 →
        X = text_n_escapes c)) ∧
    (∀ t, c = '-' :: ' ' :: t → strip_list_marker c = t) ∧
    (∀ t, c = '*' :: ' ' :: t → strip_list_marker c = t) ∧
    (¬ "- ".toList <+: c → ¬ "* ".toList <+: c → strip_list_marker c = c) := by
  refine ⟨?_, strip_list_marker_content c hc.1⟩
  rw [main_iter_literal_read py st r rest hw hc he hready hp]
  unfold dispatch_literal
  by_cases h1 : c.head? = some '\\'
  · refine ⟨c, ?_, fun _ => rfl, fun h => absurd h1 h, fun h => absurd h1 h,
      fun h => absurd h1 h⟩
    rw [if_pos h1]
  · rw [if_neg h1]
    by_cases h2 : looks_like_command_call c = true
    · have h2c := (looks_like_command_call_iff c).mp h2
      refine ⟨'\\' :: c, ?_, fun h => absurd h h1, fun _ _ => rfl, fun _ h => absurd h2c h,
        fun _ h => absurd h2c h⟩
      rw [if_pos h2]
      rfl
    · have h2c : ¬ CommandCall c := fun h => h2 ((looks_like_command_call_iff c).mpr h)
      rw [if_neg h2]
      by_cases h3 : inside_list_env (close_blocks_for_indent py (cols w) st r).1 = true
      · have h3c := (inside_list_env_iff _).mp h3
        refine ⟨"\\item ".toList ++ text_n_escapes (strip_list_marker c), ?_,
          fun h => absurd h h1, fun _ h => absurd h h2c, fun _ _ _ => rfl,
          fun _ _ h => absurd h3c h⟩
        rw [if_pos h3]
        simp only [item_n_escapes_eq_text]
      · have h3c : ¬ TopIsList (close_blocks_for_indent py (cols w) st r).1 :=
          fun h => h3 ((inside_list_env_iff _).mpr h)
        refine ⟨text_n_escapes c, ?_, fun h => absurd h h1, fun _ h => absurd h h2c,
          fun _ _ h => absurd h h3c, fun _ _ _ => rfl⟩
        rw [if_neg h3]
        rfl

set_option maxRecDepth 100000 in
/-- C18 at the line `- one\ntwo` inside an open `itemize`: the marker is
removed, and `\item ` and the escaped text are written. -/
theorem C18_fallback_literal_witness :
    ∃ X, main_iter id
        { st := [{ Block.zero with kind := BlockKind.BLK_ENV, indent_cols := 0,
                                   env_name := "itemize".toList, is_list := true }],
          r := { g_doc_open := true, out := [] }, pending_line := none,
          fp := ["  - one\\ntwo\n".toList] }
        = some
          { st := [{ Block.zero with kind := BlockKind.BLK_ENV, indent_cols := 0,
                                     env_name := "itemize".toList, is_list := true }],
            r := fputs (X ++ "\n".toList) { g_doc_open := true, out := [] },
            pending_line := none, fp := [] } ∧
      X = "\\item one\\\\\ntwo".toList :=
  (C18_fallback_literal id
    [{ Block.zero with kind := BlockKind.BLK_ENV, indent_cols := 0,
                       env_name := "itemize".toList, is_list := true }]
    { g_doc_open := true, out := [] } "  ".toList "- one\\ntwo".toList "\n".toList []
    (by unfold IsIndent; decide) (by unfold IsContent; decide) (by unfold IsTrail; decide)
    (by decide) (by unfold HeaderReady; decide)).1.imp fun _ h =>
      ⟨h.1, (h.2.2.2.1 (by decide)
        (by rw [← looks_like_command_call_iff]; decide)
        ⟨_, _, rfl, rfl, rfl⟩).trans (by decide)⟩

/-! ## Environment headers -/

theorem isIdentifier_of_chars {c0 : Char} {cs : Str} (h0 : is_ident_start c0 = true)
    (hcs : ∀ x ∈ cs, is_ident_char x = true) : IsIdentifier (c0 :: cs) := by
  refine ⟨c0, cs, rfl, ?_, fun x hx => ?_⟩
  · simpa [is_ident_start] using h0
  · have := hcs x hx
    simpa [is_ident_char, isalnum, or_assoc] using this

/-- The names of the environment vocabulary with no `*` are identifiers, and
belong to no other vocabulary. -/
theorem known_environments_plain : ∀ n ∈ known_environments, '*' ∉ n →
    (match n with
      | [] => false
      | c :: cs => is_ident_start c && cs.all is_ident_char) = true ∧
    is_nobody_command n = false ∧ is_braced_command n = false ∧ is_title_command n = false ∧
    streq n "latex".toList = false ∧ streq n "math".toList = false ∧
    streq n "python".toList = false := by
  decide

theorem dispatch_header_environment (content name args : Str) (i : Int) (s : State)
    (hn : is_known_environment name = true) (hs : '*' ∉ name) :
    dispatch_header content name args [] i s =
      { s with
        st := { Block.zero with kind := BlockKind.BLK_ENV, indent_cols := i,
                                env_name := name, is_list := is_list_env_name name } :: s.st,
        r := { g_doc_open := (emit_default_preamble_once s.r).g_doc_open,
               out := (emit_default_preamble_once s.r).out ++ [Ev.begin_env name args] } } := by
  obtain ⟨_, h1, h2, h3, h4, h5, h6⟩ := known_environments_plain name (mem_of_any_streq hn) hs
  unfold dispatch_header
  have hr : is_recognized_header_name name = true := by
    simp [is_recognized_header_name, hn]
  simp only [hr, hn, h1, h2, h3, h4, h5, h6, Bool.not_true, Bool.false_eq_true, if_false,
    if_true, ne_eq, not_true_eq_false]

/-- The header made of an environment name with no `*`, argument text of
groups with no space or tab at either end, and a colon. -/
theorem parse_header_environment {name A : Str} (hn : is_known_environment name = true)
    (hs : '*' ∉ name) (hA : GroupSeq A) (hl : lskip_spaces A = A) (hr : rstrip_inplace A = A) :
    IsContent (name ++ A ++ ":".toList) ∧
    parse_header (name ++ A ++ ":".toList) = some (name, A, []) := by
  have hp := (known_environments_plain name (mem_of_any_streq hn) hs).1
  match name, hp with
  | c0 :: cs, hp =>
    simp only [Bool.and_eq_true, List.all_eq_true] at hp
    have hid := isIdentifier_of_chars hp.1 hp.2
    have hrs : rstrip_inplace (c0 :: cs ++ A ++ ":".toList) = c0 :: cs ++ A ++ ":".toList := by
      rw [rstrip_inplace_eq_self_iff]
      intro x hx
      rw [List.getLast?_append_of_ne_nil _ (by simp)] at hx
      simp at hx
      subst hx
      decide
    have hsp := is_sp_false_of_ident_start hp.1
    refine ⟨⟨?_, hrs, ?_⟩, ?_⟩
    · exact lskip_spaces_cons_of_not_sp _ hsp
    · have hns : isspace c0 = false := by
        have h0 := hp.1
        by_contra hc
        simp only [Bool.not_eq_false] at hc
        simp only [isspace, Bool.or_eq_true, beq_iff_eq] at hc
        rcases hc with ((((rfl | rfl) | rfl) | rfl) | rfl) | rfl <;> revert h0 <;> decide
      simp [is_blank_line, hns]
    · have hsc : is_sp ':' = false := by decide
      rw [parse_header_of_form hid hA (fun _ y hy => by simp at hy; subst hy; decide) hrs]
      have e1 : lskip_spaces ":".toList = ':' :: [] := rfl
      rw [e1, scan_groups_other _ ':' [] (by decide) (by decide)]
      have e2 : (A ++ ":".toList).take ((A ++ ":".toList).length - [':'].length) = A := by
        simp
      simp only [bne_self_eq_false, Bool.false_eq_true, if_false, e2, hr, hl]
      rfl

set_option maxRecDepth 1000000 in
/-- C12, the code at the failing input: `figure*` is in the environment
vocabulary, but `parse_header` reports no match on `figure*:`, as on every
name of the vocabulary with a `*` followed by a colon (the identifier scan
stops at the `*`); the run on `figure*:` and a deeper line writes both as
plain text lines, with no `\begin`. For the names of the vocabulary with no
`*` the claim holds: with argument text `A` made of groups (no space or tab at
either end) and no consuming block on top after the closing pass, the header
writes the preamble if it is still due and `\begin\x7bname\x7d` followed by
`A`, and pushes an Environment block with that name, whose `is_list` flag is
set exactly for `itemize`, `enumerate` and `description`. -/
theorem C12_environment_header :
    is_known_environment "figure*".toList = true ∧
    (∀ n ∈ known_environments, '*' ∈ n → parse_header (n ++ ":".toList) = none) ∧
    (main id ["figure*:\n".toList, "  x\n".toList]).bytes
      = preamble ++ "figure*:\nx\n\\end{document}\n".toList ∧
    (∀ (py : Str → Str) (st : List Block) (r : Render) (w e name A : Str) (rest : List Str),
      IsIndent w → IsTrail e → is_known_environment name = true → '*' ∉ name →
      GroupSeq A → lskip_spaces A = A → rstrip_inplace A = A →
      HeaderReady (close_blocks_for_indent py (cols w) st r).1 →
      main_iter py { st := st, r := r, pending_line := none,
                     fp := (w ++ (name ++ A ++ ":".toList) ++ e) :: rest } = some
        { st := { Block.zero with kind := BlockKind.BLK_ENV, indent_cols := cols w,
                                  env_name := name, is_list := is_list_env_name name } ::
                  (close_blocks_for_indent py (cols w) st r).1,
          r := { g_doc_open := true,
                 out := (emit_default_preamble_once
                    (close_blocks_for_indent py (cols w) st r).2).out ++
                   [Ev.begin_env name A] },
          pending_line := none, fp := rest }) ∧
    (∀ name A : Str, (Ev.begin_env name A).bytes
      = "\\begin\x7b".toList ++ name ++ "\x7d".toList ++ A ++ "\n".toList) ∧
    (∀ name : Str, is_list_env_name name = true ↔
      name = "itemize".toList ∨ name = "enumerate".toList ∨ name = "description".toList) := by
  refine ⟨by decide, by decide, by decide, ?_, fun _ _ => rfl, fun name => ?_⟩
  · intro py st r w e name A rest hw he hn hs hA hl hr hready
    obtain ⟨hc, hp⟩ := parse_header_environment hn hs hA hl hr
    rw [main_iter_header_read py st r rest hw hc he hready hp,
      dispatch_header_environment _ _ _ _ _ hn hs]
    simp
  · simp [is_list_env_name, streq, or_assoc]

/-! ## Consuming blocks stay on top -/

theorem pushStep_of_shapeStep {i : Int} {old new : List Block} (h : ShapeStep i old new)
    (hr : HeaderReady old) : PushStep i old new := by
  rcases h with h | h
  · exact Or.inl h
  · exact Or.inr ⟨h, hr⟩

theorem dispatch_top_pushStep (line content : Str) (i : Int) (s : State) :
    PushStep i s.st (dispatch_top line content i s).st := by
  cases hst : s.st with
  | nil =>
    have h := dispatch_top_shape line content i s
    rw [hst] at h
    exact pushStep_of_shapeStep h (by intro top ht; simp at ht)
  | cons top rest =>
    by_cases hk : top.kind = BlockKind.BLK_ENV
    · have h := dispatch_top_shape line content i s
      rw [hst] at h
      exact pushStep_of_shapeStep h (by
        intro t ht
        simp at ht
        subst ht
        exact hk)
    · left
      unfold dispatch_top
      rw [hst]
      simp only []
      split
      · simp [shape]
      · split_ifs <;> simp [shape]
      · simp [shape]
      · rename_i hk2
        exact absurd hk2 hk

theorem envBelowTop_iff_shape (st : List Block) :
    EnvBelowTop st ↔ ∀ p ∈ (shape st).tail, p.1 = BlockKind.BLK_ENV := by
  cases st with
  | nil => simp [EnvBelowTop, shape]
  | cons b rest => simp [EnvBelowTop, shape]

theorem envBelowTop_of_shape_eq {st st1 : List Block} (h : shape st1 = shape st)
    (hs : EnvBelowTop st) : EnvBelowTop st1 := by
  rw [envBelowTop_iff_shape] at *
  rw [h]
  exact hs

theorem envBelowTop_append_right {a b : List Block} (h : EnvBelowTop (a ++ b)) :
    EnvBelowTop b := by
  intro x hx
  apply h x
  cases a with
  | nil => simpa using hx
  | cons y ys =>
    simp only [List.cons_append, List.tail_cons, List.mem_append]
    exact Or.inr (List.mem_of_mem_tail hx)

theorem envBelowTop_of_pushStep {i : Int} {old new : List Block} (h : PushStep i old new)
    (ho : EnvBelowTop old) : EnvBelowTop new := by
  rcases h with h | ⟨⟨k, h⟩, hr⟩
  · exact envBelowTop_of_shape_eq h ho
  · rw [envBelowTop_iff_shape, h]
    intro p hp
    simp only [List.tail_cons] at hp
    cases old with
    | nil => simp [shape] at hp
    | cons top rest =>
      simp only [shape, List.map_cons, List.mem_cons, List.mem_map] at hp
      rcases hp with rfl | ⟨b, hb, rfl⟩
      · exact hr top rfl
      · exact ho b (by simpa using hb)

theorem process_line_pushStep (py : Str → Str) (line : Str) (s : State)
    (hb : line_blank line = false) :
    PushStep (line_indent line) (close_blocks_for_indent py (line_indent line) s.st s.r).1
      (process_line py line s).st := by
  rw [process_line_nonblank py line s hb]
  exact dispatch_top_pushStep _ _ _ _

theorem process_line_envBelowTop (py : Str → Str) (line : Str) (s : State)
    (hs : EnvBelowTop s.st) : EnvBelowTop (process_line py line s).st := by
  by_cases hb : line_blank line = true
  · exact envBelowTop_of_shape_eq (process_line_blank_shape py line s hb) hs
  · simp only [Bool.not_eq_true] at hb
    obtain ⟨closed, h1, _, _, _⟩ := close_blocks_for_indent_spec py (line_indent line) s.st s.r
    have hk : EnvBelowTop (close_blocks_for_indent py (line_indent line) s.st s.r).1 := by
      rw [h1] at hs
      exact envBelowTop_append_right hs
    exact envBelowTop_of_pushStep (process_line_pushStep py line s hb) hk

theorem main_iter_envBelowTop {py : Str → Str} {s s1 : State} (hm : main_iter py s = some s1)
    (hs : EnvBelowTop s.st) : EnvBelowTop s1.st := by
  unfold main_iter at hm
  split at hm
  · simp only [Option.some.injEq] at hm
    subst hm
    exact process_line_envBelowTop py _ _ hs
  · split at hm
    · simp at hm
    · simp only [Option.some.injEq] at hm
      subst hm
      exact process_line_envBelowTop py _ _ hs

theorem reachable_envBelowTop {py : Str → Str} {s : State} (h : Reachable py s) :
    EnvBelowTop s.st := by
  induction h with
  | init lines => simp [State.init, EnvBelowTop]
  | step _ hm ih => exact main_iter_envBelowTop hm ih

/-- C22: in every state that `main` reaches (before its loop and after each
round, on any input), the opening indentations of the blocks on the stack grow
strictly from the bottom to the top (the stack is listed top first), and every
block below the top is an Environment block. A round on a non-blank line, once
the closing pass is done, leaves the shape of the stack as it is or pushes one
block opened at the indentation of the line, and it pushes only when no
consuming block is on top; a round on a blank line leaves the shape of the
stack as it is. -/
theorem C22_stack_invariant (py : Str → Str) (s : State) (hs : Reachable py s) :
    s.st.Pairwise (fun a b => b.indent_cols < a.indent_cols) ∧
    (∀ b ∈ s.st.tail, b.kind = BlockKind.BLK_ENV) ∧
    (∀ line0 rest, s.todo = line0 :: rest → line_blank line0 = false →
      ∃ s1, main_iter py s = some s1 ∧ Reachable py s1 ∧
        PushStep (line_indent line0)
          (close_blocks_for_indent py (line_indent line0) s.st s.r).1 s1.st) ∧
    (∀ line0 rest, s.todo = line0 :: rest → line_blank line0 = true →
      ∃ s1, main_iter py s = some s1 ∧ Reachable py s1 ∧ shape s1.st = shape s.st) := by
  refine ⟨?_, reachable_envBelowTop hs, fun line0 rest hn hb => ?_, fun line0 rest hn hb => ?_⟩
  · have h := reachable_sorted hs
    unfold StackSorted shape at h
    rw [List.pairwise_map] at h
    exact h
  · have hm := main_iter_of_todo py hn
    refine ⟨_, hm, Reachable.step hs hm, ?_⟩
    exact process_line_pushStep py line0 _ hb
  · have hm := main_iter_of_todo py hn
    refine ⟨_, hm, Reachable.step hs hm, ?_⟩
    exact process_line_blank_shape py line0 _ hb

set_option maxRecDepth 100000 in
/-- C22 at the state after the three lines `itemize:`, `  center:`,
`    python:`: a Code block on top of two Environment blocks, opened at
indentations 4, 2 and 0. -/
theorem C22_stack_invariant_witness :
    shape (main_loop id 3 (State.init
        ["itemize:".toList, "  center:".toList, "    python:".toList, "      x".toList])).st
      = [(BlockKind.BLK_PYTHON, 4), (BlockKind.BLK_ENV, 2), (BlockKind.BLK_ENV, 0)] ∧
    (main_loop id 3 (State.init
        ["itemize:".toList, "  center:".toList, "    python:".toList, "      x".toList])).st.Pairwise
      (fun a b => b.indent_cols < a.indent_cols) ∧
    ∀ b ∈ (main_loop id 3 (State.init
        ["itemize:".toList, "  center:".toList, "    python:".toList, "      x".toList])).st.tail,
      b.kind = BlockKind.BLK_ENV :=
  have h := C22_stack_invariant id
    (main_loop id 3 (State.init
      ["itemize:".toList, "  center:".toList, "    python:".toList, "      x".toList]))
    (reachable_main_loop 3 (Reachable.init _))
  ⟨by decide, h.1, h.2.1⟩

/-! ## Malformed headers -/

theorem parse_header_none_of_unclosed {c id pre w : Str} (o cl : Char)
    (hoc : (o = '[' ∧ cl = ']') ∨ (o = '{' ∧ cl = '}'))
    (hid : IsIdentifier id) (hpre : GroupSeq pre)
    (e : rstrip_inplace c = id ++ pre ++ o :: w) (hn : NeverCloses o cl w) :
    parse_header c = none := by
  have hsp : is_sp o = false := by rcases hoc with ⟨rfl, rfl⟩ | ⟨rfl, rfl⟩ <;> decide
  have hic : is_ident_char o = false := by rcases hoc with ⟨rfl, rfl⟩ | ⟨rfl, rfl⟩ <;> decide
  rw [parse_header_of_form hid hpre (fun _ y hy => by simp at hy; subst hy; exact hic) e,
    lskip_spaces_cons_of_not_sp _ hsp, scan_groups_open _ o cl w hoc,
    if_pos (scan_group_neverCloses hn)]

theorem parse_header_none_of_no_colon {c id pre tail : Str}
    (hid : IsIdentifier id) (hpre : GroupSeq pre)
    (e : rstrip_inplace c = id ++ pre ++ tail) (hn : NoColonNext pre tail) :
    parse_header c = none := by
  rcases hn with rfl | ⟨x, t, rfl, h1, h2, h3, h4, h5, h6⟩
  · rw [parse_header_of_form hid hpre (fun _ y hy => by simp at hy) e]
    simp [lskip_spaces, scan_groups]
  · have hsp : is_sp x = false := by simp [is_sp, h2, h3]
    rw [parse_header_of_form hid hpre
        (fun hp y hy => by simp at hy; subst hy; exact h6 hp) e,
      lskip_spaces_cons_of_not_sp _ hsp, scan_groups_other _ x t h4 h5]
    simp [h1]

/-- On a malformed header `parse_header` reports no match, and the content
does not start with a backslash. -/
theorem malformedHeader_no_match {c : Str} (hc : rstrip_inplace c = c)
    (hm : MalformedHeader c) : parse_header c = none ∧ c.head? ≠ some '\\' := by
  obtain ⟨id, pre, tail, hid, hpre, e, hcase⟩ := hm
  constructor
  · rcases hcase with ⟨w, rfl, hn⟩ | ⟨w, rfl, hn⟩ | hn
    · exact parse_header_none_of_unclosed '[' ']' (Or.inl ⟨rfl, rfl⟩) hid hpre (hc.trans e) hn
    · exact parse_header_none_of_unclosed '{' '}' (Or.inr ⟨rfl, rfl⟩) hid hpre (hc.trans e) hn
    · exact parse_header_none_of_no_colon hid hpre (hc.trans e) hn
  · obtain ⟨c0, cs, rfl, h0, _⟩ := isIdentifier_chars hid
    rw [e]
    simp only [List.cons_append, List.head?_cons, ne_eq, Option.some.injEq]
    rintro rfl
    revert h0
    decide

set_option maxRecDepth 1000000 in
/-- C21, the claim as stated fails: the line `fig[a` is a malformed header (its
group is never closed) and the line `fig\x7ba\x7d x` is one too (no colon
follows the group); `parse_header` reports no match on both, and the run
writes `\fig[a` and `\fig\x7ba\x7d x`, each with a backslash prepended, not the
lines' own text. -/
theorem C21_counterexample :
    MalformedHeader "fig[a".toList ∧ MalformedHeader "fig{a} x".toList ∧
    parse_header "fig[a".toList = none ∧ parse_header "fig{a} x".toList = none ∧
    (main id ["fig[a\n".toList, "fig{a} x\n".toList]).bytes
      = preamble ++ "\\fig[a\n\\fig{a} x\n\\end{document}\n".toList ∧
    (main id ["fig[a\n".toList, "fig{a} x\n".toList]).bytes
      ≠ preamble ++ "fig[a\nfig{a} x\n\\end{document}\n".toList := by
  have hid : IsIdentifier "fig".toList := isIdentifier_of_chars (by decide) (by decide)
  refine ⟨⟨"fig".toList, [], "[a".toList, hid, GroupSeq.nil, rfl,
      Or.inl ⟨"a".toList, rfl, ?_⟩⟩,
    ⟨"fig".toList, "{a} ".toList, "x".toList, hid, ?_, rfl,
      Or.inr (Or.inr (Or.inr ⟨'x', [], rfl, by decide, by decide, by decide, by decide,
        by decide, fun h => absurd h (by decide)⟩))⟩,
    by decide, by decide, by decide, by decide⟩
  · intro p t e
    have : ']' ∈ "a".toList := by rw [e]; simp
    exact absurd this (by decide)
  · have hg : IsGroup "{a}".toList :=
      Or.inr ⟨"a".toList, Balanced.other 'a' [] (by decide) (by decide) Balanced.nil, rfl⟩
    exact GroupSeq.group "{a}".toList " ".toList hg
      (GroupSeq.space ' ' [] (Or.inl rfl) GroupSeq.nil)

/-- C21, amended: a non-blank line whose content `c` is a malformed header (a
group before the colon is never closed, or no colon follows the identifier and
the groups), with no consuming block and no list Environment on top after the
closing pass: `parse_header` reports no match, and the round writes the
preamble if it is still due and one line, pushes nothing more and consumes
only this line. The line written is the escaped text of `c`, with nothing
prepended or removed, unless `c` is an identifier immediately followed by
`\x7b` or `[`: then it is a backslash followed by `c` unchanged, not
escaped. -/
theorem C21_malformed_header (py : Str → Str) (st : List Block) (r : Render)
    (w c e : Str) (rest : List Str)
    (hw : IsIndent w) (hc : IsContent c) (he : IsTrail e) (hm : MalformedHeader c)
    (hready : HeaderReady (close_blocks_for_indent py (cols w) st r).1)
    (hnl : ¬ TopIsList (close_blocks_for_indent py (cols w) st r).1) :
    parse_header c = none ∧
    ∃ X, main_iter py { st := st, r := r, pending_line := none, fp := (w ++ c ++ e) :: rest }
        = some
          { st := (close_blocks_for_indent py (cols w) st r).1,
            r := fputs (X ++ "\n".toList)
              (emit_default_preamble_once (close_blocks_for_indent py (cols w) st r).2),
            pending_line := none, fp := rest } ∧
      (¬ CommandCall c → X = text_n_escapes c) ∧
      (CommandCall c → X = '\\' :: c) := by
  obtain ⟨hp, h1⟩ := malformedHeader_no_match hc.2.1 hm
  refine ⟨hp, ?_⟩
  rw [main_iter_literal_read py st r rest hw hc he hready hp]
  unfold dispatch_literal
  rw [if_neg h1]
  by_cases h2 : looks_like_command_call c = true
  · have h2c := (looks_like_command_call_iff c).mp h2
    refine ⟨'\\' :: c, ?_, fun h => absurd h2c h, fun _ => rfl⟩
    rw [if_pos h2]
    rfl
  · have h2c : ¬ CommandCall c := fun h => h2 ((looks_like_command_call_iff c).mpr h)
    have h3 : ¬ inside_list_env (close_blocks_for_indent py (cols w) st r).1 = true :=
      fun h => hnl ((inside_list_env_iff _).mp h)
    refine ⟨text_n_escapes c, ?_, fun _ => rfl, fun h => absurd h h2c⟩
    rw [if_neg h2, if_neg h3]
    rfl

set_option maxRecDepth 100000 in
/-- C21, the amended statement at the line `fig [a\nb`: a space stands between
the identifier and the group that is never closed, and the line is written as
its escaped text. -/
theorem C21_malformed_header_witness :
    parse_header "fig [a\\nb".toList = none ∧
    ∃ X, main_iter id (State.init ["fig [a\\nb\n".toList]) = some
        { st := [],
          r := fputs (X ++ "\n".toList)
            (emit_default_preamble_once { g_doc_open := false, out := [] }),
          pending_line := none, fp := [] } ∧
      X = "fig [a\\\\\nb".toList :=
  have h := C21_malformed_header id [] { g_doc_open := false, out := [] } []
    "fig [a\\nb".toList "\n".toList []
    (by unfold IsIndent; decide) (by unfold IsContent; decide) (by unfold IsTrail; decide)
    ⟨"fig".toList, " ".toList, "[a\\nb".toList,
      isIdentifier_of_chars (by decide) (by decide),
      GroupSeq.space ' ' [] (Or.inl rfl) GroupSeq.nil, rfl,
      Or.inl ⟨"a\\nb".toList, rfl, fun p t e =>
        absurd (show ']' ∈ "a\\nb".toList from by rw [e]; simp) (by decide)⟩⟩
    (by unfold HeaderReady; decide)
    (by rw [← inside_list_env_iff]; decide)
  ⟨h.1, h.2.imp fun _ hx =>
    ⟨hx.1, (hx.2.1 (by rw [← looks_like_command_call_iff]; decide)).trans (by decide)⟩⟩

/-! ## Blank lines in a Code block -/

theorem dispatch_header_python (content args after : Str) (i : Int) (s : State) :
    dispatch_header content "python".toList args after i s =
      { s with st := { Block.zero with kind := BlockKind.BLK_PYTHON, indent_cols := i,
                                       py_base_cols := -1,
                                       py_mode := parse_python_results_mode args,
                                       py_code := [] } :: s.st } := rfl

/-- A blank line read while a Code block is on top: a newline is written, the
stack is left as it is. -/
theorem process_line_python_blank (py : Str → Str) (l : Str) (top : Block)
    (rest : List Block) (r : Render) (pl : Option Str) (fp : List Str)
    (hk : top.kind = BlockKind.BLK_PYTHON) (hb : line_blank l = true) :
    process_line py l { st := top :: rest, r := r, pending_line := pl, fp := fp } =
      { st := top :: rest, r := fputs "\n".toList r, pending_line := pl, fp := fp } := by
  unfold process_line
  simp only []
  rw [if_pos (show is_blank_line (List.drop (calc_indent_cols (rstrip_inplace l)).2
    (rstrip_inplace l)) = true from hb)]
  simp [hk]

/-- A content line read while a Code block is on top: the line, without its
trailing whitespace and stripped of the base column, goes to the source with a
newline; nothing is written. -/
theorem process_line_python_content (py : Str → Str) (l : Str) (top : Block)
    (rest : List Block) (r : Render) (pl : Option Str) (fp : List Str)
    (hk : top.kind = BlockKind.BLK_PYTHON) (hb : line_blank l = false)
    (hd : top.indent_cols < line_indent l) :
    process_line py l { st := top :: rest, r := r, pending_line := pl, fp := fp } =
      { st := { top with
                  py_base_cols := if top.py_base_cols < 0 then line_indent l
                    else top.py_base_cols,
                  py_code := top.py_code ++
                    strip_cols (rstrip_inplace l)
                      (if top.py_base_cols < 0 then line_indent l else top.py_base_cols) ++
                    "\n".toList } :: rest,
        r := r, pending_line := pl, fp := fp } := by
  rw [process_line_nonblank py l _ hb]
  simp only [close_blocks_for_indent_keep py rest r hd]
  unfold dispatch_top
  simp only [hk]

theorem py_base_of_nonneg {b : Int} (hb : 0 ≤ b) (body : List Str) : py_base b body = b := by
  unfold py_base
  split
  · rfl
  · rw [if_neg (not_lt.mpr hb)]

theorem block_py_eta (top : Block) :
    { top with py_base_cols := top.py_base_cols, py_code := top.py_code } = top := rfl

/-- The rounds on the lines `body`, all blank or indented deeper than the Code
block on top: the non-blank lines go to the source, one newline is written for
each blank line. -/
theorem main_loop_python_body (py : Str → Str) : ∀ (body : List Str) (top : Block)
    (rest : List Block) (r : Render) (tl : List Str),
    top.kind = BlockKind.BLK_PYTHON →
    (∀ l ∈ body, line_blank l = true ∨ top.indent_cols < line_indent l) →
    main_loop py body.length
        { st := top :: rest, r := r, pending_line := none, fp := body ++ tl } =
      { st := { top with
                  py_base_cols := py_base top.py_base_cols body,
                  py_code := top.py_code ++ py_source (py_base top.py_base_cols body) body }
                :: rest,
        r := blank_newlines body r, pending_line := none, fp := tl }
  | [], top, rest, r, tl, _, _ => by
    simp [main_loop, py_base, py_source, blank_newlines]
  | l :: body, top, rest, r, tl, hk, h => by
    have hrest : ∀ x ∈ body, line_blank x = true ∨ top.indent_cols < line_indent x :=
      fun x hx => h x (List.mem_cons_of_mem l hx)
    rw [List.length_cons, List.cons_append, main_loop_read]
    by_cases hb : line_blank l = true
    · rw [process_line_python_blank py l top rest r none _ hk hb,
        main_loop_python_body py body top rest _ tl hk hrest]
      simp [py_base, py_source, blank_newlines, List.filter, hb]
    · simp only [Bool.not_eq_true] at hb
      have hd : top.indent_cols < line_indent l := by
        rcases h l (List.mem_cons_self l body) with h1 | h1
        · rw [hb] at h1; exact absurd h1 (by decide)
        · exact h1
      have hnn : 0 ≤ (if top.py_base_cols < 0 then line_indent l else top.py_base_cols) := by
        split_ifs with h0
        · exact line_indent_nonneg l
        · exact not_lt.mp h0
      rw [process_line_python_content py l top rest r none _ hk hb hd]
      have ih := main_loop_python_body py body
        { top with
            py_base_cols := if top.py_base_cols < 0 then line_indent l else top.py_base_cols,
            py_code := top.py_code ++
              strip_cols (rstrip_inplace l)
                (if top.py_base_cols < 0 then line_indent l else top.py_base_cols) ++
              "\n".toList }
        rest r tl hk hrest
      refine ih.trans ?_
      simp only [py_base_of_nonneg hnn]
      have e1 : py_base top.py_base_cols (l :: body)
          = (if top.py_base_cols < 0 then line_indent l else top.py_base_cols) := by
        simp [py_base, List.filter, hb]
      rw [e1]
      simp [py_source, blank_newlines, List.filter, hb]

theorem strip_cols_from_suffix : ∀ (line : Str) (c n : Int), strip_cols_from line c n <:+ line
  | [], _, _ => List.suffix_refl _
  | x :: xs, c, n => by
    rw [strip_cols_from]
    by_cases hx : is_sp x = true
    · rw [if_pos hx]
      simp only []
      split_ifs <;>
        first
        | exact List.suffix_refl _
        | exact List.suffix_cons x xs
        | exact (strip_cols_from_suffix xs _ n).trans (List.suffix_cons x xs)
    · rw [if_neg hx]

theorem strip_cols_ne_nil {l : Str} (hb : line_blank l = false) (n : Int) :
    strip_cols (rstrip_inplace l) n ≠ [] := by
  intro e
  obtain ⟨w, hw, hl⟩ := lskip_spaces_decomp (rstrip_inplace l)
  have hh : ∀ x, (lskip_spaces (rstrip_inplace l)).head? = some x → is_sp x = false :=
    (lskip_spaces_eq_self_iff _).mp (lskip_spaces_idem _)
  have h1 := lskip_spaces_strip_cols_from w (lskip_spaces (rstrip_inplace l)) 0 n hw hh
  rw [← hl] at h1
  have h2 : lskip_spaces (strip_cols (rstrip_inplace l) n) = line_content l := by
    rw [line_content_eq]
    exact h1
  rw [e] at h2
  exact line_content_ne_nil hb h2.symm

theorem read_lines_pieces : ∀ (ps : List Str), (∀ p ∈ ps, '\n' ∉ p) →
    read_lines ((ps.map (fun p => p ++ "\n".toList)).flatten)
      = ps.map (fun p => p ++ "\n".toList)
  | [], _ => rfl
  | p :: ps, h => by
    have ih := read_lines_pieces ps (fun x hx => h x (List.mem_cons_of_mem p hx))
    have e : ((p :: ps).map (fun p => p ++ "\n".toList)).flatten
        = p ++ '\n' :: (ps.map (fun p => p ++ "\n".toList)).flatten := by
      simp
    rw [e, read_lines_line p _ (h p (List.mem_cons_self p ps)), ih]
    rfl

/-- A record of the input has no newline but its last character. -/
theorem read_lines_record : ∀ (input : Str), ∀ l ∈ read_lines input,
    ∃ b, '\n' ∉ b ∧ (l = b ∨ l = b ++ ['\n'])
  | [], l, hl => by simp [read_lines] at hl
  | c :: cs, l, hl => by
    have ih := read_lines_record cs
    rw [read_lines] at hl
    by_cases hc : (c == '\n') = true
    · rw [if_pos hc] at hl
      rcases List.mem_cons.mp hl with rfl | hl
      · exact ⟨[], by simp, Or.inr (by simpa using hc)⟩
      · exact ih l hl
    · rw [if_neg hc] at hl
      have hcn : c ≠ '\n' := by simpa using hc
      cases hr : read_lines cs with
      | nil =>
        rw [hr] at hl
        simp at hl
        subst hl
        exact ⟨[c], by simpa using hcn.symm, Or.inl rfl⟩
      | cons l0 ls =>
        rw [hr] at hl ih
        simp only [List.mem_cons] at hl
        rcases hl with rfl | hl
        · obtain ⟨b, hb, hcase⟩ := ih l0 (List.mem_cons_self _ _)
          refine ⟨c :: b, ?_, ?_⟩
          · simp only [List.mem_cons, not_or]
            exact ⟨hcn.symm, hb⟩
          · rcases hcase with rfl | rfl
            · exact Or.inl rfl
            · exact Or.inr rfl
        · exact ih l (List.mem_cons_of_mem _ hl)

theorem read_lines_no_inner_newline (input : Str) :
    ∀ l ∈ read_lines input, '\n' ∉ rstrip_inplace l := by
  intro l hl hm
  obtain ⟨b, hb, hcase⟩ := read_lines_record input l hl
  have hsub : ∀ x : Str, '\n' ∈ rstrip_inplace x → '\n' ∈ x := by
    intro x hx
    have hpre := rstrip_inplace_prefix x
    exact hpre.subset hx
  rcases hcase with rfl | rfl
  · exact hb (hsub _ hm)
  · rw [rstrip_inplace_append_trail b ['\n'] (by intro x hx; simp at hx; subst hx; decide)] at hm
    exact hb (hsub _ hm)

/-- The lines of the source of a Code block are the non-blank lines of its
body, base-stripped; none is empty. -/
theorem py_source_lines (base : Int) (body : List Str)
    (h : ∀ l ∈ body, '\n' ∉ rstrip_inplace l) :
    read_lines (py_source base body)
      = (body.filter (fun l => !line_blank l)).map
          (fun l => strip_cols (rstrip_inplace l) base ++ "\n".toList) ∧
    ∀ x ∈ read_lines (py_source base body), x ≠ "\n".toList := by
  have e : py_source base body
      = (((body.filter (fun l => !line_blank l)).map
          (fun l => strip_cols (rstrip_inplace l) base)).map
            (fun p => p ++ "\n".toList)).flatten := by
    unfold py_source
    rw [List.map_map]
    rfl
  have hp : ∀ p ∈ (body.filter (fun l => !line_blank l)).map
      (fun l => strip_cols (rstrip_inplace l) base), '\n' ∉ p := by
    intro p hp hm
    obtain ⟨l, hl, rfl⟩ := List.mem_map.mp hp
    exact h l (List.mem_filter.mp hl).1 ((strip_cols_from_suffix _ 0 base).subset hm)
  have h1 := read_lines_pieces _ hp
  rw [← e, List.map_map] at h1
  refine ⟨h1, ?_⟩
  rw [h1]
  intro x hx e2
  obtain ⟨l, hl, rfl⟩ := List.mem_map.mp hx
  have hb : line_blank l = false := by simpa using (List.mem_filter.mp hl).2
  have hne := strip_cols_ne_nil hb base
  have := congrArg List.length e2
  simp at this
  exact hne this

theorem close_one_block_python (py : Str → Str) (b : Block) (r : Render)
    (hk : b.kind = BlockKind.BLK_PYTHON) :
    ∃ pre post, (close_one_block py b r).out
      = r.out ++ pre ++ [Ev.text (with_final_newline (py b.py_code))] ++ post := by
  unfold close_one_block
  simp only [hk]
  by_cases hg : r.g_doc_open = true
  · split_ifs
    · exact ⟨[], [], by simp [fputs, emit_default_preamble_once, hg]⟩
    · exact ⟨[Ev.text "\\begin{verbatim}\n".toList], [Ev.text "\\end{verbatim}\n".toList],
        by simp [fputs, emit_default_preamble_once, hg]⟩
  · split_ifs
    · exact ⟨[Ev.text preamble], [], by simp [fputs, emit_default_preamble_once, hg]⟩
    · exact ⟨[Ev.text preamble, Ev.text "\\begin{verbatim}\n".toList],
        [Ev.text "\\end{verbatim}\n".toList],
        by simp [fputs, emit_default_preamble_once, hg]⟩

/-- C23: a `python` header at indentation `cols w`, with no consuming block on
top after the closing pass, followed by lines `body` that are blank or
indented deeper. A blank line read while a Code block is on top writes one
newline at once and leaves the stack, and so the source, as it is. After the
header and `body`, the Code block on top holds as source the non-blank lines
of `body` in order, each without its trailing whitespace, stripped of the base
column (the indentation of the first of them) and followed by a newline, and
one newline has been written for each blank line. Closing the block passes
exactly that source to the Code Execution Service `py` and writes the captured
result after what was written before. When the lines are records of an input
(no newline but the last character), the lines of the source are those
non-blank lines, and none of them is empty. -/
theorem C23_python_blank_lines (py : Str → Str) (st : List Block) (r : Render)
    (w c e args after : Str) (body tl : List Str)
    (hw : IsIndent w) (hc : IsContent c) (he : IsTrail e)
    (hp : parse_header c = some ("python".toList, args, after))
    (hready : HeaderReady (close_blocks_for_indent py (cols w) st r).1)
    (hbody : ∀ l ∈ body, line_blank l = true ∨ cols w < line_indent l) :
    (∀ (l : Str) (top : Block) (rest : List Block) (r0 : Render) (pl : Option Str)
      (fp : List Str), top.kind = BlockKind.BLK_PYTHON → line_blank l = true →
      process_line py l { st := top :: rest, r := r0, pending_line := pl, fp := fp } =
        { st := top :: rest, r := fputs "\n".toList r0, pending_line := pl, fp := fp }) ∧
    main_loop py (body.length + 1)
        { st := st, r := r, pending_line := none, fp := (w ++ c ++ e) :: (body ++ tl) } =
      { st := { Block.zero with kind := BlockKind.BLK_PYTHON, indent_cols := cols w,
                                py_base_cols := py_base (-1) body,
                                py_mode := parse_python_results_mode args,
                                py_code := py_source (py_base (-1) body) body }
                :: (close_blocks_for_indent py (cols w) st r).1,
        r := blank_newlines body (close_blocks_for_indent py (cols w) st r).2,
        pending_line := none, fp := tl } ∧
    (∀ r1 : Render, ∃ pre post,
      (close_one_block py
        { Block.zero with kind := BlockKind.BLK_PYTHON, indent_cols := cols w,
                          py_base_cols := py_base (-1) body,
                          py_mode := parse_python_results_mode args,
                          py_code := py_source (py_base (-1) body) body } r1).out
        = r1.out ++ pre ++
          [Ev.text (with_final_newline (py (py_source (py_base (-1) body) body)))] ++ post) ∧
    ((∀ l ∈ body, '\n' ∉ rstrip_inplace l) →
      read_lines (py_source (py_base (-1) body) body)
        = (body.filter (fun l => !line_blank l)).map
            (fun l => strip_cols (rstrip_inplace l) (py_base (-1) body) ++ "\n".toList) ∧
      ∀ x ∈ read_lines (py_source (py_base (-1) body) body), x ≠ "\n".toList) ∧
    (∀ input : Str, ∀ l ∈ read_lines input, '\n' ∉ rstrip_inplace l) := by
  refine ⟨fun l top rest r0 pl fp hk hb => process_line_python_blank py l top rest r0 pl fp hk hb,
    ?_, fun r1 => close_one_block_python py _ r1 rfl, py_source_lines _ body,
    read_lines_no_inner_newline⟩
  have hmi := main_iter_header_read py st r (body ++ tl) hw hc he hready hp
  rw [dispatch_header_python] at hmi
  simp only [main_loop, hmi]
  have ih := main_loop_python_body py body
    { Block.zero with kind := BlockKind.BLK_PYTHON, indent_cols := cols w,
                      py_base_cols := -1,
                      py_mode := parse_python_results_mode args,
                      py_code := [] }
    (close_blocks_for_indent py (cols w) st r).1 (close_blocks_for_indent py (cols w) st r).2
    tl rfl hbody
  refine ih.trans ?_
  simp

set_option maxRecDepth 1000000 in
/-- C23 at `python:` followed by the line `x = 1`, a blank line and the line
`print(x)`, indented by two spaces: the source is the two lines, and one
newline is written. -/
theorem C23_python_blank_lines_witness :
    main_loop id 4 (State.init ["python:\n".toList, "  x = 1\n".toList, "\n".toList,
        "  print(x)\n".toList]) =
      { st := [{ Block.zero with kind := BlockKind.BLK_PYTHON, indent_cols := 0,
                                 py_base_cols := 2,
                                 py_mode := PyResultsMode.PYRES_VERBATIM,
                                 py_code := "x = 1\nprint(x)\n".toList }],
        r := { g_doc_open := false, out := [Ev.text "\n".toList] },
        pending_line := none, fp := [] } :=
  ((C23_python_blank_lines id [] { g_doc_open := false, out := [] } [] "python:".toList
    "\n".toList [] [] ["  x = 1\n".toList, "\n".toList, "  print(x)\n".toList] []
    (by unfold IsIndent; decide) (by unfold IsContent; decide) (by unfold IsTrail; decide)
    (by decide) (by unfold HeaderReady; decide) (by decide)).2.1).trans (by decide)

end EasyLatex
